import Mathlib

/-!
Credential store of `inctl` (`intrinsic/tools/inctl/auth/auth.go`).

A shallow embedding of package `auth`: the token and configuration model
(`ProjectToken`, `ProjectConfiguration`) and the file backed `Store`; and of
the installer address of package `cmdutils` (`intrinsic/assets/cmdutils.go`).

Conventions of the embedding.

* A Go pointer that may be nil is an `Option`; a Go map is a `GoMap`, and a map
  that may be nil is an `Option (GoMap _)`.
* A method that mutates its receiver returns the receiver's new value.  A call
  that panics returns `none`.
* `time.Now()` is an argument `now` of every function that reads the clock.
* A `time.Time` is the instant it denotes, in nanoseconds since the Unix epoch,
  with the offset from UTC of its location at that instant.
* A Go `string` is a Lean `String`, so byte sequences that are not UTF-8 are
  outside the model.
* The operating system is a `World`: a table of the files and directories
  that exist, the process umask and the answer of `os.UserConfigDir`.  The
  process has the right to perform every operation it attempts (as a
  privileged process has) and the devices do not fail, so a system call fails
  only for the structural reasons of `OSError`.  There are no symbolic links.
* `filepath.Match` and `filepath.Glob` read patterns and names by characters;
  Go reads bytes, and decodes UTF-8 for a question mark and a character class,
  which is the same on ASCII text.  A loop of Go that a recursion with a bound
  stands for ends before the bound, which counts the characters of the pattern.
* An `http.Request` has a `Header` that is not nil.
* A `viper.Viper` is the table of its keys, each bound to a flag: the default
  of the flag and the value given for it, if one is given.
-/

namespace Auth

/-! ## Time -/

/-- A `time.Time`: the instant it denotes, in nanoseconds since
1970-01-01T00:00:00Z, and the offset of its location at that instant, in
seconds east of UTC. -/
structure Time where
  unixNano : Int
  offset : Int
  deriving DecidableEq, Repr

/-- A numeral stands for the instant that many nanoseconds after
1970-01-01T00:00:00Z, in UTC. -/
instance (n : Nat) : OfNat Time n := ⟨⟨Int.ofNat n, 0⟩⟩

/-- Go `t.Before(u)`: the instant of `t` is before that of `u`, whatever the
locations. -/
instance : LT Time := ⟨fun t u => t.unixNano < u.unixNano⟩

/-- Not `t.After(u)`: the instant of `t` is that of `u` or before it. -/
instance : LE Time := ⟨fun t u => t.unixNano ≤ u.unixNano⟩

/-- The order of instants is decided on their nanoseconds. -/
instance (t u : Time) : Decidable (t < u) :=
  inferInstanceAs (Decidable (t.unixNano < u.unixNano))

/-- The order of instants is decided on their nanoseconds. -/
instance (t u : Time) : Decidable (t ≤ u) :=
  inferInstanceAs (Decidable (t.unixNano ≤ u.unixNano))

/-- Nanoseconds in a second. -/
def nanosPerSecond : Int := 1000000000

/-- The zero value of `time.Time`: 0001-01-01T00:00:00Z. -/
def Time.zero : Time := ⟨-62135596800 * nanosPerSecond, 0⟩

/-- Go `t.IsZero()`: whether the instant is that of the zero value, whatever
the location. -/
def Time.IsZero (t : Time) : Bool := decide (t.unixNano = Time.zero.unixNano)

/-- Go `t.After(u)`: whether the instant `t` is after `u`. -/
def Time.After (t u : Time) : Bool := decide (u < t)

/-- Go `t.UTC()`: the same instant with the location UTC. -/
def Time.UTC (t : Time) : Time := ⟨t.unixNano, 0⟩

/-- The time `t` with its fraction of a second dropped. -/
def Time.truncateToSecond (t : Time) : Time :=
  ⟨t.unixNano / nanosPerSecond * nanosPerSecond, t.offset⟩

/-- The seconds that the wall clock of the location of `t` shows, counted from
1970-01-01T00:00:00 on that clock: the date and the time of day that
`time.Format` writes. -/
def Time.wallSeconds (t : Time) : Int := t.unixNano / nanosPerSecond + t.offset

/-- The zone offset that the layout `Z07:00` writes, in seconds: hours and
minutes only, the seconds of the offset being dropped (`offset / 60` in Go,
which rounds towards zero). -/
def Time.writtenOffset (t : Time) : Int := Int.tdiv t.offset 60 * 60

/-- Whether the year on the wall clock of `t` is in 0..9999, the years that
`time.Format` writes with exactly the four digits `time.Parse` reads back:
from 0000-01-01T00:00:00 up to 9999-12-31T23:59:59. -/
def Time.hasFourDigitYear (t : Time) : Bool :=
  decide (-62167219200 ≤ t.wallSeconds) && decide (t.wallSeconds ≤ 253402300799)

/-- Whether `time.Parse` accepts the zone offset that `time.Format` writes for
`t`: its hours are at most 24. -/
def Time.hasOffsetInRange (t : Time) : Bool :=
  decide ((Int.tdiv t.offset 60).natAbs / 60 ≤ 24)

/-- The time that `time.Parse(time.RFC3339, _)` makes of the text that
`Format(time.RFC3339)` writes for `t`, when it accepts it: the whole second on
the wall clock of `t`, read at the offset written, which is also the offset of
the result.  The layout `time.RFC3339` ("2006-01-02T15:04:05Z07:00") has no
fraction of a second and no seconds in the zone offset. -/
def Time.readBack (t : Time) : Time :=
  ⟨(t.wallSeconds - t.writtenOffset) * nanosPerSecond, t.writtenOffset⟩

/-- The text of a timestamp, up to what `time.Parse(time.RFC3339, _)` makes of it. -/
inductive TimeText where
  /-- text that parses, to the time `t` -/
  | stamp (t : Time)
  /-- text that `time.Parse` rejects -/
  | malformed
  deriving DecidableEq, Repr

/-- Go `RFC3339Time`, a `time.Time` with RFC3339 text (un)marshaling. -/
abbrev RFC3339Time := Time

/-- Go `(*RFC3339Time).MarshalText`: `time.Time(*t).Format(time.RFC3339)`; never an error.
The text shows the wall clock of the location of `t`, in whole seconds, and the
zone offset in hours and minutes; with a year outside 0..9999 on that clock, or
an offset of more than 24 hours, it is not text that `time.Parse` accepts. -/
def RFC3339Time.MarshalText (t : RFC3339Time) : TimeText :=
  if Time.hasFourDigitYear t && Time.hasOffsetInRange t then TimeText.stamp (Time.readBack t)
  else TimeText.malformed

/-- Go `(*RFC3339Time).UnmarshalText`: `time.Parse(time.RFC3339, string(text))`;
`none` is the parse error. -/
def RFC3339Time.UnmarshalText : TimeText → Option RFC3339Time
  | TimeText.stamp t => some t
  | TimeText.malformed => none

/-! ## Errors -/

/-- Reasons for which a system call of the model fails. -/
inductive OSError where
  /-- ENOENT: no such file or directory -/
  | notExist
  /-- ENOTDIR: a component of the path is not a directory -/
  | notDir
  /-- EISDIR: the path is a directory -/
  | isDir
  /-- EEXIST: the path exists already -/
  | exist
  /-- EINVAL: the path is not one the call accepts -/
  | invalid
  /-- the error of a configuration directory resolver -/
  | noConfigDir (msg : String)
  deriving DecidableEq, Repr

/-- The errors of package `auth`, one constructor per `fmt.Errorf` call site
or library error. -/
inductive Error where
  /-- Message "nil token" (NilToken) -/
  | nilToken
  /-- Message "project token expired: %s" (ExpiredToken) -/
  | expiredToken (validUntil : RFC3339Time)
  /-- Message "missing api key" (MissingAPIKey) -/
  | missingAPIKey
  /-- Message "token with alias %s not found", the alias in quotes (AliasNotFound) -/
  | aliasNotFound (name : String)
  /-- Message "name name is required" (InvalidProjectName) -/
  | nameRequired
  /-- an error of package `os` -/
  | os (e : OSError)
  /-- an error of `json.Decoder.Decode` -/
  | decode
  /-- Wrapping: `fmt.Errorf(msg + ": %w", cause)` -/
  | wrap (msg : String) (cause : Error)
  deriving DecidableEq, Repr

/-! ## Go maps with string keys -/

/-- A Go `map[string]α`: the entries, looked up by first match. -/
structure GoMap (α : Type) where
  entries : List (String × α)
  deriving DecidableEq, Repr

/-- The order of map keys, that of Go strings: lexicographic by code point. -/
def charsLess : List Char → List Char → Bool
  | [], [] => false
  | [], _ :: _ => true
  | _ :: _, [] => false
  | a :: as, b :: bs =>
    if a.toNat < b.toNat then true
    else if a.toNat = b.toNat then charsLess as bs
    else false

/-- Go `a < b` on strings. -/
def keyLess (a b : String) : Bool := charsLess a.data b.data

/-- Lookup in a list of entries. -/
def lookupEntry {α : Type} (k : String) : List (String × α) → Option α
  | [] => none
  | (k', v) :: rest => if k = k' then some v else lookupEntry k rest

/-- Insertion into a list of entries, which replaces the entry with key `k` or
puts the new entry before the first greater key. -/
def insertEntry {α : Type} (k : String) (v : α) : List (String × α) → List (String × α)
  | [] => [(k, v)]
  | (k', v') :: rest =>
    if k = k' then (k, v) :: rest
    else if keyLess k k' then (k, v) :: (k', v') :: rest
    else (k', v') :: insertEntry k v rest

/-- Go `make(map[string]α)`, also the literal written with empty braces. -/
def GoMap.empty {α : Type} : GoMap α := ⟨[]⟩

/-- Go `v, ok := m[k]`: `none` when `ok` is false. -/
def GoMap.get? {α : Type} (m : GoMap α) (k : String) : Option α := lookupEntry k m.entries

/-- Go `m[k] = v`. -/
def GoMap.set {α : Type} (m : GoMap α) (k : String) (v : α) : GoMap α :=
  ⟨insertEntry k v m.entries⟩

/-- Go `delete(m, k)`. -/
def GoMap.delete {α : Type} (m : GoMap α) (k : String) : GoMap α :=
  ⟨m.entries.filter (fun e => decide (e.1 ≠ k))⟩

/-- Go `len(m)`, for a map without repeated keys. -/
def GoMap.len {α : Type} (m : GoMap α) : Nat := m.entries.length

/-- The entries in increasing order of key, one per key: the order in which
`encoding/json` writes a map. -/
def GoMap.sortedEntries {α : Type} (m : GoMap α) : List (String × α) :=
  m.entries.foldr (fun e acc => insertEntry e.1 e.2 acc) []

/-- The keys increase along the list. -/
def KeysIncrease {α : Type} (l : List (String × α)) : Prop :=
  l.Pairwise (fun a b => keyLess a.1 b.1 = true)


/-- Lookup in a map that may be nil: reading a nil map finds nothing. -/
def lookupNilable {α : Type} (m : Option (GoMap α)) (k : String) : Option α :=
  match m with
  | none => none
  | some m => m.get? k

/-! ## Credential model -/

/-- The alias under which the default token is stored. -/
def AliasDefaultToken : String := "default"

/-- Go `ProjectToken`: an API key and an optional expiry. -/
structure ProjectToken where
  APIKey : String
  ValidUntil : Option RFC3339Time
  deriving DecidableEq, Repr

/-- Go `(*ProjectToken).Validate`; the receiver may be nil. -/
def ProjectToken.Validate (now : Time) (p : Option ProjectToken) : Option Error :=
  match p with
  | none => some Error.nilToken
  | some tok =>
    match tok.ValidUntil with
    | some validUntil =>
      if Time.After now validUntil then some (Error.expiredToken validUntil)
      else if tok.APIKey = "" then some Error.missingAPIKey
      else none
    | none =>
      if tok.APIKey = "" then some Error.missingAPIKey
      else none

/-- A token as it is read back from a file: the expiry is the time that its
RFC3339 text carries. -/
def ProjectToken.readBack (token : ProjectToken) : ProjectToken :=
  ⟨token.APIKey, token.ValidUntil.map Time.readBack⟩

/-- Whether the expiry of the token, if there is a token with an expiry, is
written as text that `time.Parse` accepts: the year on its wall clock has four
digits and its zone offset is at most 24 hours. -/
def expiryHasRFC3339Text : Option ProjectToken → Bool
  | some ⟨_, some validUntil⟩ => Time.hasFourDigitYear validUntil && Time.hasOffsetInRange validUntil
  | _ => true

/-- Whether the expiry of the token, if there is a token with an expiry, is a
whole number of seconds in a zone whose offset is a whole number of minutes:
what RFC3339 text can carry. -/
def expiryIsWholeSecond : Option ProjectToken → Bool
  | some ⟨_, some validUntil⟩ =>
    decide (validUntil.unixNano % nanosPerSecond = 0) && decide (validUntil.offset % 60 = 0)
  | _ => true

/-- Go `ProjectConfiguration`: the tokens of a project by alias. -/
structure ProjectConfiguration where
  Name : String
  Tokens : Option (GoMap (Option ProjectToken))
  LastUpdated : Option RFC3339Time
  deriving DecidableEq, Repr

/-- The token that `SetCredentials` builds: the expiry is the first of the
variadic `validUntil` arguments, unless there is none or it is the zero time. -/
def newToken (apiKey : String) (validUntil : List Time) : ProjectToken :=
  match validUntil with
  | [] => ⟨apiKey, none⟩
  | expires :: _ => if Time.IsZero expires then ⟨apiKey, none⟩ else ⟨apiKey, some expires⟩

/-- Go `(*ProjectConfiguration).SetCredentials`: the receiver after the call
(which is also the configuration returned) and the error returned; `none` is
the panic of an assignment to an entry of a nil map. -/
def ProjectConfiguration.SetCredentials (now : Time) (p : ProjectConfiguration)
    (tokenAlias : String) (apiKey : String) (validUntil : List Time) :
    Option (ProjectConfiguration × Option Error) :=
  let token := newToken apiKey validUntil
  match p.Tokens with
  | none => none
  | some tokens =>
    some (⟨p.Name, some (tokens.set tokenAlias (some token)), p.LastUpdated⟩,
      ProjectToken.Validate now (some token))

/-- Go `(*ProjectConfiguration).SetDefaultCredentials`. -/
def ProjectConfiguration.SetDefaultCredentials (now : Time) (p : ProjectConfiguration)
    (apiKey : String) (validUntil : List Time) :
    Option (ProjectConfiguration × Option Error) :=
  p.SetCredentials now AliasDefaultToken apiKey validUntil

/-- Go `(*ProjectConfiguration).HasCredentials`. -/
def ProjectConfiguration.HasCredentials (p : ProjectConfiguration) (tokenAlias : String) : Bool :=
  match lookupNilable p.Tokens tokenAlias with
  | some _ => true
  | none => false

/-- Go `(*ProjectConfiguration).GetCredentials`: the token (a pointer, nil on
error) and the error. -/
def ProjectConfiguration.GetCredentials (p : ProjectConfiguration) (tokenAlias : String) :
    Option ProjectToken × Option Error :=
  match lookupNilable p.Tokens tokenAlias with
  | none => (none, some (Error.aliasNotFound tokenAlias))
  | some token => (token, none)

/-- Go `(*ProjectConfiguration).GetDefaultCredentials`. -/
def ProjectConfiguration.GetDefaultCredentials (p : ProjectConfiguration) :
    Option ProjectToken × Option Error :=
  p.GetCredentials AliasDefaultToken

/-! ## Authorization of a call -/

/-- Go `(*ProjectToken).GetRequestMetadata`: the metadata map and the error;
`none` is the panic of reading the key of a nil token. -/
def ProjectToken.GetRequestMetadata (now : Time) (p : Option ProjectToken) :
    Option (GoMap String × Option Error) :=
  match p with
  | none => none
  | some tok =>
    some (GoMap.empty.set "authorization" ("Bearer " ++ tok.APIKey),
      ProjectToken.Validate now (some tok))

/-- Go `(*ProjectToken).RequireTransportSecurity`. -/
def ProjectToken.RequireTransportSecurity (_p : Option ProjectToken) : Bool := true

/-- An `http.Request`, as far as the package touches it.  `Header` maps the
canonical name of a header to its values; it is never nil, as in every request
that `http.NewRequest` makes or a server receives. -/
structure Request where
  Method : String
  URL : String
  Header : GoMap (List String)
  deriving DecidableEq, Repr

/-- Go `http.Header.Set`, for a key in canonical form as "Authorization" is:
the values of the key are replaced by the one value. -/
def headerSet (h : GoMap (List String)) (key value : String) : GoMap (List String) :=
  h.set key [value]

/-- Go `(*ProjectToken).HTTPAuthorization`: the request after the call (which
is the one returned) and the error; `none` is the panic of reading the key of
a nil token. -/
def ProjectToken.HTTPAuthorization (now : Time) (p : Option ProjectToken) (req : Request) :
    Option (Request × Option Error) :=
  match p with
  | none => none
  | some tok =>
    some (⟨req.Method, req.URL, headerSet req.Header "Authorization" ("Bearer " ++ tok.APIKey)⟩,
      ProjectToken.Validate now (some tok))


/-! ## Paths (`path/filepath` on a system whose separator is the slash) -/

/-- The elements of a path: the text between the slashes. -/
def splitSlash : List Char → List (List Char)
  | [] => [[]]
  | c :: cs =>
    if c = '/' then [] :: splitSlash cs
    else
      match splitSlash cs with
      | [] => [[c]]
      | seg :: segs => (c :: seg) :: segs

/-- The elements joined by slashes. -/
def joinSlash : List (List Char) → List Char
  | [] => []
  | [seg] => seg
  | seg :: rest => seg ++ '/' :: joinSlash rest

/-- The lexical processing of `filepath.Clean` on the elements of a path:
empty elements and `.` are dropped, `..` removes the element before it, is
dropped at the root and is kept at the start of a relative path.  `kept` holds
the elements kept so far, the last one first. -/
def cleanElements (rooted : Bool) : List (List Char) → List (List Char) → List (List Char)
  | [], kept => kept.reverse
  | seg :: rest, kept =>
    if seg = [] ∨ seg = ['.'] then cleanElements rooted rest kept
    else if seg = ['.', '.'] then
      match kept with
      | [] => if rooted then cleanElements rooted rest [] else cleanElements rooted rest [seg]
      | top :: below =>
        if top = ['.', '.'] then cleanElements rooted rest (seg :: kept)
        else cleanElements rooted rest below
    else cleanElements rooted rest (seg :: kept)

/-- Whether the path starts at the root. -/
def isRooted : List Char → Bool
  | c :: _ => decide (c = '/')
  | [] => false

/-- Go `filepath.Clean`. -/
def filepathClean (path : String) : String :=
  let rooted := isRooted path.data
  let kept := cleanElements rooted (splitSlash path.data) []
  if rooted then String.mk ('/' :: joinSlash kept)
  else if kept = [] then "."
  else String.mk (joinSlash kept)

/-- Go `filepath.Join` of two elements: empty elements are ignored and the
result is cleaned; the join of empty elements is empty. -/
def filepathJoin (a b : String) : String :=
  if a ≠ "" then filepathClean (a ++ "/" ++ b)
  else if b ≠ "" then filepathClean b
  else ""

/-- The path up to and including its last slash. -/
def upToLastSlash (path : List Char) : List Char :=
  (path.reverse.dropWhile (fun c => decide (c ≠ '/'))).reverse

/-- Go `filepath.Dir`: all but the last element of the path, cleaned. -/
def filepathDir (path : String) : String :=
  filepathClean (String.mk (upToLastSlash path.data))

/-- An element that `filepath.Clean` keeps as it is: not empty, not `.`, not
`..`, and without slash. -/
def PlainElement (e : List Char) : Prop :=
  e ≠ [] ∧ e ≠ ['.'] ∧ e ≠ ['.', '.'] ∧ '/' ∉ e

/-- The elements of a cleaned path: plain elements, after some `..` when the
path is not rooted. -/
def CleanElements (rooted : Bool) (els : List (List Char)) : Prop :=
  ∃ n plains, els = List.replicate n ['.', '.'] ++ plains ∧ (rooted = true → n = 0) ∧
    ∀ e ∈ plains, PlainElement e

/-- The text of a cleaned path with the elements `els`. -/
def renderPath (rooted : Bool) (els : List (List Char)) : List Char :=
  if rooted then '/' :: joinSlash els
  else if els = [] then ['.']
  else joinSlash els


/-! ## Files and the operating system -/

/-- A token as it stands in a file: the members "apiKey" (the empty string
when absent) and "validUntil" (`none` when absent or null). -/
structure TokenDocument where
  apiKey : String
  validUntil : Option TimeText
  deriving DecidableEq, Repr

/-- A configuration as it stands in a file, its members in the order in which
the encoder writes them: "name" (the empty string when absent), "tokens" (`none`
when absent or null; otherwise its members in the order of the text, a null
token being `none`) and "lastUpdated" (`none` when absent or null). -/
structure ConfigurationDocument where
  name : String
  tokens : Option (List (String × Option TokenDocument))
  lastUpdated : Option TimeText
  deriving DecidableEq, Repr

/-- The content of a file, up to what `encoding/json` makes of it. -/
inductive FileContent where
  /-- text that is not a JSON value, such as that of an empty file -/
  | unparsable
  /-- a JSON object with the members of a configuration -/
  | document (d : ConfigurationDocument)
  deriving DecidableEq, Repr

/-- What exists at a path; `mode` holds the permission bits. -/
inductive Node where
  | file (mode : Nat) (content : FileContent)
  | dir (mode : Nat)
  deriving DecidableEq, Repr

/-- The state of the operating system as the store sees it.  `nodes` lists
every file and directory that exists under its cleaned path, the root `/`
and, for the relative paths, the working directory `.` included. -/
structure World where
  nodes : GoMap Node
  umask : Nat
  /-- the result of `os.UserConfigDir()` -/
  userConfigDir : String × Option Error
  deriving DecidableEq, Repr

/-- The `os.FileInfo` of a node. -/
structure FileInfo where
  IsDir : Bool
  Mode : Nat
  deriving DecidableEq, Repr

/-- Go `info.Mode().Perm()`: the permission bits of the mode. -/
def FileInfo.Perm (info : FileInfo) : Nat := info.Mode &&& 0o777

/-- The permission bits `perm` that are not in the umask: what `open` and
`mkdir` give a node they create. -/
def applyUmask (perm umask : Nat) : Nat := perm &&& (0o777 ^^^ (umask &&& 0o777))

/-- The world with `node` at `path`. -/
def World.put (w : World) (path : String) (node : Node) : World :=
  ⟨w.nodes.set path node, w.umask, w.userConfigDir⟩

/-- Go `os.Stat` (also `os.Lstat`, there being no symbolic links). -/
def osStat (w : World) (name : String) : Except OSError FileInfo :=
  match w.nodes.get? name with
  | none => Except.error OSError.notExist
  | some (Node.file mode _) => Except.ok ⟨false, mode⟩
  | some (Node.dir mode) => Except.ok ⟨true, mode⟩

/-- Go `os.Mkdir`: the parent has to be a directory and the path new. -/
def osMkdir (w : World) (name : String) (perm : Nat) : Except OSError World :=
  match w.nodes.get? name with
  | some _ => Except.error OSError.exist
  | none =>
    match w.nodes.get? (filepathDir name) with
    | none => Except.error OSError.notExist
    | some (Node.file _ _) => Except.error OSError.notDir
    | some (Node.dir _) => Except.ok (w.put name (Node.dir (applyUmask perm w.umask)))

/-- The path without its trailing slashes: `path[:i]` in `os.MkdirAll`. -/
def dropTrailingSlashes (path : List Char) : List Char :=
  (path.reverse.dropWhile (fun c => decide (c = '/'))).reverse

/-- The parent that `os.MkdirAll` creates first: `path[:j-1]` when `j > 1`,
where `path[:j]` ends with the last slash before the last element. -/
def mkdirAllParent (path : String) : Option String :=
  let upTo := upToLastSlash (dropTrailingSlashes path.data)
  if 1 < upTo.length then some (String.mk upTo.dropLast) else none

/-- Go `os.MkdirAll`, with the depth of its recursion bounded by `fuel`: the
error and the world it leaves. -/
def osMkdirAllFuel : Nat → World → String → Nat → Option OSError × World
  | 0, w, _, _ => (some OSError.notExist, w)
  | fuel + 1, w, path, perm =>
    match osStat w path with
    | Except.ok info => if info.IsDir then (none, w) else (some OSError.notDir, w)
    | Except.error _ =>
      let parentResult : Option OSError × World :=
        match mkdirAllParent path with
        | some parent => osMkdirAllFuel fuel w parent perm
        | none => (none, w)
      match parentResult with
      | (some err, w1) => (some err, w1)
      | (none, w1) =>
        match osMkdir w1 path perm with
        | Except.ok w2 => (none, w2)
        | Except.error err =>
          match osStat w1 path with
          | Except.ok info => if info.IsDir then (none, w1) else (some err, w1)
          | Except.error _ => (some err, w1)

/-- Go `os.MkdirAll`; each parent is shorter than its path, so the recursion
is no deeper than the path is long. -/
def osMkdirAll (w : World) (path : String) (perm : Nat) : Option OSError × World :=
  osMkdirAllFuel (path.length + 1) w path perm

/-- Go `os.OpenFile(name, os.O_WRONLY|os.O_CREATE|os.O_TRUNC, perm)`, the flags
being `writeFileFlags`: an existing file is emptied and keeps its mode, a new
file gets `perm` less the umask, in a directory that has to exist. -/
def osOpenFile (w : World) (name : String) (perm : Nat) : Except OSError World :=
  match w.nodes.get? name with
  | some (Node.dir _) => Except.error OSError.isDir
  | some (Node.file mode _) => Except.ok (w.put name (Node.file mode FileContent.unparsable))
  | none =>
    match w.nodes.get? (filepathDir name) with
    | none => Except.error OSError.notExist
    | some (Node.file _ _) => Except.error OSError.notDir
    | some (Node.dir _) =>
      Except.ok (w.put name (Node.file (applyUmask perm w.umask) FileContent.unparsable))

/-- Writing `content` to the open file `name`, from its start. -/
def fileWrite (w : World) (name : String) (content : FileContent) : World :=
  match w.nodes.get? name with
  | some (Node.file mode _) => w.put name (Node.file mode content)
  | _ => w

/-- Go `os.Open`: a file or a directory opens for reading when it exists. -/
def osOpen (w : World) (name : String) : Except OSError Node :=
  match w.nodes.get? name with
  | none => Except.error OSError.notExist
  | some node => Except.ok node

/-- The world `w1` has what `w` has and, where `w` has nothing, at most a
directory of mode `perm` less the umask. -/
def World.ExtendedBy (perm : Nat) (w w1 : World) : Prop :=
  w1.umask = w.umask ∧ w1.userConfigDir = w.userConfigDir ∧
  ∀ p, w1.nodes.get? p = w.nodes.get? p ∨
    (w.nodes.get? p = none ∧ w1.nodes.get? p = some (Node.dir (applyUmask perm w.umask)))

/-! ## JSON form of a configuration -/

/-- The JSON object written for a token; "validUntil" has `omitempty`. -/
def encodeToken (token : ProjectToken) : TokenDocument :=
  ⟨token.APIKey, token.ValidUntil.map RFC3339Time.MarshalText⟩

/-- What `json.Encoder.Encode` writes for a configuration: "tokens" is left
out when the map is nil or empty, a map is written in the order of its keys, a
nil token as null, and "lastUpdated" is left out when nil. -/
def encodeConfiguration (config : ProjectConfiguration) : ConfigurationDocument :=
  ⟨config.Name,
   match config.Tokens with
   | none => none
   | some tokens =>
     if tokens.len = 0 then none
     else some (tokens.sortedEntries.map (fun e => (e.1, e.2.map encodeToken))),
   config.LastUpdated.map RFC3339Time.MarshalText⟩

/-- The decoding of the members of "tokens" into the map `tokens`, in the
order of the text: the map so far, and whether a timestamp was rejected, at
which the decoder gives up before it stores the token. -/
def decodeTokens : List (String × Option TokenDocument) → GoMap (Option ProjectToken) →
    GoMap (Option ProjectToken) × Bool
  | [], tokens => (tokens, true)
  | (k, none) :: rest, tokens => decodeTokens rest (tokens.set k none)
  | (k, some doc) :: rest, tokens =>
    match doc.validUntil with
    | none => decodeTokens rest (tokens.set k (some ⟨doc.apiKey, none⟩))
    | some text =>
      match RFC3339Time.UnmarshalText text with
      | none => (tokens, false)
      | some validUntil => decodeTokens rest (tokens.set k (some ⟨doc.apiKey, some validUntil⟩))

/-- What `json.Decoder.Decode` leaves in a zero `ProjectConfiguration` for a
document, and its error.  A rejected timestamp ends the decoding with what was
stored before it; the pointer of a rejected "lastUpdated" is already set, to
the zero time. -/
def decodeDocument (d : ConfigurationDocument) : ProjectConfiguration × Option Error :=
  match d.tokens with
  | none =>
    match d.lastUpdated with
    | none => (⟨d.name, none, none⟩, none)
    | some text =>
      match RFC3339Time.UnmarshalText text with
      | none => (⟨d.name, none, some Time.zero⟩, some Error.decode)
      | some t => (⟨d.name, none, some t⟩, none)
  | some members =>
    match decodeTokens members GoMap.empty with
    | (tokens, false) => (⟨d.name, some tokens, none⟩, some Error.decode)
    | (tokens, true) =>
      match d.lastUpdated with
      | none => (⟨d.name, some tokens, none⟩, none)
      | some text =>
        match RFC3339Time.UnmarshalText text with
        | none => (⟨d.name, some tokens, some Time.zero⟩, some Error.decode)
        | some t => (⟨d.name, some tokens, some t⟩, none)

/-- Go `json.NewDecoder(file).Decode(&result)` on a zero `result`: reading a
directory fails, and so does text that is not JSON. -/
def decodeFile : Node → ProjectConfiguration × Option Error
  | Node.dir _ => (⟨"", none, none⟩, some (Error.os OSError.isDir))
  | Node.file _ FileContent.unparsable => (⟨"", none, none⟩, some Error.decode)
  | Node.file _ (FileContent.document d) => decodeDocument d

/-! ## Store -/

/-- The directory of the store under the configuration directory. -/
def storeDirectory : String := "intrinsic/projects"

/-- The extension of the file of a project. -/
def authConfigExtension : String := ".user-token"

/-- The mode asked for the directories the store creates. -/
def directoryMode : Nat := 0o700

/-- The mode asked for the files the store creates, and the mask that
`HasConfiguration` checks. -/
def fileMode : Nat := 0o600

/-- Go `Store`.  `GetConfigDirFx` is nil or a resolver, given by the pair it
returns; a resolver returns the same pair at every call. -/
structure Store where
  GetConfigDirFx : Option (String × Option Error)
  deriving DecidableEq, Repr

/-- Go `NewStore`. -/
def NewStore : Store := ⟨none⟩

/-- Go `(*Store).getConfigDir`. -/
def Store.getConfigDir (s : Store) (w : World) : String × Option Error :=
  match s.GetConfigDirFx with
  | none => w.userConfigDir
  | some result => result

/-- Go `(*Store).getStoreLocation`. -/
def Store.getStoreLocation (s : Store) (w : World) : String × Option Error :=
  match s.getConfigDir w with
  | (configDir, err) => (filepathJoin configDir storeDirectory, err)

/-- Go `(*Store).getConfigurationFilename`. -/
def Store.getConfigurationFilename (s : Store) (w : World) (name : String) :
    String × Option Error :=
  if name = "" then ("", some Error.nameRequired)
  else
    match s.getStoreLocation w with
    | (_, some err) => ("", some (Error.wrap "cannot find configurations" err))
    | (storeDir, none) => (filepathJoin storeDir (name ++ authConfigExtension), none)

/-- Go `(*Store).HasConfiguration`: the result and the world after the call. -/
def Store.HasConfiguration (s : Store) (w : World) (name : String) : Bool × World :=
  match s.getConfigurationFilename w name with
  | (_, some _) => (false, w)
  | (filename, none) =>
    match osStat w filename with
    | Except.error _ => (false, w)
    | Except.ok info => (info.Perm &&& fileMode == fileMode, w)

/-- Go `NewConfiguration`. -/
def NewConfiguration (name : String) : ProjectConfiguration :=
  ⟨name, some GoMap.empty, none⟩

/-- The end of `GetConfiguration`: the error of the decoder is wrapped, and a
nil `Tokens` is replaced by an empty map. -/
def finishConfiguration (decoded : ProjectConfiguration × Option Error) :
    ProjectConfiguration × Option Error :=
  let err := decoded.2.map (Error.wrap "cannot read name configuration")
  match decoded.1.Tokens with
  | none => (⟨decoded.1.Name, some GoMap.empty, decoded.1.LastUpdated⟩, err)
  | some _ => (decoded.1, err)

/-- Go `(*Store).GetConfiguration`: the configuration (a pointer, nil when the
file was not opened), the error, and the world after the call. -/
def Store.GetConfiguration (s : Store) (w : World) (name : String) :
    (Option ProjectConfiguration × Option Error) × World :=
  match s.getConfigurationFilename w name with
  | (_, some err) => ((none, some (Error.wrap "cannot open configuration for name" err)), w)
  | (filename, none) =>
    match osOpen w filename with
    | Except.error err =>
      ((none, some (Error.wrap "cannot open configuration file" (Error.os err))), w)
    | Except.ok file =>
      match finishConfiguration (decodeFile file) with
      | (result, err) => ((some result, err), w)

/-- Go `(*Store).WriteConfiguration`, the clock reading `now`: the configuration
after the call (which is the one returned), the error, and the world after the
call.  Encoding a configuration and `file.Sync` do not fail. -/
def Store.WriteConfiguration (now : Time) (s : Store) (w : World) (config : ProjectConfiguration) :
    (ProjectConfiguration × Option Error) × World :=
  match s.getConfigurationFilename w config.Name with
  | (_, some err) => ((config, some err), w)
  | (filename, none) =>
    match osMkdirAll w (filepathDir filename) directoryMode with
    | (some err, w1) =>
      ((config, some (Error.wrap "cannot create target directory" (Error.os err))), w1)
    | (none, w1) =>
      match osOpenFile w1 filename fileMode with
      | Except.error err =>
        ((config, some (Error.wrap "cannot open configuration file" (Error.os err))), w1)
      | Except.ok w2 =>
        let updated : ProjectConfiguration := ⟨config.Name, config.Tokens, some (Time.UTC now)⟩
        ((updated, none), fileWrite w2 filename (FileContent.document (encodeConfiguration updated)))

/-! ## Patterns (`filepath.Match`) -/

/-- The backslash, which escapes the next character of a pattern. -/
def backslash : Char := Char.ofNat 92

/-- The error `filepath.ErrBadPattern`: the pattern is malformed. -/
inductive PatternError where
  | ErrBadPattern
  deriving DecidableEq, Repr

deriving instance DecidableEq for Except

/-- Go `scanChunk`, after the leading stars are dropped: the chunk, which runs
up to the next star outside brackets, and the rest of the pattern.  A character
after a backslash is passed over. -/
def scanChunkBody (inrange : Bool) : List Char → List Char × List Char
  | [] => ([], [])
  | c :: cs =>
    if c = backslash then
      match cs with
      | [] => ([c], [])
      | d :: ds => (c :: d :: (scanChunkBody inrange ds).1, (scanChunkBody inrange ds).2)
    else if c = '[' then (c :: (scanChunkBody true cs).1, (scanChunkBody true cs).2)
    else if c = ']' then (c :: (scanChunkBody false cs).1, (scanChunkBody false cs).2)
    else if c = '*' ∧ inrange = false then ([], c :: cs)
    else (c :: (scanChunkBody inrange cs).1, (scanChunkBody inrange cs).2)

/-- Go `scanChunk`: whether the pattern starts with a star, the chunk after
its leading stars, and the rest. -/
def scanChunk (pattern : List Char) : Bool × List Char × List Char :=
  let body := scanChunkBody false (pattern.dropWhile (fun c => decide (c = '*')))
  (match pattern with
    | c :: _ => decide (c = '*')
    | [] => false,
   body.1, body.2)

/-- Go `getEsc`: the character, escaped or not, at the start of what is left of
a character class, and what follows it, which may not be empty. -/
def getEsc (chunk : List Char) : Except PatternError (Char × List Char) :=
  match chunk with
  | [] => Except.error PatternError.ErrBadPattern
  | c :: cs =>
    if c = '-' ∨ c = ']' then Except.error PatternError.ErrBadPattern
    else
      match (if c = backslash then cs else c :: cs) with
      | [] => Except.error PatternError.ErrBadPattern
      | r :: nchunk =>
        if nchunk = [] then Except.error PatternError.ErrBadPattern else Except.ok (r, nchunk)

/-- The loop of `matchChunk` over the ranges of a character class, up to the
closing bracket, which ends the class once a range has been read: whether
`r` is in one of the ranges, and the chunk after the class.  `fuel` bounds the
number of ranges, each of which takes a character of the chunk at least. -/
def classRanges : Nat → Char → Bool → Bool → List Char → Except PatternError (Bool × List Char)
  | 0, _, _, _, _ => Except.error PatternError.ErrBadPattern
  | fuel + 1, r, found, ranged, chunk =>
    let close : Option (List Char) :=
      match chunk with
      | c :: rest => if c = ']' ∧ ranged = true then Option.some rest else none
      | [] => none
    match close with
    | Option.some rest => Except.ok (found, rest)
    | none =>
      match getEsc chunk with
      | Except.error e => Except.error e
      | Except.ok (lo, chunk1) =>
        match chunk1 with
        | d :: chunk2 =>
          if d = '-' then
            match getEsc chunk2 with
            | Except.error e => Except.error e
            | Except.ok (hi, chunk3) =>
              classRanges fuel r
                (found || (decide (lo.toNat ≤ r.toNat) && decide (r.toNat ≤ hi.toNat))) true chunk3
          else
            classRanges fuel r
              (found || (decide (lo.toNat ≤ r.toNat) && decide (r.toNat ≤ lo.toNat))) true chunk1
        | [] => Except.error PatternError.ErrBadPattern

/-- Go `matchChunk`, from the state of its loop: `failed` tells that the match
has failed, after which the chunk is still checked to be well formed.  The
result is the rest of `s` after the match, `none` when the chunk does not
match.  `fuel` bounds the turns of the loop, each of which takes a character
of the chunk at least. -/
def matchChunkFuel : Nat → Bool → List Char → List Char → Except PatternError (Option (List Char))
  | 0, _, _, _ => Except.error PatternError.ErrBadPattern
  | _ + 1, failed, [], s => Except.ok (if failed then none else Option.some s)
  | fuel + 1, failed, c :: chunk, s =>
    let failed := failed || decide (s = [])
    if c = '[' then
      let r : Char := if failed then Char.ofNat 0 else s.headD (Char.ofNat 0)
      let s1 := if failed then s else s.tail
      let negated : Bool := match chunk with
        | d :: _ => decide (d = '^')
        | [] => false
      let chunk1 := if negated then chunk.tail else chunk
      match classRanges (chunk1.length + 1) r false false chunk1 with
      | Except.error e => Except.error e
      | Except.ok (found, chunk2) =>
        matchChunkFuel fuel (failed || (found == negated)) chunk2 s1
    else if c = '?' then
      if failed then matchChunkFuel fuel true chunk s
      else matchChunkFuel fuel (decide (s.headD '/' = '/')) chunk s.tail
    else if c = backslash then
      match chunk with
      | [] => Except.error PatternError.ErrBadPattern
      | d :: chunk1 =>
        if failed then matchChunkFuel fuel true chunk1 s
        else matchChunkFuel fuel (decide (d ≠ s.headD d)) chunk1 s.tail
    else
      if failed then matchChunkFuel fuel true chunk s
      else matchChunkFuel fuel (decide (c ≠ s.headD c)) chunk s.tail

/-- Go `matchChunk`: whether the chunk matches the start of `s`, and then the
rest of `s`. -/
def matchChunk (chunk s : List Char) : Except PatternError (Option (List Char)) :=
  matchChunkFuel (chunk.length + 1) false chunk s

/-- The loop of `Match` for a chunk after a star: the chunk is tried after each
character of the name in turn, up to the first slash; when the chunk is the
last one, a match has to end the name. -/
def starLoop (chunk : List Char) (last : Bool) : List Char → Except PatternError (Option (List Char))
  | [] => Except.ok none
  | c :: rest =>
    if c = '/' then Except.ok none
    else
      match matchChunk chunk rest with
      | Except.error e => Except.error e
      | Except.ok none => starLoop chunk last rest
      | Except.ok (Option.some t) =>
        if last = true ∧ t ≠ [] then starLoop chunk last rest else Except.ok (Option.some t)

/-- The check that `Match` makes before it returns false: whether what is left
of the pattern is well formed. -/
def wellFormed : Nat → List Char → Bool
  | 0, _ => false
  | _ + 1, [] => true
  | fuel + 1, c :: pattern =>
    match matchChunk (scanChunk (c :: pattern)).2.1 [] with
    | Except.error _ => false
    | Except.ok _ => wellFormed fuel (scanChunk (c :: pattern)).2.2

/-- Go `filepath.Match`, with the number of chunks bounded by `fuel`. -/
def matchFuel : Nat → List Char → List Char → Except PatternError Bool
  | 0, _, _ => Except.error PatternError.ErrBadPattern
  | _ + 1, [], name => Except.ok (decide (name = []))
  | fuel + 1, c :: pattern, name =>
    let star := (scanChunk (c :: pattern)).1
    let chunk := (scanChunk (c :: pattern)).2.1
    let rest := (scanChunk (c :: pattern)).2.2
    if star = true ∧ chunk = [] then Except.ok (!decide ('/' ∈ name))
    else
      match matchChunk chunk name with
      | Except.error e => Except.error e
      | Except.ok first =>
        let direct : Option (List Char) :=
          match first with
          | Option.some t => if t = [] ∨ rest ≠ [] then Option.some t else none
          | none => none
        match direct with
        | Option.some t => matchFuel fuel rest t
        | none =>
          match (if star then starLoop chunk (decide (rest = [])) name else Except.ok none) with
          | Except.error e => Except.error e
          | Except.ok (Option.some t) => matchFuel fuel rest t
          | Except.ok none =>
            if wellFormed (rest.length + 1) rest then Except.ok false
            else Except.error PatternError.ErrBadPattern

/-- Go `filepath.Match`: whether the name matches the pattern, by characters.
Each chunk takes a character of the pattern at least. -/
def filepathMatch (pattern name : List Char) : Except PatternError Bool :=
  matchFuel (pattern.length + 1) pattern name

/-! ## Listing a directory and `filepath.Glob` -/

/-- Go `hasMeta` of `path/filepath`: whether the path has one of the magic
characters, the star, the question mark, the opening bracket and the
backslash. -/
def hasMeta (path : List Char) : Bool :=
  path.any (fun c => decide (c = '*') || decide (c = '?') || decide (c = '[') ||
    decide (c = Char.ofNat 92))

/-- The path after its last slash: the file part of `filepath.Split`, whose
directory part is `upToLastSlash`. -/
def afterLastSlash (path : List Char) : List Char :=
  (path.reverse.takeWhile (fun c => decide (c ≠ '/'))).reverse

/-- Go `cleanGlobPath`: the directory part of a pattern without its trailing
slash. -/
def cleanGlobPath (path : List Char) : List Char :=
  if path = [] then ['.']
  else if path = ['/'] then path
  else path.dropLast

/-- Go `filepath.Base`: the last element of the path. -/
def filepathBase (path : String) : String :=
  if path = "" then "."
  else
    let last := afterLastSlash (dropTrailingSlashes path.data)
    if last = [] then "/" else String.mk last

/-- Go `strings.TrimSuffix`. -/
def stringsTrimSuffix (s suffix : String) : String :=
  if suffix.data.isSuffixOf s.data then String.mk (s.data.take (s.data.length - suffix.data.length))
  else s

/-- The name under which the node at `path` is an entry of the directory
`dir`, if it is one: the path is the directory, a slash and a name without
slash. -/
def entryName (dir path : List Char) : Option (List Char) :=
  let lead := if dir = ['/'] then ['/'] else if dir = ['.'] then [] else dir ++ ['/']
  if lead.isPrefixOf path then
    let name := path.drop lead.length
    if name = [] ∨ '/' ∈ name ∨ name = ['.'] ∨ name = ['.', '.'] then none else some name
  else none

/-- The names of the entries of a directory in increasing order, as `glob`
has them after `Readdirnames` and `sort.Strings`; the nodes are taken in the
order of their paths, which is the order of the names under one directory. -/
def readdirnames (w : World) (dir : List Char) : List (List Char) :=
  w.nodes.sortedEntries.filterMap (fun e => entryName dir e.1.data)

/-- The names that end with `literal` after a part without slash: what
`filepathMatch` gives for the pattern made of a star and `literal`, a text
without magic characters (`filepathMatch_star_literal`). -/
def matchStar (literal name : List Char) : Bool :=
  literal.isSuffixOf name && !decide ('/' ∈ name.take (name.length - literal.length))

/-- The entries of the directory `dir` whose names satisfy `matchStar literal`,
joined to `dir`, in the order of the names; nothing when `dir` is not a
directory: what `glob` finds for the pattern made of a star and `literal`
(`glob_star_literal`). -/
def globDir (w : World) (dir literal : List Char) : List String :=
  match osStat w (String.mk dir) with
  | Except.error _ => []
  | Except.ok info =>
    if info.IsDir then
      ((readdirnames w dir).filter (matchStar literal)).map
        (fun n => filepathJoin (String.mk dir) (String.mk n))
    else []

/-- The loop of Go `glob` over the names of a directory, in their order: the
matches so far with the names that match the pattern, each joined to the
directory.  An error of `Match` ends it. -/
def globNames (dir pattern : List Char) :
    List (List Char) → List String → Except PatternError (List String)
  | [], found => Except.ok found
  | n :: rest, found =>
    match filepathMatch pattern n with
    | Except.error e => Except.error e
    | Except.ok true =>
      globNames dir pattern rest (found ++ [filepathJoin (String.mk dir) (String.mk n)])
    | Except.ok false => globNames dir pattern rest found

/-- Go `glob` of `path/filepath`: the matches so far and the entries of the
directory `dir` that match the pattern; the matches so far alone when `dir` is
not a directory. -/
def glob (w : World) (dir pattern : List Char) (found : List String) :
    Except PatternError (List String) :=
  match osStat w (String.mk dir) with
  | Except.error _ => Except.ok found
  | Except.ok info =>
    if info.IsDir then globNames dir pattern (readdirnames w dir) found
    else Except.ok found

/-- The loop of `Glob` over the directories that match the directory part of
the pattern. -/
def globEach (w : World) (file : List Char) :
    List String → List String → Except PatternError (List String)
  | [], found => Except.ok found
  | d :: rest, found =>
    match glob w d.data file found with
    | Except.error e => Except.error e
    | Except.ok more => globEach w file rest more

/-- Go `globWithLimit`: `depth` counts the calls, which stop at 10000 with
ErrBadPattern; `fuel` bounds them as well, the directory part of a pattern
being shorter than the pattern. -/
def globWithLimit : Nat → World → String → Nat → Except PatternError (List String)
  | 0, _, _, _ => Except.error PatternError.ErrBadPattern
  | fuel + 1, w, pattern, depth =>
    if depth = 10000 then Except.error PatternError.ErrBadPattern
    else
      match filepathMatch pattern.data [] with
      | Except.error e => Except.error e
      | Except.ok _ =>
        if hasMeta pattern.data = false then
          match osStat w pattern with
          | Except.error _ => Except.ok []
          | Except.ok _ => Except.ok [pattern]
        else
          let dir := cleanGlobPath (upToLastSlash pattern.data)
          let file := afterLastSlash pattern.data
          if hasMeta dir = false then glob w dir file []
          else if dir = pattern.data then Except.error PatternError.ErrBadPattern
          else
            match globWithLimit fuel w (String.mk dir) (depth + 1) with
            | Except.error e => Except.error e
            | Except.ok dirs => globEach w file dirs []

/-- Go `filepath.Glob`: the paths that match the pattern, or ErrBadPattern for
a malformed pattern. -/
def filepathGlob (w : World) (pattern : String) : Except PatternError (List String) :=
  globWithLimit (pattern.length + 1) w pattern 0

/-- The result of `ListConfigurations`. -/
inductive Listing where
  /-- the names (a nil slice is the empty list) and the error -/
  | returned (names : List String) (err : Option Error)
  /-- the panic on an error of `filepath.Glob` -/
  | panicked
  deriving DecidableEq, Repr

/-- Go `(*Store).ListConfigurations`: the result and the world after the call. -/
def Store.ListConfigurations (s : Store) (w : World) : Listing × World :=
  match s.getStoreLocation w with
  | (_, some err) =>
    (Listing.returned [] (some (Error.wrap "cannot find configuration store" err)), w)
  | (storeLocation, none) =>
    match filepathGlob w (filepathJoin storeLocation ("*" ++ authConfigExtension)) with
    | Except.error _ => (Listing.panicked, w)
    | Except.ok found =>
      if found.length = 0 then (Listing.returned [] none, w)
      else
        (Listing.returned
          (found.map (fun m => stringsTrimSuffix (filepathBase m) authConfigExtension)) none, w)

/-! ## Removal -/

/-- Go `endsWithDot` of package `os`. -/
def endsWithDot (path : List Char) : Bool :=
  decide (path = ['.']) || ['/', '.'].isSuffixOf path

/-- Whether the node at `path` lies under the directory `dir`, at any depth. -/
def isUnder (dir path : List Char) : Bool :=
  (if dir = ['/'] then ['/'] else dir ++ ['/']).isPrefixOf path

/-- The directories above a path: the path up to each of its slashes that
something follows, the root for a slash at the start.  `seen` holds the part
of the path already passed, the last character first. -/
def ancestorsFrom : List Char → List Char → List (List Char)
  | _, [] => []
  | seen, c :: rest =>
    if c = '/' ∧ rest ≠ [] then
      (if seen = [] then ['/'] else seen.reverse) :: ancestorsFrom (c :: seen) rest
    else ancestorsFrom (c :: seen) rest

/-- Whether a regular file stands where the path needs a directory, at one of
the directories above it: the system calls on the path then fail with ENOTDIR. -/
def underFile (w : World) (path : String) : Bool :=
  (ancestorsFrom [] path.data).any (fun above =>
    match w.nodes.get? (String.mk above) with
    | some (Node.file _ _) => true
    | _ => false)

/-- Go `os.RemoveAll`: nothing to do for the empty path; ENOTDIR, from `Remove`
and then from opening the parent or from `unlinkat`, when a regular file stands
above the path; nothing to do when nothing is at the path; a file is removed,
and a directory with all that lies under it. -/
def osRemoveAll (w : World) (path : String) : Option OSError × World :=
  if path = "" then (none, w)
  else if endsWithDot path.data then (some OSError.invalid, w)
  else if underFile w path then (some OSError.notDir, w)
  else
    match w.nodes.get? path with
    | none => (none, w)
    | some (Node.file _ _) => (none, ⟨w.nodes.delete path, w.umask, w.userConfigDir⟩)
    | some (Node.dir _) =>
      (none, ⟨⟨w.nodes.entries.filter
          (fun e => !(decide (e.1 = path) || isUnder path.data e.1.data))⟩,
        w.umask, w.userConfigDir⟩)

/-- Go `(*Store).RemoveConfiguration`: the error and the world after the call. -/
def Store.RemoveConfiguration (s : Store) (w : World) (name : String) : Option Error × World :=
  match s.getConfigurationFilename w name with
  | (_, some err) => (some (Error.wrap "cannot remove configuration" err), w)
  | (filename, none) =>
    match osRemoveAll w filename with
    | (none, w1) => (none, w1)
    | (some err, w1) => (some (Error.os err), w1)


/-! ## States and configurations for the examples -/

/-- The configuration of project "proj1" as a file holds it. -/
def storedProj1 : ConfigurationDocument :=
  ⟨"proj1", some [("default", some ⟨"key-123", none⟩)], some (TimeText.stamp 1700000000000000000)⟩

/-- A world in which the configuration directory of the user is named `cfg*`,
with the store in it holding the file of "proj1", beside a directory `cfg-old`
whose store holds a file of "proj1" too. -/
def starWorld : World :=
  ⟨⟨[("/", Node.dir 0o755), ("/home", Node.dir 0o755), ("/home/u", Node.dir 0o750),
     ("/home/u/cfg*", Node.dir 0o700), ("/home/u/cfg*/intrinsic", Node.dir 0o700),
     ("/home/u/cfg*/intrinsic/projects", Node.dir 0o700),
     ("/home/u/cfg*/intrinsic/projects/proj1.user-token",
       Node.file 0o600 (FileContent.document storedProj1)),
     ("/home/u/cfg-old", Node.dir 0o700), ("/home/u/cfg-old/intrinsic", Node.dir 0o700),
     ("/home/u/cfg-old/intrinsic/projects", Node.dir 0o700),
     ("/home/u/cfg-old/intrinsic/projects/proj1.user-token",
       Node.file 0o600 (FileContent.document storedProj1))]⟩,
   0o022, ("/home/u/cfg*", none)⟩

/-- A world in which the configuration directory of the user is named `c[g`. -/
def bracketWorld : World :=
  ⟨⟨[("/", Node.dir 0o755), ("/home", Node.dir 0o755), ("/home/u", Node.dir 0o750),
     ("/home/u/c[g", Node.dir 0o700), ("/home/u/c[g/intrinsic", Node.dir 0o700),
     ("/home/u/c[g/intrinsic/projects", Node.dir 0o700),
     ("/home/u/c[g/intrinsic/projects/proj1.user-token",
       Node.file 0o600 (FileContent.document storedProj1))]⟩,
   0o022, ("/home/u/c[g", none)⟩

/-- The directories of a user whose configuration directory is `/home/u/.config`,
before the store has written anything. -/
def homeNodes : List (String × Node) :=
  [("/", Node.dir 0o755), ("/home", Node.dir 0o755), ("/home/u", Node.dir 0o750),
   ("/home/u/.config", Node.dir 0o755)]

/-- A world in which the store has not written anything yet. -/
def freshWorld : World := ⟨⟨homeNodes⟩, 0o022, ("/home/u/.config", none)⟩

/-- A world in which the file of "proj1" exists, holds a configuration, and has
been made readable by everyone (mode 0644), in directories of mode 0755. -/
def widenedWorld : World :=
  ⟨⟨homeNodes ++
      [("/home/u/.config/intrinsic", Node.dir 0o755),
       ("/home/u/.config/intrinsic/projects", Node.dir 0o755),
       ("/home/u/.config/intrinsic/projects/proj1.user-token",
         Node.file 0o644 (FileContent.document storedProj1))]⟩,
   0o022, ("/home/u/.config", none)⟩

/-- The configuration of "proj1" with a default token that expires half a
second after 2033-05-18T03:33:20Z. -/
def halfSecondConfiguration : ProjectConfiguration :=
  ⟨"proj1", some ⟨[("default", some ⟨"key-123", some 2000000000500000000⟩)]⟩, none⟩

/-- The directories of the store of the user, once the store has created them. -/
def storeNodes : List (String × Node) :=
  homeNodes ++
    [("/home/u/.config/intrinsic", Node.dir 0o700),
     ("/home/u/.config/intrinsic/projects", Node.dir 0o700)]

/-- A world in which the store of the user holds the one file `file`, named
for project "proj1", with mode 0600. -/
def proj1World (file : FileContent) : World :=
  ⟨⟨storeNodes ++ [("/home/u/.config/intrinsic/projects/proj1.user-token", Node.file 0o600 file)]⟩,
   0o022, ("/home/u/.config", none)⟩

/-- A world in which a regular file named `intrinsic` stands in the
configuration directory of the user, where the store needs a directory. -/
def blockedWorld : World :=
  ⟨⟨homeNodes ++ [("/home/u/.config/intrinsic", Node.file 0o644 FileContent.unparsable)]⟩,
   0o022, ("/home/u/.config", none)⟩

/-- A file of "proj1" without the member "tokens". -/
def bareDocument : ConfigurationDocument := ⟨"proj1", none, none⟩

/-- A file of "proj1" with a default token and a "lastUpdated" that is not a
timestamp. -/
def badStampDocument : ConfigurationDocument :=
  ⟨"proj1", some [("default", some ⟨"key-123", none⟩)], some TimeText.malformed⟩

/-- A file that holds the configuration of "proj2", as after a copy of the
file of "proj2" to that of "proj1". -/
def copiedDocument : ConfigurationDocument :=
  ⟨"proj2", some [("default", some ⟨"key-456", none⟩)], some (TimeText.stamp 1700000000000000000)⟩


/-- The world after the store has written a new configuration named "a" in
`freshWorld`. -/
def writtenA : World :=
  (NewStore.WriteConfiguration 1700000000000000000 freshWorld (NewConfiguration "a")).2

/-- The world after the store has then written a new configuration named "b". -/
def writtenAB : World :=
  (NewStore.WriteConfiguration 1700000001000000000 writtenA (NewConfiguration "b")).2

/-- The world after the store has written a new configuration named "team/a"
in `freshWorld`. -/
def writtenNested : World :=
  (NewStore.WriteConfiguration 1700000000000000000 freshWorld (NewConfiguration "team/a")).2

/-- The world after the store has then written a new configuration named "b". -/
def writtenNestedB : World :=
  (NewStore.WriteConfiguration 1700000001000000000 writtenNested (NewConfiguration "b")).2


/-! ## Command flags (`intrinsic/assets/cmdutils.go`) -/

/-- The name of the installer address flag. -/
def KeyInstallerAddress : String := "installer_address"

/-- The name of the solution flag. -/
def KeySolution : String := "solution"

/-- Go `fmt.Sprintf(gcpEndpointsURLFormat, project)`: the format
"dns:///www.endpoints.%s.cloud.goog:443" with the project in the place of its
one verb. -/
def gcpEndpointsURL (project : String) : String :=
  "dns:///www.endpoints." ++ project ++ ".cloud.goog:443"

/-- A key of a `viper.Viper` that is bound to a flag (`BindPFlag`) and, as
`OptionalEnvString` does it, to an environment variable (`BindEnv`): the
default of the flag, and the value that the command line or, failing it, the
environment gives, if it gives one. -/
structure FlagBinding where
  Default : String
  Given : Option String
  deriving DecidableEq, Repr

/-- Go `CmdFlags`, as far as its getters read it: the keys of `viperLocal`. -/
structure CmdFlags where
  viperLocal : GoMap FlagBinding
  deriving DecidableEq, Repr

/-- Go `(*CmdFlags).GetString`, which is `viper.GetString`: the value given,
without one the default of the flag, and the empty string for a key that is
not bound. -/
def CmdFlags.GetString (cf : CmdFlags) (name : String) : String :=
  match cf.viperLocal.get? name with
  | none => ""
  | some binding =>
    match binding.Given with
    | some value => value
    | none => binding.Default

/-- Go `(*CmdFlags).IsSet`, which is `viper.IsSet`: whether a value was given;
the default of a flag does not count. -/
def CmdFlags.IsSet (cf : CmdFlags) (name : String) : Bool :=
  match cf.viperLocal.get? name with
  | none => false
  | some binding => binding.Given.isSome

/-- Go `(*CmdFlags).GetFlagProject`.  `KeyProject` is the name of the project
flag, the constant `orgutil.KeyProject` of another package, taken here as a
parameter. -/
def CmdFlags.GetFlagProject (KeyProject : String) (cf : CmdFlags) : String :=
  cf.GetString KeyProject

/-- Go `(*CmdFlags).GetNormalizedInstallerAddress`. -/
def CmdFlags.GetNormalizedInstallerAddress (KeyProject : String) (cf : CmdFlags) : String :=
  let installerAddress := cf.GetString KeyInstallerAddress
  if cf.IsSet KeyInstallerAddress then installerAddress
  else
    let solution := cf.GetString KeySolution
    let project := cf.GetFlagProject KeyProject
    if solution ≠ "" ∧ project ≠ "" then gcpEndpointsURL project
    else installerAddress

/-- The flags of a command that has the installer address, with the default
that `AddFlagInstallerAddress` gives it, the solution and the project, after a
command line that gives a solution and nothing else. -/
def solutionOnlyFlags : CmdFlags :=
  ⟨⟨[("installer_address", ⟨"xfa.lan:17080", none⟩), ("solution", ⟨"", some "my-solution"⟩),
     ("project", ⟨"", none⟩)]⟩⟩

/-- The same flags after a command line that gives a solution and a project. -/
def solutionProjectFlags : CmdFlags :=
  ⟨⟨[("installer_address", ⟨"xfa.lan:17080", none⟩), ("solution", ⟨"", some "my-solution"⟩),
     ("project", ⟨"", some "my-project"⟩)]⟩⟩

/-- The same flags after a command line that gives an installer address, a
solution and a project. -/
def addressGivenFlags : CmdFlags :=
  ⟨⟨[("installer_address", ⟨"xfa.lan:17080", some "localhost:17080"⟩),
     ("solution", ⟨"", some "my-solution"⟩), ("project", ⟨"", some "my-project"⟩)]⟩⟩

/-- The same flags after a command line that gives none of them. -/
def defaultFlags : CmdFlags :=
  ⟨⟨[("installer_address", ⟨"xfa.lan:17080", none⟩), ("solution", ⟨"", none⟩),
     ("project", ⟨"", none⟩)]⟩⟩


/-! ## The order of keys -/

theorem char_eq_of_toNat_eq {c d : Char} (h : c.toNat = d.toNat) : c = d :=
  Char.eq_of_val_eq (UInt32.eq_of_val_eq (Fin.ext h))

theorem charsLess_irrefl (l : List Char) : charsLess l l = false := by
  induction l with
  | nil => rfl
  | cons a as ih => simp [charsLess, ih]

theorem charsLess_trans : ∀ (a b c : List Char), charsLess a b = true → charsLess b c = true →
    charsLess a c = true
  | [], [], _, h, _ => by simp [charsLess] at h
  | [], _ :: _, [], _, h => by simp [charsLess] at h
  | [], _ :: _, _ :: _, _, _ => by simp [charsLess]
  | _ :: _, [], _, h, _ => by simp [charsLess] at h
  | _ :: _, _ :: _, [], _, h => by simp [charsLess] at h
  | x :: xs, y :: ys, z :: zs, h1, h2 => by
    simp only [charsLess] at h1 h2 ⊢
    by_cases hxy : x.toNat < y.toNat
    · by_cases hyz : y.toNat < z.toNat
      · have : x.toNat < z.toNat := by omega
        simp [this]
      · by_cases hyz' : y.toNat = z.toNat
        · have : x.toNat < z.toNat := by omega
          simp [this]
        · simp [hyz, hyz'] at h2
    · by_cases hxy' : x.toNat = y.toNat
      · simp only [hxy, hxy', if_true, if_false] at h1
        by_cases hyz : y.toNat < z.toNat
        · have : x.toNat < z.toNat := by omega
          simp [this]
        · by_cases hyz' : y.toNat = z.toNat
          · simp only [hyz, hyz', if_true, if_false] at h2
            have hlt : ¬ x.toNat < z.toNat := by omega
            have heq : x.toNat = z.toNat := by omega
            simp only [hlt, heq, if_true, if_false]
            simpa using charsLess_trans xs ys zs (by simpa using h1) (by simpa using h2)
          · simp [hyz, hyz'] at h2
      · simp [hxy, hxy'] at h1

theorem charsLess_total : ∀ (a b : List Char), charsLess a b = false → a ≠ b → charsLess b a = true
  | [], [], _, h => absurd rfl h
  | [], _ :: _, h, _ => by simp [charsLess] at h
  | _ :: _, [], _, _ => by simp [charsLess]
  | x :: xs, y :: ys, h1, h2 => by
    simp only [charsLess] at h1 ⊢
    by_cases hxy : x.toNat < y.toNat
    · simp [hxy] at h1
    · by_cases hxy' : x.toNat = y.toNat
      · have hc : x = y := char_eq_of_toNat_eq hxy'
        subst hc
        simp only [lt_self_iff_false, if_true, if_false] at h1 ⊢
        exact charsLess_total xs ys h1 (fun h => h2 (by rw [h]))
      · have : y.toNat < x.toNat := by omega
        simp [this]

theorem keyLess_irrefl (k : String) : keyLess k k = false := charsLess_irrefl k.data

theorem keyLess_trans {a b c : String} (h1 : keyLess a b = true) (h2 : keyLess b c = true) :
    keyLess a c = true := charsLess_trans a.data b.data c.data h1 h2

theorem keyLess_total {a b : String} (h1 : keyLess a b = false) (h2 : a ≠ b) :
    keyLess b a = true :=
  charsLess_total a.data b.data h1 (fun h => h2 (String.ext h))


/-! ## Lookup after an assignment -/

theorem lookupEntry_insertEntry_self {α : Type} (k : String) (v : α) (l : List (String × α)) :
    lookupEntry k (insertEntry k v l) = some v := by
  induction l with
  | nil => simp [insertEntry, lookupEntry]
  | cons e rest ih =>
    obtain ⟨k', v'⟩ := e
    by_cases h1 : k = k'
    · simp [insertEntry, lookupEntry, h1]
    · by_cases h2 : keyLess k k' = true
      · simp [insertEntry, lookupEntry, h1, h2]
      · simp [insertEntry, lookupEntry, h1, h2, ih]

theorem lookupEntry_insertEntry_other {α : Type} (k j : String) (v : α) (l : List (String × α))
    (hne : j ≠ k) : lookupEntry j (insertEntry k v l) = lookupEntry j l := by
  induction l with
  | nil => simp [insertEntry, lookupEntry, hne]
  | cons e rest ih =>
    obtain ⟨k', v'⟩ := e
    by_cases h1 : k = k'
    · subst h1
      simp [insertEntry, lookupEntry, hne]
    · by_cases h2 : keyLess k k' = true
      · simp [insertEntry, lookupEntry, h1, h2, hne]
      · simp [insertEntry, lookupEntry, h1, h2, ih]

theorem GoMap.get?_set_self {α : Type} (m : GoMap α) (k : String) (v : α) :
    (m.set k v).get? k = some v :=
  lookupEntry_insertEntry_self k v m.entries

theorem GoMap.get?_set_other {α : Type} (m : GoMap α) (k j : String) (v : α) (hne : j ≠ k) :
    (m.set k v).get? j = m.get? j :=
  lookupEntry_insertEntry_other k j v m.entries hne

theorem mem_insertEntry {α : Type} (k : String) (v : α) (l : List (String × α)) (e : String × α)
    (h : e ∈ insertEntry k v l) : e = (k, v) ∨ e ∈ l := by
  induction l with
  | nil => simpa [insertEntry] using h
  | cons e' rest ih =>
    obtain ⟨k', v'⟩ := e'
    by_cases h1 : k = k'
    · simp only [insertEntry, h1, if_true, List.mem_cons] at h ⊢
      rcases h with h | h
      · exact Or.inl h
      · exact Or.inr (Or.inr h)
    · by_cases h2 : keyLess k k' = true
      · simp only [insertEntry, h1, h2, if_true, if_false, List.mem_cons] at h ⊢
        exact h
      · simp only [insertEntry, h1, h2, Bool.false_eq_true, if_false, List.mem_cons] at h ⊢
        rcases h with h | h
        · exact Or.inr (Or.inl h)
        · rcases ih h with h | h
          · exact Or.inl h
          · exact Or.inr (Or.inr h)

theorem keysIncrease_insertEntry {α : Type} (k : String) (v : α) (l : List (String × α))
    (h : KeysIncrease l) : KeysIncrease (insertEntry k v l) := by
  induction l with
  | nil => simp [insertEntry, KeysIncrease]
  | cons e' rest ih =>
    obtain ⟨k', v'⟩ := e'
    unfold KeysIncrease at h ih ⊢
    rw [List.pairwise_cons] at h
    by_cases h1 : k = k'
    · simp only [insertEntry, h1, if_true]
      exact List.pairwise_cons.2 ⟨h.1, h.2⟩
    · by_cases h2 : keyLess k k' = true
      · simp only [insertEntry, h1, h2, if_true, if_false]
        refine List.pairwise_cons.2 ⟨?_, List.pairwise_cons.2 h⟩
        intro e he
        rcases List.mem_cons.1 he with he | he
        · rw [he]
          exact h2
        · exact keyLess_trans h2 (h.1 e he)
      · simp only [insertEntry, h1, h2, Bool.false_eq_true, if_false]
        refine List.pairwise_cons.2 ⟨?_, ih h.2⟩
        intro e he
        rcases mem_insertEntry k v rest e he with he | he
        · rw [he]
          exact keyLess_total (by simpa using h2) h1
        · exact h.1 e he

theorem lookupEntry_eq_none_of_less {α : Type} (k : String) (l : List (String × α))
    (h : ∀ e ∈ l, keyLess k e.1 = true) : lookupEntry k l = none := by
  induction l with
  | nil => rfl
  | cons e' rest ih =>
    obtain ⟨k', v'⟩ := e'
    have hk : k ≠ k' := by
      intro hk
      have := h (k', v') (List.mem_cons_self _ _)
      rw [hk, keyLess_irrefl] at this
      exact Bool.noConfusion this
    simp only [lookupEntry, hk, if_false]
    exact ih (fun e he => h e (List.mem_cons_of_mem _ he))

/-! ## A map in the order of its keys -/

theorem lookupEntry_sortedEntries {α : Type} (m : GoMap α) (k : String) :
    lookupEntry k m.sortedEntries = lookupEntry k m.entries := by
  obtain ⟨l⟩ := m
  simp only [GoMap.sortedEntries]
  induction l with
  | nil => rfl
  | cons e rest ih =>
    obtain ⟨k', v'⟩ := e
    simp only [List.foldr_cons]
    by_cases hk : k = k'
    · subst hk
      simp [lookupEntry_insertEntry_self, lookupEntry]
    · rw [lookupEntry_insertEntry_other k' k v' _ hk, ih]
      simp [lookupEntry, hk]

theorem keysIncrease_sortedEntries {α : Type} (m : GoMap α) : KeysIncrease m.sortedEntries := by
  obtain ⟨l⟩ := m
  simp only [GoMap.sortedEntries]
  induction l with
  | nil => simp [KeysIncrease]
  | cons e rest ih =>
    simp only [List.foldr_cons]
    exact keysIncrease_insertEntry e.1 e.2 _ ih

theorem mem_sortedEntries {α : Type} (m : GoMap α) (e : String × α) (h : e ∈ m.sortedEntries) :
    e ∈ m.entries := by
  obtain ⟨l⟩ := m
  simp only [GoMap.sortedEntries] at h ⊢
  induction l with
  | nil => simp at h
  | cons e' rest ih =>
    simp only [List.foldr_cons] at h
    rcases mem_insertEntry e'.1 e'.2 _ e h with h | h
    · rw [h]
      exact List.mem_cons_self _ _
    · exact List.mem_cons_of_mem _ (ih h)

/-! ## Decoding what was encoded -/

theorem unmarshal_marshal (t : RFC3339Time)
    (h : (Time.hasFourDigitYear t && Time.hasOffsetInRange t) = true) :
    RFC3339Time.UnmarshalText (RFC3339Time.MarshalText t) = some (Time.readBack t) := by
  simp only [RFC3339Time.MarshalText, h, if_true, RFC3339Time.UnmarshalText]

theorem tdiv_sixty (a : Int) (h : a % 60 = 0) : Int.tdiv a 60 * 60 = a :=
  Int.tdiv_mul_cancel (Int.dvd_of_emod_eq_zero h)

/-- Text in RFC3339 keeps the instant, cut to the second, of a time whose zone
offset is a whole number of minutes. -/
theorem readBack_whole_minutes (t : Time) (h : t.offset % 60 = 0) :
    Time.readBack t = Time.truncateToSecond t := by
  have hw : Time.writtenOffset t = t.offset := tdiv_sixty t.offset h
  simp only [Time.readBack, Time.truncateToSecond, Time.wallSeconds, hw, Time.mk.injEq, and_true]
  rw [Int.add_sub_cancel]

theorem readBack_utc (t : Time) : Time.readBack (Time.UTC t) = Time.truncateToSecond (Time.UTC t) :=
  readBack_whole_minutes (Time.UTC t) (by simp [Time.UTC])

theorem hasOffsetInRange_utc (t : Time) : Time.hasOffsetInRange (Time.UTC t) = true := by
  simp [Time.hasOffsetInRange, Time.UTC]

theorem decodeTokens_encoded (l : List (String × Option ProjectToken)) :
    ∀ (acc : GoMap (Option ProjectToken)), KeysIncrease l →
      (∀ e ∈ l, expiryHasRFC3339Text e.2 = true) →
      ∃ r, decodeTokens (l.map (fun e => (e.1, e.2.map encodeToken))) acc = (r, true) ∧
        ∀ k, r.get? k =
          match lookupEntry k l with
          | some v => some (v.map ProjectToken.readBack)
          | none => acc.get? k := by
  induction l with
  | nil =>
    intro acc _ _
    exact ⟨acc, rfl, fun k => rfl⟩
  | cons e rest ih =>
    intro acc hsorted hyears
    obtain ⟨k0, v0⟩ := e
    have hrest : KeysIncrease rest := (List.pairwise_cons.1 hsorted).2
    have hnone : lookupEntry k0 rest = none :=
      lookupEntry_eq_none_of_less k0 rest (List.pairwise_cons.1 hsorted).1
    have hyears' : ∀ e ∈ rest, expiryHasRFC3339Text e.2 = true :=
      fun e he => hyears e (List.mem_cons_of_mem _ he)
    obtain ⟨r, hr, hlook⟩ := ih (acc.set k0 (v0.map ProjectToken.readBack)) hrest hyears'
    have hdecode : decodeTokens (((k0, v0) :: rest).map (fun e => (e.1, e.2.map encodeToken))) acc =
        decodeTokens (rest.map (fun e => (e.1, e.2.map encodeToken)))
          (acc.set k0 (v0.map ProjectToken.readBack)) := by
      cases v0 with
      | none => simp [decodeTokens]
      | some token =>
        obtain ⟨key, expiry⟩ := token
        cases expiry with
        | none => simp [decodeTokens, encodeToken, ProjectToken.readBack]
        | some validUntil =>
          have hy : (Time.hasFourDigitYear validUntil && Time.hasOffsetInRange validUntil) = true :=
            hyears (k0, some ⟨key, some validUntil⟩) (List.mem_cons_self _ _)
          simp [decodeTokens, encodeToken, ProjectToken.readBack, unmarshal_marshal validUntil hy]
    refine ⟨r, by rw [hdecode, hr], ?_⟩
    intro k
    rw [hlook k]
    by_cases hk : k = k0
    · subst hk
      simp [lookupEntry, hnone, GoMap.get?_set_self]
    · simp [lookupEntry, hk, GoMap.get?_set_other _ _ _ _ hk]

/-! ## What `os.MkdirAll` changes -/

theorem World.extendedBy_refl (perm : Nat) (w : World) : World.ExtendedBy perm w w :=
  ⟨rfl, rfl, fun _ => Or.inl rfl⟩

theorem World.extendedBy_trans (perm : Nat) (w w1 w2 : World) (h1 : World.ExtendedBy perm w w1)
    (h2 : World.ExtendedBy perm w1 w2) : World.ExtendedBy perm w w2 := by
  obtain ⟨hu1, hc1, hn1⟩ := h1
  obtain ⟨hu2, hc2, hn2⟩ := h2
  refine ⟨hu2.trans hu1, hc2.trans hc1, fun p => ?_⟩
  rcases hn2 p with h | ⟨ha, hb⟩
  · rw [h]
    exact hn1 p
  · rcases hn1 p with h | ⟨hc, hd⟩
    · rw [hu1] at hb
      exact Or.inr ⟨h ▸ ha, hb⟩
    · rw [ha] at hd
      exact Option.noConfusion hd

theorem osMkdir_ok (w w1 : World) (name : String) (perm : Nat)
    (h : osMkdir w name perm = Except.ok w1) :
    w.nodes.get? name = none ∧ w1 = w.put name (Node.dir (applyUmask perm w.umask)) := by
  unfold osMkdir at h
  split at h
  · exact Except.noConfusion h
  · rename_i hnone
    split at h
    · exact Except.noConfusion h
    · exact Except.noConfusion h
    · exact ⟨hnone, (Except.ok.inj h).symm⟩

theorem osMkdir_extends (w w1 : World) (name : String) (perm : Nat)
    (h : osMkdir w name perm = Except.ok w1) : World.ExtendedBy perm w w1 := by
  obtain ⟨hnone, hw⟩ := osMkdir_ok w w1 name perm h
  subst hw
  refine ⟨rfl, rfl, fun p => ?_⟩
  by_cases hp : p = name
  · subst hp
    exact Or.inr ⟨hnone, GoMap.get?_set_self _ _ _⟩
  · exact Or.inl (GoMap.get?_set_other _ _ _ _ hp)

theorem osMkdirAllFuel_extends (perm : Nat) :
    ∀ (fuel : Nat) (w : World) (path : String) (err : Option OSError) (w1 : World),
      osMkdirAllFuel fuel w path perm = (err, w1) → World.ExtendedBy perm w w1 := by
  intro fuel
  induction fuel with
  | zero =>
    intro w path err w1 h
    simp only [osMkdirAllFuel, Prod.mk.injEq] at h
    rw [← h.2]
    exact World.extendedBy_refl perm w
  | succ n ih =>
    intro w path err w1 h
    simp only [osMkdirAllFuel] at h
    split at h
    · split at h <;>
        (simp only [Prod.mk.injEq] at h; rw [← h.2]; exact World.extendedBy_refl perm w)
    · have hparent : ∀ (e : Option OSError) (wp : World),
          (match mkdirAllParent path with
            | some parent => osMkdirAllFuel n w parent perm
            | none => (none, w)) = (e, wp) → World.ExtendedBy perm w wp := by
        intro e wp hp
        split at hp
        · exact ih _ _ _ _ hp
        · simp only [Prod.mk.injEq] at hp
          rw [← hp.2]
          exact World.extendedBy_refl perm w
      split at h
      · rename_i e wp hp
        simp only [Prod.mk.injEq] at h
        rw [← h.2]
        exact hparent _ _ hp
      · rename_i wp hp
        have hwp := hparent _ _ hp
        split at h
        · rename_i w2 hmk
          simp only [Prod.mk.injEq] at h
          rw [← h.2]
          exact World.extendedBy_trans perm w wp w2 hwp (osMkdir_extends wp w2 path perm hmk)
        · split at h
          · split at h <;> (simp only [Prod.mk.injEq] at h; rw [← h.2]; exact hwp)
          · simp only [Prod.mk.injEq] at h
            rw [← h.2]
            exact hwp

theorem osMkdirAllFuel_dir (perm : Nat) (fuel : Nat) (w : World) (path : String) (w1 : World)
    (h : osMkdirAllFuel fuel w path perm = (none, w1)) :
    ∃ mode, w1.nodes.get? path = some (Node.dir mode) := by
  cases fuel with
  | zero => simp [osMkdirAllFuel] at h
  | succ n =>
    simp only [osMkdirAllFuel] at h
    split at h
    · rename_i info hstat
      split at h
      · rename_i hdir
        simp only [Prod.mk.injEq, true_and] at h
        subst h
        unfold osStat at hstat
        split at hstat
        · exact Except.noConfusion hstat
        · have := Except.ok.inj hstat
          subst this
          exact Bool.noConfusion hdir
        · rename_i mode hnode
          exact ⟨mode, hnode⟩
      · simp at h
    · split at h
      · simp at h
      · rename_i wp hp
        split at h
        · rename_i w2 hmk
          simp only [Prod.mk.injEq, true_and] at h
          subst h
          obtain ⟨_, hw⟩ := osMkdir_ok wp w2 path perm hmk
          subst hw
          exact ⟨_, GoMap.get?_set_self _ _ _⟩
        · rename_i e hmk
          split at h
          · rename_i info hstat
            split at h
            · rename_i hdir
              simp only [Prod.mk.injEq, true_and] at h
              subst h
              unfold osStat at hstat
              split at hstat
              · exact Except.noConfusion hstat
              · have := Except.ok.inj hstat
                subst this
                exact Bool.noConfusion hdir
              · rename_i mode hnode
                exact ⟨mode, hnode⟩
            · simp at h
          · simp at h

/-! ## The recursion of `os.MkdirAll` ends before its bound -/

theorem length_upToLastSlash_le (path : List Char) : (upToLastSlash path).length ≤ path.length := by
  unfold upToLastSlash
  rw [List.length_reverse]
  exact (List.dropWhile_sublist _).length_le.trans (le_of_eq (List.length_reverse _))

theorem length_dropTrailingSlashes_le (path : List Char) :
    (dropTrailingSlashes path).length ≤ path.length := by
  unfold dropTrailingSlashes
  rw [List.length_reverse]
  exact (List.dropWhile_sublist _).length_le.trans (le_of_eq (List.length_reverse _))

theorem mkdirAllParent_shorter (path parent : String) (h : mkdirAllParent path = some parent) :
    parent.length < path.length := by
  unfold mkdirAllParent at h
  simp only at h
  split at h
  · rename_i hlong
    have hp := Option.some.inj h
    rw [← hp]
    have h1 := length_upToLastSlash_le (dropTrailingSlashes path.data)
    have h2 := length_dropTrailingSlashes_le path.data
    show (upToLastSlash (dropTrailingSlashes path.data)).dropLast.length < path.data.length
    rw [List.length_dropLast]
    omega
  · exact Option.noConfusion h

theorem osMkdirAllFuel_enough (perm : Nat) :
    ∀ (fuel more : Nat) (w : World) (path : String), path.length < fuel → path.length < more →
      osMkdirAllFuel fuel w path perm = osMkdirAllFuel more w path perm := by
  intro fuel
  induction fuel with
  | zero =>
    intro more w path h _
    exact absurd h (Nat.not_lt_zero _)
  | succ n ih =>
    intro more w path hn hm
    cases more with
    | zero => exact absurd hm (Nat.not_lt_zero _)
    | succ m =>
      simp only [osMkdirAllFuel]
      cases hparent : mkdirAllParent path with
      | none => rfl
      | some parent =>
        have hshort := mkdirAllParent_shorter path parent hparent
        dsimp only
        rw [ih m w parent (by omega) (by omega)]

/-! ## What a write changes -/

set_option maxRecDepth 100000 in
theorem owner_bits_kept : ∀ v, v < 512 → v &&& 0o700 = 0 →
    0o600 &&& (0o777 ^^^ v) = 0o600 ∧ 0o700 &&& (0o777 ^^^ v) = 0o700 := by
  decide

theorem applyUmask_owner (umask : Nat) (h : umask &&& 0o700 = 0) :
    applyUmask 0o600 umask = 0o600 ∧ applyUmask 0o700 umask = 0o700 := by
  have hlt : umask &&& 0o777 < 512 := Nat.lt_succ_of_le Nat.and_le_right
  have hz : (umask &&& 0o777) &&& 0o700 = 0 := by
    rw [Nat.land_assoc]
    exact h
  exact owner_bits_kept _ hlt hz

theorem osOpenFile_ok (w w2 : World) (name : String) (perm : Nat)
    (h : osOpenFile w name perm = Except.ok w2) :
    ∃ mode, w2 = w.put name (Node.file mode FileContent.unparsable) ∧
      ((∃ content, w.nodes.get? name = some (Node.file mode content)) ∨
        (w.nodes.get? name = none ∧ mode = applyUmask perm w.umask)) := by
  unfold osOpenFile at h
  split at h
  · exact Except.noConfusion h
  · rename_i mode content hnode
    exact ⟨mode, (Except.ok.inj h).symm, Or.inl ⟨content, hnode⟩⟩
  · rename_i hnone
    split at h
    · exact Except.noConfusion h
    · exact Except.noConfusion h
    · exact ⟨_, (Except.ok.inj h).symm, Or.inr ⟨hnone, rfl⟩⟩

theorem fileWrite_put (w : World) (name : String) (mode : Nat) (content : FileContent) :
    fileWrite (w.put name (Node.file mode FileContent.unparsable)) name content =
      (w.put name (Node.file mode FileContent.unparsable)).put name (Node.file mode content) := by
  have hget : (w.put name (Node.file mode FileContent.unparsable)).nodes.get? name =
      some (Node.file mode FileContent.unparsable) := GoMap.get?_set_self _ _ _
  simp only [fileWrite, hget]

theorem writeConfiguration_ok (now : Time) (s : Store) (w w' : World)
    (config cfg : ProjectConfiguration)
    (h : s.WriteConfiguration now w config = ((cfg, none), w')) :
    ∃ filename w1 w2, s.getConfigurationFilename w config.Name = (filename, none) ∧
      osMkdirAll w (filepathDir filename) directoryMode = (none, w1) ∧
      osOpenFile w1 filename fileMode = Except.ok w2 ∧
      cfg = ⟨config.Name, config.Tokens, some (Time.UTC now)⟩ ∧
      w' = fileWrite w2 filename (FileContent.document (encodeConfiguration cfg)) := by
  unfold Store.WriteConfiguration at h
  split at h
  · simp at h
  · rename_i filename hfile
    split at h
    · simp at h
    · rename_i w1 hmk
      split at h
      · simp at h
      · rename_i w2 hopen
        simp only [Prod.mk.injEq, and_true] at h
        obtain ⟨hcfg, hw⟩ := h
        refine ⟨filename, w1, w2, hfile, hmk, hopen, hcfg.symm, ?_⟩
        rw [← hw, hcfg]

/-- What a successful write leaves: the file holds the encoded configuration,
with the mode it had, or the mode of a new file; everything else is as
`os.MkdirAll` left it. -/
theorem writeConfiguration_world (now : Time) (s : Store) (w w' : World)
    (config cfg : ProjectConfiguration)
    (h : s.WriteConfiguration now w config = ((cfg, none), w')) :
    ∃ filename w1 mode, s.getConfigurationFilename w config.Name = (filename, none) ∧
      osMkdirAll w (filepathDir filename) directoryMode = (none, w1) ∧
      cfg = ⟨config.Name, config.Tokens, some (Time.UTC now)⟩ ∧
      w'.nodes.get? filename =
        some (Node.file mode (FileContent.document (encodeConfiguration cfg))) ∧
      ((∃ content, w1.nodes.get? filename = some (Node.file mode content)) ∨
        (w1.nodes.get? filename = none ∧ mode = applyUmask fileMode w1.umask)) ∧
      (∀ p, p ≠ filename → w'.nodes.get? p = w1.nodes.get? p) ∧
      w'.userConfigDir = w1.userConfigDir ∧ w'.umask = w1.umask := by
  obtain ⟨filename, w1, w2, hfile, hmk, hopen, hcfg, hw⟩ := writeConfiguration_ok now s w w' config cfg h
  obtain ⟨mode, hw2, hmode⟩ := osOpenFile_ok w1 w2 filename fileMode hopen
  rw [hw2, fileWrite_put] at hw
  refine ⟨filename, w1, mode, hfile, hmk, hcfg, ?_, hmode, ?_, ?_, ?_⟩
  · rw [hw]
    exact GoMap.get?_set_self _ _ _
  · intro p hp
    rw [hw]
    exact (GoMap.get?_set_other _ _ _ _ hp).trans (GoMap.get?_set_other _ _ _ _ hp)
  · rw [hw]
    rfl
  · rw [hw]
    rfl

/-! ## Reading back what was written -/

theorem truncate_bounds (t before : Int) (h : before ≤ t) :
    before - 1000000000 < t / 1000000000 * 1000000000 ∧ t / 1000000000 * 1000000000 ≤ t := by
  omega

theorem truncate_whole (t : Int) (h : t % 1000000000 = 0) : t / 1000000000 * 1000000000 = t := by
  omega

theorem readBack_whole (token : Option ProjectToken) (h : expiryIsWholeSecond token = true) :
    token.map ProjectToken.readBack = token := by
  cases token with
  | none => rfl
  | some tok =>
    obtain ⟨key, expiry⟩ := tok
    cases expiry with
    | none => rfl
    | some validUntil =>
      simp only [expiryIsWholeSecond, Bool.and_eq_true, decide_eq_true_eq, nanosPerSecond] at h
      have hback : Time.readBack validUntil = validUntil := by
        rw [readBack_whole_minutes validUntil h.2]
        simp only [Time.truncateToSecond, nanosPerSecond, truncate_whole validUntil.unixNano h.1]
      simp only [Option.map_some', ProjectToken.readBack, hback]

theorem mem_of_lookupEntry {α : Type} (k : String) (v : α) (l : List (String × α))
    (h : lookupEntry k l = some v) : (k, v) ∈ l := by
  induction l with
  | nil => simp [lookupEntry] at h
  | cons e rest ih =>
    obtain ⟨k', v'⟩ := e
    by_cases hk : k = k'
    · simp only [lookupEntry, hk, if_true, Option.some.injEq] at h
      rw [hk, h]
      exact List.mem_cons_self _ _
    · simp only [lookupEntry, hk, if_false] at h
      exact List.mem_cons_of_mem _ (ih h)

theorem decode_encoded (name : String) (tokens : GoMap (Option ProjectToken)) (now : Time)
    (hyears : ∀ e ∈ tokens.entries, expiryHasRFC3339Text e.2 = true)
    (hnow : (Time.hasFourDigitYear now && Time.hasOffsetInRange now) = true) :
    ∃ loaded, finishConfiguration (decodeDocument
        (encodeConfiguration ⟨name, some tokens, some now⟩)) = (loaded, none) ∧
      loaded.Name = name ∧
      (∀ k, lookupNilable loaded.Tokens k = (tokens.get? k).map (Option.map ProjectToken.readBack)) ∧
      loaded.LastUpdated = some (Time.readBack now) := by
  have htime := unmarshal_marshal now hnow
  by_cases hlen : tokens.len = 0
  · have hnil : tokens.entries = [] := List.length_eq_zero.1 hlen
    refine ⟨⟨name, some GoMap.empty, some (Time.readBack now)⟩, ?_, rfl, ?_, rfl⟩
    · simp [encodeConfiguration, hlen, decodeDocument, htime, finishConfiguration]
    · intro k
      simp [lookupNilable, GoMap.get?, GoMap.empty, hnil, lookupEntry]
  · obtain ⟨r, hr, hlook⟩ := decodeTokens_encoded tokens.sortedEntries GoMap.empty
      (keysIncrease_sortedEntries tokens)
      (fun e he => hyears e (mem_sortedEntries tokens e he))
    refine ⟨⟨name, some r, some (Time.readBack now)⟩, ?_, rfl, ?_, rfl⟩
    · simp [encodeConfiguration, hlen, decodeDocument, htime, finishConfiguration, hr]
    · intro k
      simp only [lookupNilable]
      rw [hlook k, lookupEntry_sortedEntries]
      simp only [GoMap.get?]
      cases lookupEntry k tokens.entries <;> rfl

theorem getConfigurationFilename_congr (s : Store) (w w' : World) (name : String)
    (h : w'.userConfigDir = w.userConfigDir) :
    s.getConfigurationFilename w' name = s.getConfigurationFilename w name := by
  simp only [Store.getConfigurationFilename, Store.getStoreLocation, Store.getConfigDir, h]

/-! ## Token validation -/

theorem validate_eq_none_iff (now : Time) (p : ProjectToken) :
    ProjectToken.Validate now (some p) = none ↔
      p.APIKey ≠ "" ∧ (p.ValidUntil = none ∨ ∃ validUntil, p.ValidUntil = some validUntil ∧ now ≤ validUntil) := by
  obtain ⟨key, expiry⟩ := p
  cases expiry with
  | none => by_cases hk : key = "" <;> simp [ProjectToken.Validate, hk]
  | some validUntil =>
    have hle : now ≤ validUntil ↔ ¬ validUntil < now := Int.not_lt.symm
    by_cases hk : key = "" <;> by_cases ht : validUntil < now <;>
      simp [ProjectToken.Validate, Time.After, hk, ht, hle]

/-- C3: for every non-nil token and every clock reading, `Validate` returns no
error exactly when the API key is not empty and the expiry is absent or not
before the clock reading; so a token with no expiry validates exactly when its
key is not empty. -/
theorem validate_ok_iff (now : Time) (p : ProjectToken) (apiKey : String) :
    (ProjectToken.Validate now (some p) = none ↔
      p.APIKey ≠ "" ∧ (p.ValidUntil = none ∨ ∃ validUntil, p.ValidUntil = some validUntil ∧ now ≤ validUntil)) ∧
    (ProjectToken.Validate now (some ⟨apiKey, none⟩) = none ↔ apiKey ≠ "") := by
  refine ⟨validate_eq_none_iff now p, ?_⟩
  by_cases hk : apiKey = "" <;> simp [ProjectToken.Validate, hk]

/-- C4, as the code has it: a token with an empty API key never validates; the
error is MissingAPIKey when the expiry is absent or not before the clock
reading, and ExpiredToken when the expiry is before the clock reading. -/
theorem validate_empty_key (now : Time) (p : ProjectToken) (hkey : p.APIKey = "") :
    ProjectToken.Validate now (some p) =
      match p.ValidUntil with
      | none => some Error.missingAPIKey
      | some validUntil =>
        if validUntil < now then some (Error.expiredToken validUntil) else some Error.missingAPIKey := by
  obtain ⟨key, expiry⟩ := p
  simp only at hkey
  subst hkey
  cases expiry with
  | none => simp [ProjectToken.Validate]
  | some validUntil => by_cases ht : validUntil < now <;> simp [ProjectToken.Validate, Time.After, ht]

/-- Witness of `validate_empty_key`: an empty key with an expiry in the future. -/
theorem validate_empty_key_witness :
    ProjectToken.Validate 1700000000000000000 (some ⟨"", some 1800000000000000000⟩) =
      some Error.missingAPIKey :=
  validate_empty_key 1700000000000000000 ⟨"", some 1800000000000000000⟩ rfl

/-- C4 fails as stated: a token with an empty API key and an expiry in the
past fails with ExpiredToken, not with MissingAPIKey. -/
theorem validate_empty_key_expired :
    ProjectToken.Validate 1700000000000000000 (some ⟨"", some 1600000000000000000⟩) =
      some (Error.expiredToken 1600000000000000000) ∧
    ProjectToken.Validate 1700000000000000000 (some ⟨"", some 1600000000000000000⟩) ≠
      some Error.missingAPIKey := by
  decide

/-- C5: a token whose expiry is set and before the clock reading fails with
ExpiredToken, whatever its API key. -/
theorem validate_expired (now : Time) (p : ProjectToken) (validUntil : RFC3339Time)
    (hset : p.ValidUntil = some validUntil) (hpast : validUntil < now) :
    ProjectToken.Validate now (some p) = some (Error.expiredToken validUntil) := by
  obtain ⟨key, expiry⟩ := p
  simp only at hset
  subst hset
  simp [ProjectToken.Validate, Time.After, hpast]

/-- Witness of `validate_expired`: a token with a key, expired a second ago. -/
theorem validate_expired_witness :
    ProjectToken.Validate 1700000000000000000 (some ⟨"key-123", some 1699999999000000000⟩) =
      some (Error.expiredToken 1699999999000000000) :=
  validate_expired 1700000000000000000 ⟨"key-123", some 1699999999000000000⟩
    1699999999000000000 rfl (by decide)

/-! ## Credentials of a configuration -/

/-- The token that `SetCredentials` builds, by the expiry supplied. -/
theorem newToken_eq (apiKey : String) (validUntil : List Time) :
    ∃ expiry, newToken apiKey validUntil = ⟨apiKey, expiry⟩ ∧
      (validUntil = [] → expiry = none) ∧
      (∀ t rest, validUntil = t :: rest → Time.IsZero t = true → expiry = none) ∧
      (∀ t rest, validUntil = t :: rest → Time.IsZero t = false → expiry = some t) := by
  cases validUntil with
  | nil => exact ⟨none, rfl, fun _ => rfl, fun _ _ h => by simp at h, fun _ _ h => by simp at h⟩
  | cons first others =>
    cases hz : Time.IsZero first with
    | true =>
      refine ⟨none, by simp [newToken, hz], fun h => by simp at h, fun _ _ _ _ => rfl, ?_⟩
      intro t rest h ht
      rw [(List.cons.inj h).1, ht] at hz
      exact Bool.noConfusion hz
    | false =>
      refine ⟨some first, by simp [newToken, hz], fun h => by simp at h, ?_, ?_⟩
      · intro t rest h ht
        rw [(List.cons.inj h).1, ht] at hz
        exact Bool.noConfusion hz
      · intro t rest h _
        rw [(List.cons.inj h).1]

/-- C8: on a configuration with a non-nil `Tokens`, `SetCredentials` returns
and `GetCredentials` of the same alias then returns, without error, the token
just set: the given API key, and as expiry the first expiry supplied, or none
when no expiry or the zero time was supplied; the token the alias held before
plays no part. -/
theorem getCredentials_setCredentials (now : Time) (p : ProjectConfiguration)
    (tokens : GoMap (Option ProjectToken)) (tokenAlias apiKey : String) (validUntil : List Time)
    (hmap : p.Tokens = some tokens) :
    ∃ q err, p.SetCredentials now tokenAlias apiKey validUntil = some (q, err) ∧
      ∃ expiry, q.GetCredentials tokenAlias = (some ⟨apiKey, expiry⟩, none) ∧
        (validUntil = [] → expiry = none) ∧
        (∀ t rest, validUntil = t :: rest → t = Time.zero → expiry = none) ∧
        (∀ t rest, validUntil = t :: rest → Time.IsZero t = true → expiry = none) ∧
        (∀ t rest, validUntil = t :: rest → Time.IsZero t = false → expiry = some t) := by
  obtain ⟨expiry, htoken, hnil, hzero, hset⟩ := newToken_eq apiKey validUntil
  refine ⟨_, _, by simp only [ProjectConfiguration.SetCredentials, hmap]; rfl,
    expiry, ?_, hnil, ?_, hzero, hset⟩
  · simp only [ProjectConfiguration.GetCredentials, lookupNilable, GoMap.get?_set_self, htoken]
  · intro t rest h hz
    exact hzero t rest h (by rw [hz]; rfl)

/-- Witness of `getCredentials_setCredentials`: the alias "default" held
another token, and an expiry is supplied. -/
theorem getCredentials_setCredentials_witness :
    ∃ q err, ProjectConfiguration.SetCredentials 1700000000000000000
        ⟨"proj1", some ⟨[("default", some ⟨"old", none⟩)]⟩, none⟩ "default" "key-123"
        [1800000000000000000] = some (q, err) ∧
      ∃ expiry, q.GetCredentials "default" = (some ⟨"key-123", expiry⟩, none) ∧
        (([1800000000000000000] : List Time) = [] → expiry = none) ∧
        (∀ t rest, ([1800000000000000000] : List Time) = t :: rest → t = Time.zero → expiry = none) ∧
        (∀ t rest, ([1800000000000000000] : List Time) = t :: rest → Time.IsZero t = true →
          expiry = none) ∧
        (∀ t rest, ([1800000000000000000] : List Time) = t :: rest → Time.IsZero t = false →
          expiry = some t) :=
  getCredentials_setCredentials 1700000000000000000
    ⟨"proj1", some ⟨[("default", some ⟨"old", none⟩)]⟩, none⟩ ⟨[("default", some ⟨"old", none⟩)]⟩
    "default" "key-123" [1800000000000000000] rfl

/-- C9: on a configuration with a non-nil `Tokens`, `SetCredentials` returns
the receiver, changed at the alias only, where the new token stands whatever
the error: the given API key with, as expiry, the first expiry supplied unless
that is the zero time.  The error is what `Validate` returns for that token:
ExpiredToken when the expiry supplied is before the clock reading, otherwise
MissingAPIKey when the key is empty, and nil otherwise, so nil exactly when the
key is not empty and no expiry, the zero time or an expiry not before the clock
reading is supplied. -/
theorem setCredentials_result (now : Time) (p : ProjectConfiguration)
    (tokens : GoMap (Option ProjectToken)) (tokenAlias apiKey : String) (validUntil : List Time)
    (hmap : p.Tokens = some tokens) :
    ∃ q err expiry, p.SetCredentials now tokenAlias apiKey validUntil = some (q, err) ∧
      (validUntil = [] → expiry = none) ∧
      (∀ t rest, validUntil = t :: rest → Time.IsZero t = true → expiry = none) ∧
      (∀ t rest, validUntil = t :: rest → Time.IsZero t = false → expiry = some t) ∧
      q = ⟨p.Name, some (tokens.set tokenAlias (some ⟨apiKey, expiry⟩)), p.LastUpdated⟩ ∧
      q.GetCredentials tokenAlias = (some ⟨apiKey, expiry⟩, none) ∧
      err = ProjectToken.Validate now (some ⟨apiKey, expiry⟩) ∧
      (∀ t, expiry = some t → t < now → err = some (Error.expiredToken t)) ∧
      (apiKey = "" → (∀ t, expiry = some t → now ≤ t) → err = some Error.missingAPIKey) ∧
      (err = none ↔ apiKey ≠ "" ∧ (expiry = none ∨ ∃ t, expiry = some t ∧ now ≤ t)) := by
  obtain ⟨expiry, htoken, hnil, hzero, hset⟩ := newToken_eq apiKey validUntil
  refine ⟨_, _, expiry, by simp only [ProjectConfiguration.SetCredentials, hmap]; rfl,
    hnil, hzero, hset, by rw [htoken], ?_, by rw [htoken], ?_, ?_, ?_⟩
  · simp only [ProjectConfiguration.GetCredentials, lookupNilable, GoMap.get?_set_self, htoken]
  · intro t ht hpast
    rw [htoken, ht]
    simp [ProjectToken.Validate, Time.After, hpast]
  · intro hkey hfuture
    rw [htoken, hkey]
    cases hexp : expiry with
    | none => simp [ProjectToken.Validate]
    | some t =>
      have hnot : ¬ t < now := Int.not_lt.mpr (hfuture t hexp)
      simp [ProjectToken.Validate, Time.After, hnot]
  · rw [htoken]
    exact validate_eq_none_iff now ⟨apiKey, expiry⟩

/-- Witness of `setCredentials_result`: an empty key and an expiry in the
past; the error is ExpiredToken and the token is stored all the same. -/
theorem setCredentials_result_witness :
    ∃ q err expiry, ProjectConfiguration.SetCredentials 1700000000000000000
        (NewConfiguration "proj1") "robot" "" [1600000000000000000] = some (q, err) ∧
      (([1600000000000000000] : List Time) = [] → expiry = none) ∧
      (∀ t rest, ([1600000000000000000] : List Time) = t :: rest → Time.IsZero t = true →
        expiry = none) ∧
      (∀ t rest, ([1600000000000000000] : List Time) = t :: rest → Time.IsZero t = false →
        expiry = some t) ∧
      q = ⟨"proj1", some (GoMap.empty.set "robot" (some ⟨"", expiry⟩)), none⟩ ∧
      q.GetCredentials "robot" = (some ⟨"", expiry⟩, none) ∧
      err = ProjectToken.Validate 1700000000000000000 (some ⟨"", expiry⟩) ∧
      (∀ t, expiry = some t → t < 1700000000000000000 → err = some (Error.expiredToken t)) ∧
      (("" : String) = "" → (∀ t, expiry = some t → 1700000000000000000 ≤ t) →
        err = some Error.missingAPIKey) ∧
      (err = none ↔ ("" : String) ≠ "" ∧
        (expiry = none ∨ ∃ t, expiry = some t ∧ 1700000000000000000 ≤ t)) :=
  setCredentials_result 1700000000000000000 (NewConfiguration "proj1") GoMap.empty "robot" ""
    [1600000000000000000] rfl

/-- The error of `SetCredentials` for an empty key and for an expiry in the
past, and the token that stands at the alias with the error. -/
theorem setCredentials_result_examples :
    ProjectConfiguration.SetCredentials 1700000000000000000 (NewConfiguration "proj1") "robot"
        "key-123" [1600000000000000000] =
      some (⟨"proj1", some ⟨[("robot", some ⟨"key-123", some 1600000000000000000⟩)]⟩, none⟩,
        some (Error.expiredToken 1600000000000000000)) ∧
    ProjectConfiguration.SetCredentials 1700000000000000000 (NewConfiguration "proj1") "robot"
        "" [] =
      some (⟨"proj1", some ⟨[("robot", some ⟨"", none⟩)]⟩, none⟩, some Error.missingAPIKey) ∧
    ProjectConfiguration.SetCredentials 1700000000000000000 (NewConfiguration "proj1") "robot"
        "key-123" [1800000000000000000] =
      some (⟨"proj1", some ⟨[("robot", some ⟨"key-123", some 1800000000000000000⟩)]⟩, none⟩,
        none) := by
  decide

/-- C10: `GetCredentials` fails, with AliasNotFound, exactly when the alias is
not a key of `Tokens`, which is exactly when `HasCredentials` is false; an alias
that is a key is reported present and its token is returned without error,
whatever the token (expired, with an empty key, or nil). -/
theorem getCredentials_hasCredentials (p : ProjectConfiguration) (tokenAlias : String) :
    ((p.GetCredentials tokenAlias).2 = some (Error.aliasNotFound tokenAlias) ↔
      lookupNilable p.Tokens tokenAlias = none) ∧
    ((p.GetCredentials tokenAlias).2 ≠ none ↔ lookupNilable p.Tokens tokenAlias = none) ∧
    (lookupNilable p.Tokens tokenAlias = none ↔ p.HasCredentials tokenAlias = false) ∧
    (∀ token, lookupNilable p.Tokens tokenAlias = some token ↔
      p.HasCredentials tokenAlias = true ∧ p.GetCredentials tokenAlias = (token, none)) := by
  unfold ProjectConfiguration.GetCredentials ProjectConfiguration.HasCredentials
  cases h : lookupNilable p.Tokens tokenAlias with
  | none => simp
  | some token => simp

/-! ## `HasConfiguration` -/

theorem land_lor_self (a b : Nat) : (a ||| b) &&& a = a := by
  apply Nat.eq_of_testBit_eq
  intro i
  simp only [Nat.testBit_land, Nat.testBit_lor]
  cases a.testBit i <;> cases b.testBit i <;> rfl

theorem hasConfiguration_eq (s : Store) (w : World) (name filename : String)
    (hfile : s.getConfigurationFilename w name = (filename, none)) (info : FileInfo)
    (hstat : osStat w filename = Except.ok info) :
    s.HasConfiguration w name = (info.Perm &&& fileMode == fileMode, w) := by
  simp only [Store.HasConfiguration, hfile, hstat]

/-- C1 fails as stated: the file of "proj1" exists with mode 0644 (readable by
everyone), `GetConfiguration` decodes it without error, and `HasConfiguration`
returns true. -/
theorem hasConfiguration_widened :
    widenedWorld.nodes.get? "/home/u/.config/intrinsic/projects/proj1.user-token" =
      some (Node.file 0o644 (FileContent.document storedProj1)) ∧
    (NewStore.GetConfiguration widenedWorld "proj1").1 =
      (some ⟨"proj1", some ⟨[("default", some ⟨"key-123", none⟩)]⟩, some 1700000000000000000⟩, none) ∧
    (NewStore.HasConfiguration widenedWorld "proj1").1 = true := by
  decide

/-- C1, as the code has it: when the file of a project exists, `HasConfiguration`
returns false exactly when its permission bits lack one of the bits of 0600
(read and write for the owner); a file whose mode is 0600 with further bits
added, such as 0644, is reported as present. -/
theorem hasConfiguration_of_mode (s : Store) (w : World) (name filename : String) (mode : Nat)
    (content : FileContent) (hfile : s.getConfigurationFilename w name = (filename, none))
    (hnode : w.nodes.get? filename = some (Node.file mode content)) :
    ((s.HasConfiguration w name).1 = false ↔ (mode &&& 0o777) &&& 0o600 ≠ 0o600) ∧
    (∀ added, mode = 0o600 ||| added → (s.HasConfiguration w name).1 = true) := by
  have hstat : osStat w filename = Except.ok ⟨false, mode⟩ := by
    simp only [osStat, hnode]
  rw [hasConfiguration_eq s w name filename hfile _ hstat]
  constructor
  · simp [FileInfo.Perm, fileMode]
  · intro added hmode
    subst hmode
    have h : (0o600 ||| added) &&& 0o777 &&& 0o600 = 0o600 := by
      rw [Nat.land_assoc]
      exact land_lor_self 0o600 added
    simp [FileInfo.Perm, fileMode, h]

/-- Witness of `hasConfiguration_of_mode`: the file of "proj1" with mode 0644. -/
theorem hasConfiguration_of_mode_witness :
    ((NewStore.HasConfiguration widenedWorld "proj1").1 = false ↔ (0o644 &&& 0o777) &&& 0o600 ≠ 0o600) ∧
    (∀ added, 0o644 = 0o600 ||| added → (NewStore.HasConfiguration widenedWorld "proj1").1 = true) :=
  hasConfiguration_of_mode NewStore widenedWorld "proj1"
    "/home/u/.config/intrinsic/projects/proj1.user-token" 0o644 (FileContent.document storedProj1)
    (by decide) (by decide)

/-- C7: `HasConfiguration` returns true exactly when the name is not empty,
the configuration directory resolves, `os.Stat` succeeds on the file
`<config-dir>/intrinsic/projects/<name>.user-token` and the permission bits `p`
of the file satisfy `p AND 0600 = 0600`; otherwise it returns false; and it
leaves the world as it was. -/
theorem hasConfiguration_iff (s : Store) (w : World) (name : String) :
    ((s.HasConfiguration w name).1 = true ↔
      name ≠ "" ∧ ∃ configDir, s.getConfigDir w = (configDir, none) ∧
        ∃ info, osStat w (filepathJoin (filepathJoin configDir "intrinsic/projects")
            (name ++ ".user-token")) = Except.ok info ∧
          info.Perm &&& 0o600 = 0o600) ∧
    ((s.HasConfiguration w name).1 = false ∨ (s.HasConfiguration w name).1 = true) ∧
    (s.HasConfiguration w name).2 = w := by
  refine ⟨?_, by cases (s.HasConfiguration w name).1 <;> simp, ?_⟩
  · unfold Store.HasConfiguration Store.getConfigurationFilename Store.getStoreLocation
    by_cases hname : name = ""
    · simp [hname]
    · rcases hdir : s.getConfigDir w with ⟨configDir, err⟩
      cases err with
      | some e => simp [hname]
      | none =>
        simp only [hname, if_false, storeDirectory, authConfigExtension, fileMode]
        cases hstat : osStat w (filepathJoin (filepathJoin configDir "intrinsic/projects")
            (name ++ ".user-token")) with
        | error e => simp [hname, hstat]
        | ok info => simp [hname, hstat]
  · unfold Store.HasConfiguration
    split
    · rfl
    · split <;> rfl

/-! ## Modes after a write -/

/-- C6 fails as stated: the file of "proj1" has mode 0644 and its directory
mode 0755; a write of "proj1" succeeds and leaves both modes as they were. -/
theorem writeConfiguration_keeps_modes :
    (NewStore.WriteConfiguration 1700000000000000000 widenedWorld
      (NewConfiguration "proj1")).1.2 = none ∧
    (NewStore.WriteConfiguration 1700000000000000000 widenedWorld
      (NewConfiguration "proj1")).2.nodes.get?
        "/home/u/.config/intrinsic/projects/proj1.user-token" =
      some (Node.file 0o644 (FileContent.document
        ⟨"proj1", none, some (TimeText.stamp 1700000000000000000)⟩)) ∧
    (NewStore.WriteConfiguration 1700000000000000000 widenedWorld
      (NewConfiguration "proj1")).2.nodes.get? "/home/u/.config/intrinsic/projects" =
      some (Node.dir 0o755) := by
  decide

/-- C6, as the code has it: after a successful write the file of the project
has the mode it had before when it existed before, and 0600 less the bits of
the umask when the write created it; the directory that contains it has the
mode it had before when it existed, and 0700 less the bits of the umask when
the write created it.  With a umask that has none of the bits of 0700, a file
and a directory that the write created have 0600 and 0700. -/
theorem writeConfiguration_modes (now : Time) (s : Store) (w w' : World)
    (config cfg : ProjectConfiguration)
    (h : s.WriteConfiguration now w config = ((cfg, none), w')) :
    ∃ filename, s.getConfigurationFilename w config.Name = (filename, none) ∧
      (∃ content, w'.nodes.get? filename =
        some (Node.file
          (match w.nodes.get? filename with
            | some (Node.file mode _) => mode
            | _ => applyUmask 0o600 w.umask) content)) ∧
      w'.nodes.get? (filepathDir filename) =
        some (Node.dir
          (match w.nodes.get? (filepathDir filename) with
            | some (Node.dir mode) => mode
            | _ => applyUmask 0o700 w.umask)) ∧
      (w.umask &&& 0o700 = 0 → applyUmask 0o600 w.umask = 0o600 ∧ applyUmask 0o700 w.umask = 0o700) := by
  obtain ⟨filename, w1, mode, hfile, hmk, _, hnode, hmode, hframe, _, _⟩ :=
    writeConfiguration_world now s w w' config cfg h
  obtain ⟨hu, _, hext⟩ := osMkdirAllFuel_extends directoryMode _ _ _ _ _ hmk
  obtain ⟨dmode, hdir⟩ := osMkdirAllFuel_dir directoryMode _ _ _ _ hmk
  refine ⟨filename, hfile, ?_, ?_, applyUmask_owner w.umask⟩
  · refine ⟨FileContent.document (encodeConfiguration cfg), ?_⟩
    rw [hnode]
    rcases hmode with ⟨content, hc⟩ | ⟨hnone, hm⟩
    · rcases hext filename with he | ⟨_, he⟩
      · rw [← he, hc]
      · rw [hc] at he
        simp at he
    · rcases hext filename with he | ⟨_, he⟩
      · rw [← he, hnone, hm, hu]
        rfl
      · rw [hnone] at he
        simp at he
  · have hne : filepathDir filename ≠ filename := by
      intro heq
      rw [heq] at hdir
      rcases hmode with ⟨content, hc⟩ | ⟨hnone, _⟩
      · rw [hc] at hdir
        simp at hdir
      · rw [hnone] at hdir
        simp at hdir
    rw [hframe _ hne, hdir]
    rcases hext (filepathDir filename) with he | ⟨hnone, he⟩
    · rw [← he, hdir]
    · rw [hnone]
      rw [hdir] at he
      simpa [directoryMode] using he

/-- Witness of `writeConfiguration_modes`: the first write in a world where
the store has not written anything, with umask 022. -/
theorem writeConfiguration_modes_witness :
    ∃ filename, NewStore.getConfigurationFilename freshWorld (NewConfiguration "proj1").Name =
        (filename, none) ∧
      (∃ content, (NewStore.WriteConfiguration 1700000000000000000 freshWorld
          (NewConfiguration "proj1")).2.nodes.get? filename =
        some (Node.file
          (match freshWorld.nodes.get? filename with
            | some (Node.file mode _) => mode
            | _ => applyUmask 0o600 freshWorld.umask) content)) ∧
      (NewStore.WriteConfiguration 1700000000000000000 freshWorld
          (NewConfiguration "proj1")).2.nodes.get? (filepathDir filename) =
        some (Node.dir
          (match freshWorld.nodes.get? (filepathDir filename) with
            | some (Node.dir mode) => mode
            | _ => applyUmask 0o700 freshWorld.umask)) ∧
      (freshWorld.umask &&& 0o700 = 0 →
        applyUmask 0o600 freshWorld.umask = 0o600 ∧ applyUmask 0o700 freshWorld.umask = 0o700) :=
  writeConfiguration_modes 1700000000000000000 NewStore freshWorld _ (NewConfiguration "proj1")
    ⟨"proj1", some GoMap.empty, some 1700000000000000000⟩ (by decide)

/-! ## Round trip through the store -/

/-- C2 fails as stated: a configuration whose default token expires at a time
with half a second is written, at a clock reading a quarter of a second past a
whole second, 0.2 s after the time `before` taken just before the write.  The
write succeeds and `GetConfiguration` succeeds, but the token read back expires
half a second earlier than the one written, and `LastUpdated` read back is
before `before`.  And a token that expires at a whole second in a zone 30 s
east of UTC is read back with an expiry 30 s later, in UTC. -/
theorem roundTrip_loses_fraction :
    (NewStore.WriteConfiguration 1700000000250000000 freshWorld halfSecondConfiguration).1.2 = none ∧
    (NewStore.GetConfiguration
        (NewStore.WriteConfiguration 1700000000250000000 freshWorld halfSecondConfiguration).2
        "proj1").1 =
      (some ⟨"proj1", some ⟨[("default", some ⟨"key-123", some 2000000000000000000⟩)]⟩,
        some 1700000000000000000⟩, none) ∧
    halfSecondConfiguration.GetCredentials "default" =
      (some ⟨"key-123", some 2000000000500000000⟩, none) ∧
    (some (ProjectToken.mk "key-123" (some 2000000000000000000)), (none : Option Error)) ≠
      halfSecondConfiguration.GetCredentials "default" ∧
    (1700000000050000000 : Time) ≤ 1700000000250000000 ∧
    (1700000000000000000 : Time) < 1700000000050000000 ∧
    (NewStore.WriteConfiguration 1700000000000000000 freshWorld
      ⟨"proj1", some ⟨[("default", some ⟨"key-123", some ⟨2000000000000000000, 30⟩⟩)]⟩, none⟩).1.2 =
      none ∧
    (NewStore.GetConfiguration
        (NewStore.WriteConfiguration 1700000000000000000 freshWorld
          ⟨"proj1", some ⟨[("default", some ⟨"key-123", some ⟨2000000000000000000, 30⟩⟩)]⟩,
            none⟩).2
        "proj1").1 =
      (some ⟨"proj1", some ⟨[("default", some ⟨"key-123", some ⟨2000000030000000000, 0⟩⟩)]⟩,
        some 1700000000000000000⟩, none) := by
  decide

/-- C2, as the code has it: for a configuration with a non-nil `Tokens` whose
expiries have, on their own wall clocks, years in 0..9999 and zone offsets of at
most 24 hours, written at a clock reading whose year in UTC is in 0..9999: if
the write succeeds then `GetConfiguration` of its name succeeds, and returns
the same name and the same aliases with the same API keys, each expiry being
the whole second on its wall clock read at its zone offset cut to whole
minutes, which is the same instant cut to the whole second when the offset is
a whole number of minutes; as `LastUpdated` it returns the clock reading of the
write in UTC cut to the whole second, which is less than a second before any
time not after the write.  When every expiry is a whole number of seconds, in
a zone with an offset of whole minutes, the tokens read back are equal to
those written. -/
theorem getConfiguration_writeConfiguration (now : Time) (s : Store) (w w' : World)
    (config cfg : ProjectConfiguration) (tokens : GoMap (Option ProjectToken))
    (htokens : config.Tokens = some tokens)
    (hyears : ∀ e ∈ tokens.entries, expiryHasRFC3339Text e.2 = true)
    (hnow : Time.hasFourDigitYear (Time.UTC now) = true)
    (h : s.WriteConfiguration now w config = ((cfg, none), w')) :
    ∃ loaded, s.GetConfiguration w' config.Name = ((some loaded, none), w') ∧
      loaded.Name = config.Name ∧
      (∀ k, lookupNilable config.Tokens k = none → lookupNilable loaded.Tokens k = none) ∧
      (∀ k, lookupNilable config.Tokens k = some none →
        lookupNilable loaded.Tokens k = some none) ∧
      (∀ k key, lookupNilable config.Tokens k = some (some ⟨key, none⟩) →
        lookupNilable loaded.Tokens k = some (some ⟨key, none⟩)) ∧
      (∀ k key t, lookupNilable config.Tokens k = some (some ⟨key, some t⟩) →
        lookupNilable loaded.Tokens k = some (some ⟨key, some
          ⟨(t.unixNano / 1000000000 + t.offset - Int.tdiv t.offset 60 * 60) * 1000000000,
            Int.tdiv t.offset 60 * 60⟩⟩)) ∧
      (∀ k key t, lookupNilable config.Tokens k = some (some ⟨key, some t⟩) → t.offset % 60 = 0 →
        lookupNilable loaded.Tokens k =
          some (some ⟨key, some ⟨t.unixNano / 1000000000 * 1000000000, t.offset⟩⟩)) ∧
      ((∀ e ∈ tokens.entries, expiryIsWholeSecond e.2 = true) →
        ∀ k, lookupNilable loaded.Tokens k = lookupNilable config.Tokens k) ∧
      loaded.LastUpdated = some ⟨now.unixNano / 1000000000 * 1000000000, 0⟩ ∧
      (∀ before : Time, before ≤ now →
        before.unixNano - 1000000000 < now.unixNano / 1000000000 * 1000000000 ∧
          now.unixNano / 1000000000 * 1000000000 ≤ now.unixNano) := by
  obtain ⟨filename, w1, mode, hfile, hmk, hcfg, hnode, _, _, hdir, _⟩ :=
    writeConfiguration_world now s w w' config cfg h
  obtain ⟨_, hdir1, _⟩ := osMkdirAllFuel_extends directoryMode _ _ _ _ _ hmk
  have hfile' : s.getConfigurationFilename w' config.Name = (filename, none) := by
    rw [getConfigurationFilename_congr s w w' config.Name (hdir.trans hdir1)]
    exact hfile
  have hutc : (Time.hasFourDigitYear (Time.UTC now) && Time.hasOffsetInRange (Time.UTC now)) =
      true := by
    rw [hnow, hasOffsetInRange_utc]
    rfl
  obtain ⟨loaded, hload, hname, hlook, hupdated⟩ :=
    decode_encoded config.Name tokens (Time.UTC now) hyears hutc
  rw [hcfg, htokens] at hnode
  have hlook' : ∀ k, lookupNilable loaded.Tokens k =
      (lookupNilable config.Tokens k).map (Option.map ProjectToken.readBack) := by
    intro k
    rw [hlook k, htokens]
    rfl
  have hzoned : ∀ k key t, lookupNilable config.Tokens k = some (some ⟨key, some t⟩) →
      lookupNilable loaded.Tokens k = some (some ⟨key, some (Time.readBack t)⟩) := by
    intro k key t hk
    rw [hlook' k, hk]
    rfl
  refine ⟨loaded, ?_, hname, ?_, ?_, ?_, ?_, ?_, ?_, ?_, ?_⟩
  · simp only [Store.GetConfiguration, hfile', osOpen, hnode, decodeFile, hload]
  · intro k hk
    rw [hlook' k, hk]
    rfl
  · intro k hk
    rw [hlook' k, hk]
    rfl
  · intro k key hk
    rw [hlook' k, hk]
    rfl
  · intro k key t hk
    rw [hzoned k key t hk]
    rfl
  · intro k key t hk hmin
    rw [hzoned k key t hk, readBack_whole_minutes t hmin]
    rfl
  · intro hwhole k
    rw [hlook' k, htokens]
    simp only [lookupNilable, GoMap.get?]
    cases hk : lookupEntry k tokens.entries with
    | none => rfl
    | some token =>
      have hmem := mem_of_lookupEntry k token tokens.entries hk
      simp only [Option.map_some']
      rw [readBack_whole token (hwhole (k, token) hmem)]
  · rw [hupdated, readBack_utc]
    rfl
  · intro before hbefore
    exact truncate_bounds now.unixNano before.unixNano hbefore

/-- Witness of `getConfiguration_writeConfiguration`: the first write of a
configuration whose default token expires at a whole second, in UTC. -/
theorem getConfiguration_writeConfiguration_witness :
    ∃ loaded, NewStore.GetConfiguration
        (NewStore.WriteConfiguration 1700000000250000000 freshWorld
          ⟨"proj1", some ⟨[("default", some ⟨"key-123", some 2000000000000000000⟩)]⟩, none⟩).2
        (ProjectConfiguration.mk "proj1"
          (some ⟨[("default", some ⟨"key-123", some 2000000000000000000⟩)]⟩) none).Name =
        ((some loaded, none),
          (NewStore.WriteConfiguration 1700000000250000000 freshWorld
            ⟨"proj1", some ⟨[("default", some ⟨"key-123", some 2000000000000000000⟩)]⟩, none⟩).2) ∧
      loaded.Name = (ProjectConfiguration.mk "proj1"
          (some ⟨[("default", some ⟨"key-123", some 2000000000000000000⟩)]⟩) none).Name ∧
      (∀ k, lookupNilable (ProjectConfiguration.mk "proj1"
          (some ⟨[("default", some ⟨"key-123", some 2000000000000000000⟩)]⟩) none).Tokens k = none →
        lookupNilable loaded.Tokens k = none) ∧
      (∀ k, lookupNilable (ProjectConfiguration.mk "proj1"
          (some ⟨[("default", some ⟨"key-123", some 2000000000000000000⟩)]⟩) none).Tokens k =
          some none →
        lookupNilable loaded.Tokens k = some none) ∧
      (∀ k key, lookupNilable (ProjectConfiguration.mk "proj1"
          (some ⟨[("default", some ⟨"key-123", some 2000000000000000000⟩)]⟩) none).Tokens k =
          some (some ⟨key, none⟩) →
        lookupNilable loaded.Tokens k = some (some ⟨key, none⟩)) ∧
      (∀ k key t, lookupNilable (ProjectConfiguration.mk "proj1"
          (some ⟨[("default", some ⟨"key-123", some 2000000000000000000⟩)]⟩) none).Tokens k =
          some (some ⟨key, some t⟩) →
        lookupNilable loaded.Tokens k = some (some ⟨key, some
          ⟨(t.unixNano / 1000000000 + t.offset - Int.tdiv t.offset 60 * 60) * 1000000000,
            Int.tdiv t.offset 60 * 60⟩⟩)) ∧
      (∀ k key t, lookupNilable (ProjectConfiguration.mk "proj1"
          (some ⟨[("default", some ⟨"key-123", some 2000000000000000000⟩)]⟩) none).Tokens k =
          some (some ⟨key, some t⟩) → t.offset % 60 = 0 →
        lookupNilable loaded.Tokens k =
          some (some ⟨key, some ⟨t.unixNano / 1000000000 * 1000000000, t.offset⟩⟩)) ∧
      ((∀ e ∈ [("default", some (ProjectToken.mk "key-123" (some 2000000000000000000)))],
          expiryIsWholeSecond e.2 = true) →
        ∀ k, lookupNilable loaded.Tokens k =
          lookupNilable (ProjectConfiguration.mk "proj1"
            (some ⟨[("default", some ⟨"key-123", some 2000000000000000000⟩)]⟩) none).Tokens k) ∧
      loaded.LastUpdated =
        some ⟨(1700000000250000000 : Time).unixNano / 1000000000 * 1000000000, 0⟩ ∧
      (∀ before : Time, before ≤ 1700000000250000000 →
        before.unixNano - 1000000000 <
            (1700000000250000000 : Time).unixNano / 1000000000 * 1000000000 ∧
          (1700000000250000000 : Time).unixNano / 1000000000 * 1000000000 ≤
            (1700000000250000000 : Time).unixNano) :=
  getConfiguration_writeConfiguration 1700000000250000000 NewStore freshWorld _
    ⟨"proj1", some ⟨[("default", some ⟨"key-123", some 2000000000000000000⟩)]⟩, none⟩
    ⟨"proj1", some ⟨[("default", some ⟨"key-123", some 2000000000000000000⟩)]⟩,
      some 1700000000250000000⟩
    ⟨[("default", some ⟨"key-123", some 2000000000000000000⟩)]⟩ rfl (by decide) (by decide)
    (by decide)

/-! ## Authorization of a call -/

/-- C11: for every non-nil token `GetRequestMetadata` returns the map whose one
entry is "authorization" with the value "Bearer " followed by the API key,
together with exactly the error that `Validate` returns for the token; the map
is the same whether the validation fails or not. -/
theorem getRequestMetadata_eq (now : Time) (p : ProjectToken) :
    ∃ metadata, ProjectToken.GetRequestMetadata now (some p) =
        some (metadata, ProjectToken.Validate now (some p)) ∧
      metadata.entries = [("authorization", "Bearer " ++ p.APIKey)] ∧
      metadata.get? "authorization" = some ("Bearer " ++ p.APIKey) ∧
      ∀ k, k ≠ "authorization" → metadata.get? k = none := by
  refine ⟨GoMap.empty.set "authorization" ("Bearer " ++ p.APIKey), rfl, rfl,
    GoMap.get?_set_self _ _ _, ?_⟩
  intro k hk
  rw [GoMap.get?_set_other _ _ _ _ hk]
  rfl

/-- C12: for every token whose expiry is before the clock reading and every
request, `HTTPAuthorization` returns the request with its "Authorization"
header set to the one value "Bearer " followed by the API key, whatever the
header held, with every other header and the rest of the request unchanged,
together with the ExpiredToken error. -/
theorem httpAuthorization_expired (now : Time) (p : ProjectToken) (validUntil : RFC3339Time)
    (req : Request) (hset : p.ValidUntil = some validUntil) (hpast : validUntil < now) :
    ∃ sent, ProjectToken.HTTPAuthorization now (some p) req =
        some (sent, some (Error.expiredToken validUntil)) ∧
      sent.Header.get? "Authorization" = some ["Bearer " ++ p.APIKey] ∧
      (∀ k, k ≠ "Authorization" → sent.Header.get? k = req.Header.get? k) ∧
      sent.Method = req.Method ∧ sent.URL = req.URL := by
  have hvalidate : ProjectToken.Validate now (some p) = some (Error.expiredToken validUntil) := by
    obtain ⟨key, expiry⟩ := p
    simp only at hset
    subst hset
    simp [ProjectToken.Validate, Time.After, hpast]
  refine ⟨⟨req.Method, req.URL, headerSet req.Header "Authorization" ("Bearer " ++ p.APIKey)⟩,
    ?_, GoMap.get?_set_self _ _ _, ?_, rfl, rfl⟩
  · simp only [ProjectToken.HTTPAuthorization, hvalidate]
  · intro k hk
    exact GoMap.get?_set_other _ _ _ _ hk

/-- Witness of `httpAuthorization_expired`: a token that expired a second ago,
on a request that carries another authorization and an "Accept" header. -/
theorem httpAuthorization_expired_witness :
    ∃ sent, ProjectToken.HTTPAuthorization 1700000000000000000
        (some ⟨"key-123", some 1699999999000000000⟩)
        ⟨"GET", "https://example.test/v1", ⟨[("Accept", ["text/plain"]), ("Authorization", ["Bearer old"])]⟩⟩ =
        some (sent, some (Error.expiredToken 1699999999000000000)) ∧
      sent.Header.get? "Authorization" = some ["Bearer " ++ "key-123"] ∧
      (∀ k, k ≠ "Authorization" → sent.Header.get? k =
        (GoMap.mk [("Accept", ["text/plain"]), ("Authorization", ["Bearer old"])]).get? k) ∧
      sent.Method = "GET" ∧ sent.URL = "https://example.test/v1" :=
  httpAuthorization_expired 1700000000000000000 ⟨"key-123", some 1699999999000000000⟩
    1699999999000000000
    ⟨"GET", "https://example.test/v1", ⟨[("Accept", ["text/plain"]), ("Authorization", ["Bearer old"])]⟩⟩
    rfl (by decide)


/-! ## `GetConfiguration` -/

theorem getConfigurationFilename_ok_iff (s : Store) (w : World) (name : String) :
    (s.getConfigurationFilename w name).2 = none ↔ name ≠ "" ∧ (s.getConfigDir w).2 = none := by
  unfold Store.getConfigurationFilename Store.getStoreLocation
  by_cases hname : name = ""
  · simp [hname]
  · rcases hdir : s.getConfigDir w with ⟨configDir, err⟩
    cases err <;> simp [hname]

theorem getConfiguration_unresolved (s : Store) (w : World) (name : String) (err : Error)
    (h : (s.getConfigurationFilename w name).2 = some err) :
    s.GetConfiguration w name =
      ((none, some (Error.wrap "cannot open configuration for name" err)), w) := by
  rcases hfile : s.getConfigurationFilename w name with ⟨filename, e⟩
  rw [hfile] at h
  simp only at h
  subst h
  simp only [Store.GetConfiguration, hfile]

theorem getConfiguration_missing (s : Store) (w : World) (name filename : String)
    (hfile : s.getConfigurationFilename w name = (filename, none))
    (hnode : w.nodes.get? filename = none) :
    s.GetConfiguration w name =
      ((none, some (Error.wrap "cannot open configuration file" (Error.os OSError.notExist))), w) := by
  simp only [Store.GetConfiguration, hfile, osOpen, hnode]

theorem getConfiguration_opened (s : Store) (w : World) (name filename : String) (node : Node)
    (hfile : s.getConfigurationFilename w name = (filename, none))
    (hnode : w.nodes.get? filename = some node) :
    s.GetConfiguration w name =
      ((some (finishConfiguration (decodeFile node)).1,
        (decodeFile node).2.map (Error.wrap "cannot read name configuration")), w) := by
  simp only [Store.GetConfiguration, hfile, osOpen, hnode]
  unfold finishConfiguration
  split <;> rfl

theorem finishConfiguration_tokens (decoded : ProjectConfiguration × Option Error) :
    ∃ tokens, (finishConfiguration decoded).1.Tokens = some tokens ∧
      (decoded.1.Tokens = none → tokens = GoMap.empty) ∧
      (finishConfiguration decoded).1.Name = decoded.1.Name := by
  unfold finishConfiguration
  cases h : decoded.1.Tokens with
  | none => exact ⟨GoMap.empty, rfl, fun _ => rfl, rfl⟩
  | some tokens => exact ⟨tokens, h, fun hn => Option.noConfusion hn, rfl⟩

theorem decodeDocument_name (d : ConfigurationDocument) : (decodeDocument d).1.Name = d.name := by
  unfold decodeDocument
  split
  · split
    · rfl
    · split <;> rfl
  · split
    · rfl
    · split
      · rfl
      · split <;> rfl

theorem getConfiguration_cases (s : Store) (w : World) (name : String) :
    (∃ err, (s.getConfigurationFilename w name).2 = some err ∧
      s.GetConfiguration w name =
        ((none, some (Error.wrap "cannot open configuration for name" err)), w)) ∨
    (∃ filename, s.getConfigurationFilename w name = (filename, none) ∧
      w.nodes.get? filename = none ∧
      s.GetConfiguration w name =
        ((none, some (Error.wrap "cannot open configuration file" (Error.os OSError.notExist))), w)) ∨
    (∃ filename node, s.getConfigurationFilename w name = (filename, none) ∧
      w.nodes.get? filename = some node ∧
      s.GetConfiguration w name =
        ((some (finishConfiguration (decodeFile node)).1,
          (decodeFile node).2.map (Error.wrap "cannot read name configuration")), w)) := by
  rcases hfile : s.getConfigurationFilename w name with ⟨filename, err⟩
  cases err with
  | some e =>
    exact Or.inl ⟨e, rfl, getConfiguration_unresolved s w name e (by rw [hfile])⟩
  | none =>
    cases hnode : w.nodes.get? filename with
    | none => exact Or.inr (Or.inl ⟨filename, rfl, hnode, getConfiguration_missing s w name filename hfile hnode⟩)
    | some node =>
      exact Or.inr (Or.inr ⟨filename, node, rfl, hnode,
        getConfiguration_opened s w name filename node hfile hnode⟩)


/-- C13: `NewConfiguration` returns an empty `Tokens` that is not nil, and every
configuration that `GetConfiguration` returns, with or without an error, has a
`Tokens` that is not nil: the empty map when the file has no "tokens" or has it
as null. -/
theorem tokens_never_nil (s : Store) (w : World) (name : String) (cfg : ProjectConfiguration)
    (err : Option Error) (h : (s.GetConfiguration w name).1 = (some cfg, err)) :
    (∀ n, (NewConfiguration n).Tokens = some GoMap.empty) ∧
    (∃ tokens, cfg.Tokens = some tokens) ∧
    (∀ filename mode d, s.getConfigurationFilename w name = (filename, none) →
      w.nodes.get? filename = some (Node.file mode (FileContent.document d)) →
      d.tokens = none → cfg.Tokens = some GoMap.empty) := by
  refine ⟨fun _ => rfl, ?_, ?_⟩
  · rcases getConfiguration_cases s w name with ⟨e, _, hget⟩ | ⟨f, _, _, hget⟩ | ⟨f, node, _, _, hget⟩
    · rw [hget] at h
      simp at h
    · rw [hget] at h
      simp at h
    · rw [hget] at h
      simp only [Prod.mk.injEq, Option.some.injEq] at h
      obtain ⟨tokens, ht, _, _⟩ := finishConfiguration_tokens (decodeFile node)
      exact ⟨tokens, h.1 ▸ ht⟩
  · intro filename mode d hfile hnode hd
    rw [getConfiguration_opened s w name filename _ hfile hnode] at h
    simp only [Prod.mk.injEq, Option.some.injEq] at h
    obtain ⟨tokens, ht, hempty, _⟩ :=
      finishConfiguration_tokens (decodeFile (Node.file mode (FileContent.document d)))
    have hnil : (decodeFile (Node.file mode (FileContent.document d))).1.Tokens = none := by
      simp only [decodeFile, decodeDocument, hd]
      split
      · rfl
      · split <;> rfl
    rw [← h.1, ht, hempty hnil]

/-- Witness of `tokens_never_nil`: the file of "proj1" has no "tokens". -/
theorem tokens_never_nil_witness :
    (∀ n, (NewConfiguration n).Tokens = some GoMap.empty) ∧
    (∃ tokens, (ProjectConfiguration.mk "proj1" (some GoMap.empty) none).Tokens = some tokens) ∧
    (∀ filename mode d,
      NewStore.getConfigurationFilename (proj1World (FileContent.document bareDocument)) "proj1" =
        (filename, none) →
      (proj1World (FileContent.document bareDocument)).nodes.get? filename =
        some (Node.file mode (FileContent.document d)) →
      d.tokens = none →
      (ProjectConfiguration.mk "proj1" (some GoMap.empty) none).Tokens = some GoMap.empty) :=
  tokens_never_nil NewStore (proj1World (FileContent.document bareDocument)) "proj1"
    ⟨"proj1", some GoMap.empty, none⟩ none (by decide)

/-- C14 fails as stated: the file of "proj1" holds a name, a default token and
a "lastUpdated" that is not a timestamp.  `GetConfiguration` returns an error
and, with it, a configuration that is not nil and holds the name and the
token of the file: its default credentials are returned without error and
validate. -/
theorem getConfiguration_error_with_configuration :
    (NewStore.GetConfiguration (proj1World (FileContent.document badStampDocument)) "proj1").1.2 =
      some (Error.wrap "cannot read name configuration" Error.decode) ∧
    (NewStore.GetConfiguration (proj1World (FileContent.document badStampDocument)) "proj1").1.1 ≠
      none ∧
    ((NewStore.GetConfiguration (proj1World (FileContent.document badStampDocument)) "proj1").1.1).map
        (fun cfg => (cfg.Name, cfg.GetDefaultCredentials)) =
      some ("proj1", (some ⟨"key-123", none⟩, none)) ∧
    ProjectToken.Validate 1700000000000000000 (some ⟨"key-123", none⟩) = none := by
  decide

/-- C14, as the code has it: `GetConfiguration` leaves the world as it was, and
returns an error exactly when the name is empty, the configuration directory
does not resolve, nothing exists at the path of the file, or what is there
does not decode.  The configuration returned is nil exactly in the first three
cases; when the content does not decode, the configuration returned with the
error is not nil: it holds what was decoded before the failure, with a `Tokens`
that is not nil. -/
theorem getConfiguration_error_iff (s : Store) (w : World) (name : String) :
    (s.GetConfiguration w name).2 = w ∧
    ((s.GetConfiguration w name).1.2 ≠ none ↔
      name = "" ∨ (s.getConfigDir w).2 ≠ none ∨
      ∃ filename, s.getConfigurationFilename w name = (filename, none) ∧
        (w.nodes.get? filename = none ∨
          ∃ node, w.nodes.get? filename = some node ∧ (decodeFile node).2 ≠ none)) ∧
    ((s.GetConfiguration w name).1.1 = none ↔
      name = "" ∨ (s.getConfigDir w).2 ≠ none ∨
      ∃ filename, s.getConfigurationFilename w name = (filename, none) ∧
        w.nodes.get? filename = none) ∧
    (∀ filename node, s.getConfigurationFilename w name = (filename, none) →
      w.nodes.get? filename = some node → (decodeFile node).2 ≠ none →
      ∃ cfg tokens, (s.GetConfiguration w name).1.1 = some cfg ∧ cfg.Tokens = some tokens ∧
        cfg.Name = (decodeFile node).1.Name ∧ cfg.LastUpdated = (decodeFile node).1.LastUpdated) := by
  have hres := getConfigurationFilename_ok_iff s w name
  rcases getConfiguration_cases s w name with ⟨e, he, hget⟩ | ⟨f, hf, hnone, hget⟩ |
    ⟨f, node, hf, hnode, hget⟩
  · have hbad : ¬ (name ≠ "" ∧ (s.getConfigDir w).2 = none) := by
      intro h
      rw [hres.2 h] at he
      exact Option.noConfusion he
    have hor : name = "" ∨ (s.getConfigDir w).2 ≠ none := by
      by_cases hn : name = ""
      · exact Or.inl hn
      · exact Or.inr (fun hd => hbad ⟨hn, hd⟩)
    refine ⟨by rw [hget], ?_, ?_, ?_⟩
    · rw [hget]
      simp only [ne_eq, reduceCtorEq, not_false_eq_true, true_iff]
      rcases hor with h | h
      · exact Or.inl h
      · exact Or.inr (Or.inl h)
    · rw [hget]
      simp only [true_iff]
      rcases hor with h | h
      · exact Or.inl h
      · exact Or.inr (Or.inl h)
    · intro filename node hfile _ _
      rw [hfile] at he
      exact Option.noConfusion he
  · have hok := hres.1 (by rw [hf])
    refine ⟨by rw [hget], ?_, ?_, ?_⟩
    · rw [hget]
      simp only [ne_eq, reduceCtorEq, not_false_eq_true, true_iff]
      exact Or.inr (Or.inr ⟨f, hf, Or.inl hnone⟩)
    · rw [hget]
      simp only [true_iff]
      exact Or.inr (Or.inr ⟨f, hf, hnone⟩)
    · intro filename node hfile hnode _
      rw [hf] at hfile
      have hfn : f = filename := (Prod.mk.inj hfile).1
      rw [← hfn, hnone] at hnode
      exact Option.noConfusion hnode
  · have hok := hres.1 (by rw [hf])
    refine ⟨by rw [hget], ?_, ?_, ?_⟩
    · rw [hget]
      constructor
      · intro herr
        refine Or.inr (Or.inr ⟨f, hf, Or.inr ⟨node, hnode, ?_⟩⟩)
        intro hnil
        rw [hnil] at herr
        exact herr rfl
      · rintro (h | h | ⟨filename, hfile, h⟩)
        · exact absurd h hok.1
        · exact absurd hok.2 h
        · rw [hf] at hfile
          have hfn : f = filename := (Prod.mk.inj hfile).1
          rw [← hfn, hnode] at h
          rcases h with h | ⟨node', hn, hdec⟩
          · exact Option.noConfusion h
          · have hnn : node = node' := Option.some.inj hn
            rw [← hnn] at hdec
            cases hd : (decodeFile node).2 with
            | none => exact absurd hd hdec
            | some e => simp
    · rw [hget]
      constructor
      · intro h
        exact Option.noConfusion h
      · rintro (h | h | ⟨filename, hfile, h⟩)
        · exact absurd h hok.1
        · exact absurd hok.2 h
        · rw [hf] at hfile
          have hfn : f = filename := (Prod.mk.inj hfile).1
          rw [← hfn, hnode] at h
          exact Option.noConfusion h
    · intro filename node' hfile hnode' _
      rw [hf] at hfile
      have hfn : f = filename := (Prod.mk.inj hfile).1
      rw [← hfn, hnode] at hnode'
      have hnn : node = node' := Option.some.inj hnode'
      rw [hget, ← hnn]
      obtain ⟨tokens, ht, _, hname⟩ := finishConfiguration_tokens (decodeFile node)
      refine ⟨_, tokens, rfl, ht, hname, ?_⟩
      unfold finishConfiguration
      split <;> rfl


/-- C15 fails as stated.  First, the file of "proj1" holds the configuration
of "proj2" (a copy of that file): `GetConfiguration` of "proj1" succeeds and
returns the name "proj2".  Second, with the store alone: a configuration named
"team/../proj1" is written, to the file of "proj1" since the path is cleaned;
`GetConfiguration` of "proj1" then succeeds and returns the name
"team/../proj1". -/
theorem getConfiguration_other_name :
    (NewStore.GetConfiguration (proj1World (FileContent.document copiedDocument)) "proj1").1 =
      (some ⟨"proj2", some ⟨[("default", some ⟨"key-456", none⟩)]⟩, some 1700000000000000000⟩,
        none) ∧
    (NewStore.WriteConfiguration 1700000000000000000 freshWorld
      (NewConfiguration "team/../proj1")).1.2 = none ∧
    (NewStore.GetConfiguration
      (NewStore.WriteConfiguration 1700000000000000000 freshWorld
        (NewConfiguration "team/../proj1")).2 "proj1").1 =
      (some ⟨"team/../proj1", some GoMap.empty, some 1700000000000000000⟩, none) ∧
    "proj2" ≠ "proj1" ∧ "team/../proj1" ≠ "proj1" := by
  decide

/-- C15, as the code has it: whenever `GetConfiguration` succeeds, the name of
the configuration returned is the "name" that the file of the project holds;
it is the name asked for when that file was last written by a
`WriteConfiguration` of a configuration of that name. -/
theorem getConfiguration_name (s : Store) (w : World) (name : String) (cfg : ProjectConfiguration)
    (h : (s.GetConfiguration w name).1 = (some cfg, none)) :
    (∃ filename mode d, s.getConfigurationFilename w name = (filename, none) ∧
      w.nodes.get? filename = some (Node.file mode (FileContent.document d)) ∧
      cfg.Name = d.name) ∧
    (∀ now before config written,
      s.WriteConfiguration now before config = ((written, none), w) → config.Name = name →
      cfg.Name = name) := by
  rcases getConfiguration_cases s w name with ⟨e, _, hget⟩ | ⟨f, _, _, hget⟩ | ⟨f, node, hf, hnode, hget⟩
  · rw [hget] at h
    simp at h
  · rw [hget] at h
    simp at h
  · rw [hget] at h
    simp only [Prod.mk.injEq, Option.some.injEq, Option.map_eq_none'] at h
    obtain ⟨hcfg, herr⟩ := h
    obtain ⟨_, _, _, hname⟩ := finishConfiguration_tokens (decodeFile node)
    rw [hcfg] at hname
    have hdoc : ∃ mode d, node = Node.file mode (FileContent.document d) := by
      cases node with
      | dir mode => simp [decodeFile] at herr
      | file mode content =>
        cases content with
        | unparsable => simp [decodeFile] at herr
        | document d => exact ⟨mode, d, rfl⟩
    obtain ⟨mode, d, hd⟩ := hdoc
    subst hd
    have hnd : cfg.Name = d.name := by
      rw [hname]
      exact decodeDocument_name d
    refine ⟨⟨f, mode, d, hf, hnode, hnd⟩, ?_⟩
    intro now before config written hwrite hcn
    obtain ⟨filename, w1, mode', hfile, hmk, hwritten, hnode', _, _, hdir, _⟩ :=
      writeConfiguration_world now s before w config written hwrite
    obtain ⟨_, hdir1, _⟩ := osMkdirAllFuel_extends directoryMode _ _ _ _ _ hmk
    have hsame : s.getConfigurationFilename w name = (filename, none) := by
      rw [getConfigurationFilename_congr s before w name (hdir.trans hdir1), ← hcn]
      exact hfile
    rw [hf] at hsame
    have hfn : f = filename := (Prod.mk.inj hsame).1
    rw [hfn, hnode'] at hnode
    have hdd : encodeConfiguration written = d := by
      have h2 := Option.some.inj hnode
      injection h2 with _ h3
      injection h3
    rw [hnd, ← hdd, hwritten, ← hcn]
    rfl

/-- Witness of `getConfiguration_name`: the file of "proj1" holds the
configuration of "proj1". -/
theorem getConfiguration_name_witness :
    (∃ filename mode d,
      NewStore.getConfigurationFilename (proj1World (FileContent.document storedProj1)) "proj1" =
        (filename, none) ∧
      (proj1World (FileContent.document storedProj1)).nodes.get? filename =
        some (Node.file mode (FileContent.document d)) ∧
      (ProjectConfiguration.mk "proj1" (some ⟨[("default", some ⟨"key-123", none⟩)]⟩)
        (some 1700000000000000000)).Name = d.name) ∧
    (∀ now before config written,
      NewStore.WriteConfiguration now before config =
        ((written, none), proj1World (FileContent.document storedProj1)) →
      config.Name = "proj1" →
      (ProjectConfiguration.mk "proj1" (some ⟨[("default", some ⟨"key-123", none⟩)]⟩)
        (some 1700000000000000000)).Name = "proj1") :=
  getConfiguration_name NewStore (proj1World (FileContent.document storedProj1)) "proj1"
    ⟨"proj1", some ⟨[("default", some ⟨"key-123", none⟩)]⟩, some 1700000000000000000⟩ (by decide)

/-! ## `WriteConfiguration` -/

/-- C16: for a configuration whose name is empty `WriteConfiguration` fails with
InvalidProjectName ("name name is required"), returns the configuration as it
was given, name, tokens and `LastUpdated` included, and leaves the world as it
was. -/
theorem writeConfiguration_empty_name (now : Time) (s : Store) (w : World)
    (config : ProjectConfiguration) (hname : config.Name = "") :
    s.WriteConfiguration now w config = ((config, some Error.nameRequired), w) := by
  simp [Store.WriteConfiguration, Store.getConfigurationFilename, hname]

/-- Witness of `writeConfiguration_empty_name`: a configuration without a name
that carries a token and a `LastUpdated`. -/
theorem writeConfiguration_empty_name_witness :
    NewStore.WriteConfiguration 1700000000000000000 freshWorld
        ⟨"", some ⟨[("default", some ⟨"key-123", none⟩)]⟩, some 1600000000000000000⟩ =
      ((⟨"", some ⟨[("default", some ⟨"key-123", none⟩)]⟩, some 1600000000000000000⟩,
        some Error.nameRequired), freshWorld) :=
  writeConfiguration_empty_name 1700000000000000000 NewStore freshWorld
    ⟨"", some ⟨[("default", some ⟨"key-123", none⟩)]⟩, some 1600000000000000000⟩ rfl

/-- C17: `WriteConfiguration` either succeeds, and then returns the configuration
with `LastUpdated` set to the clock reading in UTC, whatever it held, and with
the name and the tokens it had; or it fails, at the resolution of the path, at
the creation of the directory or at the opening of the file, and then returns
the configuration as it was given, `LastUpdated` included. -/
theorem writeConfiguration_lastUpdated (now : Time) (s : Store) (w : World)
    (config : ProjectConfiguration) :
    (∃ w', s.WriteConfiguration now w config =
      ((⟨config.Name, config.Tokens, some (Time.UTC now)⟩, none), w')) ∨
    (∃ err w', s.WriteConfiguration now w config = ((config, some err), w') ∧
      ((s.getConfigurationFilename w config.Name).2 = some err ∨
        (∃ e, err = Error.wrap "cannot create target directory" (Error.os e)) ∨
        (∃ e, err = Error.wrap "cannot open configuration file" (Error.os e)))) := by
  unfold Store.WriteConfiguration
  rcases hfile : s.getConfigurationFilename w config.Name with ⟨filename, err⟩
  cases err with
  | some e => exact Or.inr ⟨e, w, rfl, Or.inl rfl⟩
  | none =>
    simp only
    rcases hmk : osMkdirAll w (filepathDir filename) directoryMode with ⟨e, w1⟩
    cases e with
    | some e => exact Or.inr ⟨_, w1, rfl, Or.inr (Or.inl ⟨e, rfl⟩)⟩
    | none =>
      simp only
      cases hopen : osOpenFile w1 filename fileMode with
      | error e => exact Or.inr ⟨_, w1, rfl, Or.inr (Or.inr ⟨e, rfl⟩)⟩
      | ok w2 => exact Or.inl ⟨_, rfl⟩


/-! ## Cleaned paths -/

theorem splitSlash_ne_nil (s : List Char) : splitSlash s ≠ [] := by
  cases s with
  | nil => simp [splitSlash]
  | cons c cs =>
    simp only [splitSlash]
    split
    · simp
    · split <;> simp

theorem splitSlash_of_not_mem (x : List Char) (h : '/' ∉ x) : splitSlash x = [x] := by
  induction x with
  | nil => rfl
  | cons c cs ih =>
    have hc : c ≠ '/' := fun hc => h (by rw [hc]; exact List.mem_cons_self _ _)
    have hcs : '/' ∉ cs := fun hm => h (List.mem_cons_of_mem _ hm)
    simp only [splitSlash, hc, if_false, ih hcs]

theorem splitSlash_append (s x : List Char) (h : '/' ∉ x) :
    splitSlash (s ++ '/' :: x) = splitSlash s ++ [x] := by
  induction s with
  | nil => simp [splitSlash, splitSlash_of_not_mem x h]
  | cons c cs ih =>
    by_cases hc : c = '/'
    · simp only [List.cons_append, splitSlash, hc, if_true, List.append_eq, ih]
    · simp only [List.cons_append, splitSlash, hc, if_false, List.append_eq, ih]
      cases hs : splitSlash cs with
      | nil => exact absurd hs (splitSlash_ne_nil cs)
      | cons seg segs => rfl

theorem splitSlash_prepend (e y : List Char) (h : '/' ∉ e) :
    splitSlash (e ++ '/' :: y) = e :: splitSlash y := by
  induction e with
  | nil => simp [splitSlash]
  | cons c cs ih =>
    have hc : c ≠ '/' := fun hc => h (by rw [hc]; exact List.mem_cons_self _ _)
    have hcs : '/' ∉ cs := fun hm => h (List.mem_cons_of_mem _ hm)
    simp only [List.cons_append, splitSlash, hc, if_false, List.append_eq, ih hcs]

theorem splitSlash_joinSlash (els : List (List Char)) (hne : els ≠ [])
    (h : ∀ e ∈ els, '/' ∉ e) : splitSlash (joinSlash els) = els := by
  induction els with
  | nil => exact absurd rfl hne
  | cons e rest ih =>
    cases rest with
    | nil => simpa [joinSlash] using splitSlash_of_not_mem e (h e (List.mem_cons_self _ _))
    | cons e' rest' =>
      have he : '/' ∉ e := h e (List.mem_cons_self _ _)
      have hrest : ∀ x ∈ e' :: rest', '/' ∉ x := fun x hx => h x (List.mem_cons_of_mem _ hx)
      simp only [joinSlash]
      rw [splitSlash_prepend e _ he, ih (by simp) hrest]

theorem joinSlash_append (els : List (List Char)) (x : List Char) (hne : els ≠ []) :
    joinSlash (els ++ [x]) = joinSlash els ++ '/' :: x := by
  induction els with
  | nil => exact absurd rfl hne
  | cons e rest ih =>
    cases rest with
    | nil => simp [joinSlash]
    | cons e' rest' =>
      have := ih (by simp)
      simp only [List.cons_append, joinSlash, List.append_eq] at this ⊢
      rw [this]
      simp

theorem cleanElements_append_plain (rooted : Bool) (x : List Char) (h1 : x ≠ [])
    (h2 : x ≠ ['.']) (h3 : x ≠ ['.', '.']) (segs : List (List Char)) :
    ∀ kept, cleanElements rooted (segs ++ [x]) kept = cleanElements rooted segs kept ++ [x] := by
  induction segs with
  | nil =>
    intro kept
    simp [cleanElements, h1, h2, h3]
  | cons seg rest ih =>
    intro kept
    simp only [List.cons_append, cleanElements]
    split
    · exact ih _
    · split
      · split
        · split <;> exact ih _
        · split <;> exact ih _
      · exact ih _

theorem cleanElements_append_empty (rooted : Bool) (segs : List (List Char)) :
    ∀ kept, cleanElements rooted (segs ++ [[]]) kept = cleanElements rooted segs kept := by
  induction segs with
  | nil =>
    intro kept
    simp [cleanElements]
  | cons seg rest ih =>
    intro kept
    simp only [List.cons_append, cleanElements]
    split
    · exact ih _
    · split
      · split
        · split <;> exact ih _
        · split <;> exact ih _
      · exact ih _

theorem not_mem_of_mem_splitSlash (s : List Char) : ∀ e ∈ splitSlash s, '/' ∉ e := by
  induction s with
  | nil =>
    intro e he
    simp only [splitSlash, List.mem_singleton] at he
    rw [he]
    simp
  | cons c cs ih =>
    intro e he
    simp only [splitSlash] at he
    split at he
    · rcases List.mem_cons.1 he with h | h
      · rw [h]
        simp
      · exact ih e h
    · rename_i hc
      split at he
      · simp only [List.mem_singleton] at he
        rw [he]
        simpa using fun h => hc h.symm
      · rename_i seg segs hs
        rcases List.mem_cons.1 he with h | h
        · rw [h]
          have hseg : '/' ∉ seg := ih seg (by rw [hs]; exact List.mem_cons_self _ _)
          intro hm
          rcases List.mem_cons.1 hm with h1 | h1
          · exact hc h1.symm
          · exact hseg h1
        · exact ih e (by rw [hs]; exact List.mem_cons_of_mem _ h)

theorem cleanElements_clean (rooted : Bool) (segs : List (List Char))
    (hs : ∀ e ∈ segs, '/' ∉ e) :
    ∀ (kept : List (List Char)) (n : Nat) (plains : List (List Char)),
      kept = plains ++ List.replicate n ['.', '.'] → (rooted = true → n = 0) →
      (∀ e ∈ plains, PlainElement e) → CleanElements rooted (cleanElements rooted segs kept) := by
  induction segs with
  | nil =>
    intro kept n plains hk hn hp
    refine ⟨n, plains.reverse, ?_, hn, fun e he => hp e (List.mem_reverse.1 he)⟩
    simp [cleanElements, hk, List.reverse_append]
  | cons seg rest ih =>
    intro kept n plains hk hn hp
    have hrest : ∀ e ∈ rest, '/' ∉ e := fun e he => hs e (List.mem_cons_of_mem _ he)
    simp only [cleanElements]
    by_cases h1 : seg = [] ∨ seg = ['.']
    · simp only [h1, if_true]
      exact ih hrest kept n plains hk hn hp
    · simp only [h1, if_false]
      by_cases h2 : seg = ['.', '.']
      · simp only [h2, if_true]
        cases plains with
        | nil =>
          cases n with
          | zero =>
            simp only [List.replicate, List.append_nil] at hk
            subst hk
            simp only
            cases rooted with
            | true => exact ih hrest [] 0 [] rfl (fun _ => rfl) (by simp)
            | false =>
              exact ih hrest [['.', '.']] 1 [] rfl (fun h => Bool.noConfusion h) (by simp)
          | succ m =>
            simp only [List.replicate, List.nil_append] at hk
            subst hk
            simp only [if_true]
            refine ih hrest _ (m + 2) [] (by simp [List.replicate]) ?_ (by simp)
            intro hr
            exact absurd (hn hr) (Nat.succ_ne_zero m)
        | cons p ps =>
          simp only [List.cons_append] at hk
          subst hk
          have hpp : p ≠ ['.', '.'] := (hp p (List.mem_cons_self _ _)).2.2.1
          simp only [hpp, if_false]
          exact ih hrest _ n ps rfl hn (fun e he => hp e (List.mem_cons_of_mem _ he))
      · simp only [h2, if_false]
        have hplain : PlainElement seg :=
          ⟨fun h => h1 (Or.inl h), fun h => h1 (Or.inr h), h2, hs seg (List.mem_cons_self _ _)⟩
        refine ih hrest _ n (seg :: plains) (by rw [hk]; rfl) hn ?_
        intro e he
        rcases List.mem_cons.1 he with h | h
        · rw [h]
          exact hplain
        · exact hp e h

theorem cleanElements_plains (rooted : Bool) (plains : List (List Char))
    (hp : ∀ e ∈ plains, PlainElement e) :
    ∀ kept, cleanElements rooted plains kept = kept.reverse ++ plains := by
  induction plains with
  | nil =>
    intro kept
    simp [cleanElements]
  | cons p ps ih =>
    intro kept
    obtain ⟨h1, h2, h3, _⟩ := hp p (List.mem_cons_self _ _)
    simp only [cleanElements, h1, h2, h3, or_self, if_false]
    rw [ih (fun e he => hp e (List.mem_cons_of_mem _ he))]
    simp

theorem cleanElements_dots (rest : List (List Char)) (n : Nat) :
    ∀ m, cleanElements false (List.replicate n ['.', '.'] ++ rest) (List.replicate m ['.', '.']) =
      cleanElements false rest (List.replicate (m + n) ['.', '.']) := by
  induction n with
  | zero =>
    intro m
    rfl
  | succ k ih =>
    intro m
    have hstep : cleanElements false (['.', '.'] :: (List.replicate k ['.', '.'] ++ rest))
        (List.replicate m ['.', '.']) =
        cleanElements false (List.replicate k ['.', '.'] ++ rest)
          (List.replicate (m + 1) ['.', '.']) := by
      cases m with
      | zero => simp [cleanElements, List.replicate]
      | succ j => simp [cleanElements, List.replicate]
    have hrep : List.replicate (k + 1) ['.', '.'] ++ rest =
        ['.', '.'] :: (List.replicate k ['.', '.'] ++ rest) := rfl
    rw [hrep, hstep, ih (m + 1)]
    congr 2
    omega

theorem cleanElements_idem (rooted : Bool) (els : List (List Char))
    (h : CleanElements rooted els) : cleanElements rooted els [] = els := by
  obtain ⟨n, plains, hels, hn, hp⟩ := h
  subst hels
  cases rooted with
  | true =>
    rw [hn rfl]
    simpa using cleanElements_plains true plains hp []
  | false =>
    have := cleanElements_dots plains n 0
    simp only [List.replicate, Nat.zero_add] at this
    rw [this, cleanElements_plains false plains hp]
    simp

theorem not_mem_of_cleanElements (rooted : Bool) (els : List (List Char))
    (h : CleanElements rooted els) : ∀ e ∈ els, '/' ∉ e ∧ e ≠ [] := by
  obtain ⟨n, plains, hels, _, hp⟩ := h
  subst hels
  intro e he
  rcases List.mem_append.1 he with h1 | h1
  · rw [List.eq_of_mem_replicate h1]
    exact ⟨by decide, by decide⟩
  · exact ⟨(hp e h1).2.2.2, (hp e h1).1⟩

theorem cleanElements_snoc (rooted : Bool) (els : List (List Char)) (x : List Char)
    (h : CleanElements rooted els) (hx : PlainElement x) : CleanElements rooted (els ++ [x]) := by
  obtain ⟨n, plains, hels, hn, hp⟩ := h
  refine ⟨n, plains ++ [x], by rw [hels, List.append_assoc], hn, ?_⟩
  intro e he
  rcases List.mem_append.1 he with h1 | h1
  · exact hp e h1
  · rw [List.mem_singleton.1 h1]
    exact hx

theorem filepathClean_eq (path : String) :
    filepathClean path = String.mk (renderPath (isRooted path.data)
      (cleanElements (isRooted path.data) (splitSlash path.data) [])) := by
  unfold filepathClean renderPath
  simp only
  split
  · rfl
  · split <;> rfl

theorem filepathClean_clean (path : String) :
    CleanElements (isRooted path.data)
      (cleanElements (isRooted path.data) (splitSlash path.data) []) :=
  cleanElements_clean _ _ (not_mem_of_mem_splitSlash path.data) [] 0 [] rfl (fun _ => rfl)
    (by simp)

theorem isRooted_append (a b : List Char) (h : a ≠ []) : isRooted (a ++ b) = isRooted a := by
  cases a with
  | nil => exact absurd rfl h
  | cons c cs => rfl

theorem joinSlash_ne_nil (rooted : Bool) (els : List (List Char)) (h : CleanElements rooted els)
    (hne : els ≠ []) : joinSlash els ≠ [] ∧ isRooted (joinSlash els) = false := by
  cases els with
  | nil => exact absurd rfl hne
  | cons e rest =>
    obtain ⟨hslash, hnil⟩ := not_mem_of_cleanElements rooted _ h e (List.mem_cons_self _ _)
    cases e with
    | nil => exact absurd rfl hnil
    | cons c cs =>
      have hc : c ≠ '/' := fun hc => hslash (by rw [hc]; exact List.mem_cons_self _ _)
      cases rest with
      | nil => exact ⟨by simp [joinSlash], by simp [joinSlash, isRooted, hc]⟩
      | cons e' rest' => exact ⟨by simp [joinSlash], by simp [joinSlash, isRooted, hc]⟩

theorem renderPath_clean (rooted : Bool) (els : List (List Char)) (h : CleanElements rooted els)
    (hne : els ≠ []) :
    renderPath rooted els ≠ [] ∧ isRooted (renderPath rooted els) = rooted := by
  obtain ⟨hj, hr⟩ := joinSlash_ne_nil rooted els h hne
  cases rooted with
  | true => exact ⟨by simp [renderPath], by simp [renderPath, isRooted]⟩
  | false => exact ⟨by simpa [renderPath, hne] using hj, by simpa [renderPath, hne] using hr⟩

theorem renderPath_snoc (rooted : Bool) (els : List (List Char)) (x : List Char)
    (hne : els ≠ []) : renderPath rooted (els ++ [x]) = renderPath rooted els ++ '/' :: x := by
  unfold renderPath
  cases rooted with
  | true => simp [joinSlash_append els x hne]
  | false => simp [joinSlash_append els x hne, hne]

theorem cleanElements_renderPath (rooted : Bool) (els : List (List Char))
    (h : CleanElements rooted els) (hne : els ≠ []) :
    cleanElements rooted (splitSlash (renderPath rooted els)) [] = els := by
  have hsplit : splitSlash (joinSlash els) = els :=
    splitSlash_joinSlash els hne (fun e he => (not_mem_of_cleanElements rooted els h e he).1)
  cases rooted with
  | true =>
    simp only [renderPath, if_true, splitSlash, hsplit]
    simp only [cleanElements, true_or, if_true]
    exact cleanElements_idem true els h
  | false =>
    simp only [renderPath, hne, if_false, hsplit, Bool.false_eq_true]
    exact cleanElements_idem false els h

theorem filepathClean_renderPath (rooted : Bool) (els : List (List Char))
    (h : CleanElements rooted els) (hne : els ≠ []) :
    filepathClean (String.mk (renderPath rooted els)) = String.mk (renderPath rooted els) := by
  rw [filepathClean_eq]
  simp only [(renderPath_clean rooted els h hne).2, cleanElements_renderPath rooted els h hne]

theorem string_append_mk (a b : List Char) : String.mk a ++ String.mk b = String.mk (a ++ b) :=
  rfl

theorem string_mk_ne_empty (a : List Char) (h : a ≠ []) : String.mk a ≠ "" := by
  intro he
  exact h (congrArg String.data he)

theorem filepathJoin_renderPath (rooted : Bool) (els : List (List Char)) (x : List Char)
    (h : CleanElements rooted els) (hne : els ≠ []) (hx : PlainElement x) :
    filepathJoin (String.mk (renderPath rooted els)) (String.mk x) =
      String.mk (renderPath rooted els ++ '/' :: x) := by
  have hS : String.mk (renderPath rooted els) ≠ "" :=
    string_mk_ne_empty _ (renderPath_clean rooted els h hne).1
  have happ : String.mk (renderPath rooted els) ++ "/" ++ String.mk x =
      String.mk (renderPath rooted (els ++ [x])) := by
    rw [renderPath_snoc rooted els x hne]
    show String.mk (renderPath rooted els ++ ['/'] ++ x) = _
    simp
  simp only [filepathJoin, hS, ne_eq, not_false_eq_true, if_true, happ]
  rw [filepathClean_renderPath rooted (els ++ [x]) (cleanElements_snoc rooted els x h hx) (by simp),
    renderPath_snoc rooted els x hne]

theorem dropWhile_append_stop {α : Type} (p : α → Bool) (l1 l2 : List α) (c : α)
    (h1 : ∀ a ∈ l1, p a = true) (hc : p c = false) :
    (l1 ++ c :: l2).dropWhile p = c :: l2 ∧ (l1 ++ c :: l2).takeWhile p = l1 := by
  induction l1 with
  | nil => simp [List.dropWhile, List.takeWhile, hc]
  | cons a rest ih =>
    have ha := h1 a (List.mem_cons_self _ _)
    have := ih (fun b hb => h1 b (List.mem_cons_of_mem _ hb))
    simp [List.dropWhile, List.takeWhile, ha, this.1, this.2]

theorem upToLastSlash_append (a x : List Char) (hx : '/' ∉ x) :
    upToLastSlash (a ++ '/' :: x) = a ++ ['/'] ∧ afterLastSlash (a ++ '/' :: x) = x := by
  have hrev : (a ++ '/' :: x).reverse = x.reverse ++ '/' :: a.reverse := by simp
  have hall : ∀ c ∈ x.reverse, decide (c ≠ '/') = true := by
    intro c hc
    have : c ≠ '/' := fun h => hx (by rw [← h]; exact List.mem_reverse.1 hc)
    simpa using this
  have := dropWhile_append_stop (fun c => decide (c ≠ '/')) x.reverse a.reverse '/' hall (by simp)
  unfold upToLastSlash afterLastSlash
  rw [hrev, this.1, this.2]
  simp

theorem filepathDir_renderPath (rooted : Bool) (els : List (List Char)) (x : List Char)
    (h : CleanElements rooted els) (hne : els ≠ []) (hx : '/' ∉ x) :
    filepathDir (String.mk (renderPath rooted els ++ '/' :: x)) =
      String.mk (renderPath rooted els) := by
  obtain ⟨hnil, hroot⟩ := renderPath_clean rooted els h hne
  unfold filepathDir
  simp only [(upToLastSlash_append _ x hx).1]
  rw [filepathClean_eq]
  simp only [isRooted_append _ _ hnil, hroot]
  have hsplit : splitSlash (renderPath rooted els ++ ['/']) =
      splitSlash (renderPath rooted els) ++ [[]] :=
    splitSlash_append _ [] (by simp)
  rw [hsplit, cleanElements_append_empty, cleanElements_renderPath rooted els h hne]

theorem dropTrailingSlashes_append (a x : List Char) (hx : '/' ∉ x) (hne : x ≠ []) :
    dropTrailingSlashes (a ++ '/' :: x) = a ++ '/' :: x := by
  unfold dropTrailingSlashes
  have hrev : (a ++ '/' :: x).reverse = x.reverse ++ '/' :: a.reverse := by simp
  cases hr : x.reverse with
  | nil => exact absurd (List.reverse_eq_nil_iff.1 hr) hne
  | cons c t =>
    have hc : c ≠ '/' := by
      intro h
      apply hx
      rw [← h]
      exact List.mem_reverse.1 (by rw [hr]; exact List.mem_cons_self _ _)
    have hback : c :: (t ++ '/' :: a.reverse) = (a ++ '/' :: x).reverse := by
      rw [hrev, hr]
      rfl
    rw [hrev, hr]
    simp only [List.cons_append, List.dropWhile, hc, decide_False]
    show (c :: (t ++ '/' :: a.reverse)).reverse = _
    rw [hback, List.reverse_reverse]

theorem filepathBase_append (a x : List Char) (hx : '/' ∉ x) (hne : x ≠ []) :
    filepathBase (String.mk (a ++ '/' :: x)) = String.mk x := by
  have hS : String.mk (a ++ '/' :: x) ≠ "" := string_mk_ne_empty _ (by simp)
  simp only [filepathBase, hS, if_false, dropTrailingSlashes_append a x hx hne,
    (upToLastSlash_append a x hx).2, hne]

/-! ## The store directory and the files in it -/

theorem plainElement_extension (stem : List Char) (h : '/' ∉ stem) :
    PlainElement (stem ++ authConfigExtension.data) := by
  have hlen : 11 ≤ (stem ++ authConfigExtension.data).length := by
    rw [List.length_append]
    have : authConfigExtension.data.length = 11 := by decide
    omega
  refine ⟨?_, ?_, ?_, ?_⟩
  · intro he
    rw [he] at hlen
    simp at hlen
  · intro he
    rw [he] at hlen
    simp at hlen
  · intro he
    rw [he] at hlen
    simp at hlen
  · intro hm
    rcases List.mem_append.1 hm with h1 | h1
    · exact h h1
    · revert h1
      decide

theorem plainElement_pattern : PlainElement ("*" ++ authConfigExtension).data :=
  plainElement_extension ['*'] (by decide)

theorem storeLocation_clean (configDir : String) :
    ∃ rooted els, CleanElements rooted els ∧ els ≠ [] ∧
      filepathJoin configDir storeDirectory = String.mk (renderPath rooted els) ∧
      2 ≤ (renderPath rooted els).length := by
  have hi : PlainElement "intrinsic".data := by
    unfold PlainElement
    decide
  have hp : PlainElement "projects".data := by
    unfold PlainElement
    decide
  by_cases hc : configDir = ""
  · subst hc
    refine ⟨false, ["intrinsic".data, "projects".data], ⟨0, _, rfl, fun _ => rfl, ?_⟩, by simp,
      by decide, by decide⟩
    intro e he
    rcases List.mem_cons.1 he with h | h
    · rw [h]
      exact hi
    · rw [List.mem_singleton.1 h]
      exact hp
  · have hdata : configDir.data ≠ [] := fun h => hc (String.ext h)
    have hjoin : filepathJoin configDir storeDirectory =
        filepathClean (String.mk ((configDir.data ++ '/' :: "intrinsic".data) ++
          '/' :: "projects".data)) := by
      simp only [filepathJoin, hc, ne_eq, not_false_eq_true, if_true]
      congr 1
      apply String.ext
      simp [storeDirectory, String.data_append]
    have hclean := filepathClean_clean configDir
    refine ⟨isRooted configDir.data,
      cleanElements (isRooted configDir.data) (splitSlash configDir.data) [] ++
        ["intrinsic".data] ++ ["projects".data],
      cleanElements_snoc _ _ _ (cleanElements_snoc _ _ _ hclean hi) hp, by simp, ?_, ?_⟩
    · rw [hjoin, filepathClean_eq]
      simp only [List.append_assoc, isRooted_append _ _ hdata]
      rw [← List.append_assoc, splitSlash_append _ _ hp.2.2.2, splitSlash_append _ _ hi.2.2.2,
        cleanElements_append_plain _ _ hp.1 hp.2.1 hp.2.2.1,
        cleanElements_append_plain _ _ hi.1 hi.2.1 hi.2.2.1]
      simp
    · rw [renderPath_snoc _ _ _ (by simp)]
      simp only [List.length_append, List.length_cons]
      have : "projects".data.length = 8 := by decide
      omega

theorem lookupEntry_ne_none_of_mem {α : Type} (e : String × α) (l : List (String × α))
    (h : e ∈ l) : ∃ v, lookupEntry e.1 l = some v := by
  induction l with
  | nil => simp at h
  | cons e' rest ih =>
    obtain ⟨k', v'⟩ := e'
    by_cases hk : e.1 = k'
    · exact ⟨v', by simp [lookupEntry, hk]⟩
    · rcases List.mem_cons.1 h with h1 | h1
      · rw [h1] at hk
        exact absurd rfl hk
      · obtain ⟨v, hv⟩ := ih h1
        exact ⟨v, by simp [lookupEntry, hk, hv]⟩

theorem mem_readdirnames (w : World) (dir n : List Char) :
    n ∈ readdirnames w dir ↔
      ∃ k node, w.nodes.get? k = some node ∧ entryName dir k.data = some n := by
  unfold readdirnames
  rw [List.mem_filterMap]
  constructor
  · rintro ⟨e, he, hn⟩
    obtain ⟨v, hv⟩ := lookupEntry_ne_none_of_mem e _ (mem_sortedEntries w.nodes e he)
    exact ⟨e.1, v, hv, hn⟩
  · rintro ⟨k, node, hk, hn⟩
    have hl : lookupEntry k w.nodes.sortedEntries = some node := by
      rw [lookupEntry_sortedEntries]
      exact hk
    exact ⟨(k, node), mem_of_lookupEntry k node _ hl, hn⟩

theorem entryName_eq_some (dir path n : List Char) (h1 : dir ≠ ['/']) (h2 : dir ≠ ['.']) :
    entryName dir path = some n ↔
      path = dir ++ '/' :: n ∧ n ≠ [] ∧ '/' ∉ n ∧ n ≠ ['.'] ∧ n ≠ ['.', '.'] := by
  unfold entryName
  simp only [h1, h2, if_false]
  constructor
  · intro h
    split at h
    · rename_i hpre
      obtain ⟨t, ht⟩ := List.isPrefixOf_iff_prefix.1 hpre
      subst ht
      simp only [List.drop_left] at h
      split at h
      · exact Option.noConfusion h
      · rename_i hn
        have hnt := Option.some.inj h
        subst hnt
        refine ⟨by simp, ?_, ?_, ?_, ?_⟩
        · exact fun h => hn (Or.inl h)
        · exact fun h => hn (Or.inr (Or.inl h))
        · exact fun h => hn (Or.inr (Or.inr (Or.inl h)))
        · exact fun h => hn (Or.inr (Or.inr (Or.inr h)))
    · exact Option.noConfusion h
  · rintro ⟨hp, hn1, hn2, hn3, hn4⟩
    subst hp
    have hpre : (dir ++ ['/']).isPrefixOf (dir ++ '/' :: n) = true :=
      List.isPrefixOf_iff_prefix.2 ⟨n, by simp⟩
    have hdrop : List.drop (dir ++ ['/']).length (dir ++ '/' :: n) = n := by
      have : dir ++ '/' :: n = (dir ++ ['/']) ++ n := by simp
      rw [this, List.drop_left]
    simp only [hpre, if_true, hdrop]
    simp [hn1, hn2, hn3, hn4]

theorem matchStar_iff (literal name : List Char) :
    matchStar literal name = true ↔ ∃ stem, name = stem ++ literal ∧ '/' ∉ stem := by
  unfold matchStar
  constructor
  · intro h
    simp only [Bool.and_eq_true, Bool.not_eq_true', decide_eq_false_iff_not] at h
    obtain ⟨hs, hm⟩ := h
    obtain ⟨stem, hstem⟩ := List.isSuffixOf_iff_suffix.1 hs
    subst hstem
    refine ⟨stem, rfl, ?_⟩
    simpa using hm
  · rintro ⟨stem, hn, hm⟩
    subst hn
    have hs : literal.isSuffixOf (stem ++ literal) = true :=
      List.isSuffixOf_iff_suffix.2 ⟨stem, rfl⟩
    simp [hs, hm]

theorem stringsTrimSuffix_append (stem : List Char) (suffix : String) :
    stringsTrimSuffix (String.mk (stem ++ suffix.data)) suffix = String.mk stem := by
  unfold stringsTrimSuffix
  have hs : suffix.data.isSuffixOf (stem ++ suffix.data) = true :=
    List.isSuffixOf_iff_suffix.2 ⟨stem, rfl⟩
  simp [hs]


theorem hasMeta_append (a b : List Char) : hasMeta (a ++ b) = (hasMeta a || hasMeta b) := by
  unfold hasMeta
  rw [List.any_append]

/-! ## Patterns without magic characters -/

theorem not_meta_of_hasMeta (c : Char) (cs : List Char) (h : hasMeta (c :: cs) = false) :
    c ≠ '*' ∧ c ≠ '?' ∧ c ≠ '[' ∧ c ≠ backslash ∧ hasMeta cs = false := by
  unfold hasMeta at h
  simp only [List.any_cons, Bool.or_eq_false_iff, decide_eq_false_iff_not] at h
  exact ⟨h.1.1.1.1, h.1.1.1.2, h.1.1.2, h.1.2, h.2⟩

/-- A chunk without magic characters runs up to the next star. -/
theorem scanChunkBody_literal (lit more : List Char) (h : hasMeta lit = false)
    (hmore : more = [] ∨ ∃ tail, more = '*' :: tail) :
    scanChunkBody false (lit ++ more) = (lit, more) := by
  induction lit with
  | nil =>
    rcases hmore with hm | ⟨tail, hm⟩
    · rw [hm]
      rfl
    · rw [hm]
      have hb : ('*' : Char) ≠ backslash := by decide
      have hl : ('*' : Char) ≠ '[' := by decide
      have hr : ('*' : Char) ≠ ']' := by decide
      show scanChunkBody false ('*' :: tail) = _
      unfold scanChunkBody
      simp only [hb, hl, hr, if_false, and_self, if_true]
  | cons c cs ih =>
    obtain ⟨h1, _, h3, h4, hcs⟩ := not_meta_of_hasMeta c cs h
    have hrec := ih hcs
    show scanChunkBody false (c :: (cs ++ more)) = _
    unfold scanChunkBody
    simp only [h4, h3, h1, if_false, false_and, hrec]
    split <;> rfl

theorem matchChunkFuel_literal (lit : List Char) :
    ∀ (fuel : Nat) (failed : Bool) (s : List Char), hasMeta lit = false → lit.length < fuel →
      matchChunkFuel fuel failed lit s =
        Except.ok (if failed then none
          else if lit.isPrefixOf s then some (s.drop lit.length) else none) := by
  induction lit with
  | nil =>
    intro fuel failed s _ hfuel
    cases fuel with
    | zero => exact absurd hfuel (Nat.not_lt_zero _)
    | succ f => cases failed <;> simp [matchChunkFuel]
  | cons c cs ih =>
    intro fuel failed s h hfuel
    obtain ⟨_, h2, h3, h4, hcs⟩ := not_meta_of_hasMeta c cs h
    cases fuel with
    | zero => exact absurd hfuel (Nat.not_lt_zero _)
    | succ f =>
      have hf : cs.length < f := by
        simp only [List.length_cons] at hfuel
        omega
      cases failed with
      | true =>
        simp only [matchChunkFuel, h3, h2, h4, if_false, Bool.true_or, if_true, ih f true s hcs hf]
      | false =>
        cases s with
        | nil =>
          simp only [matchChunkFuel, h3, h2, h4, if_false, Bool.false_or, decide_True, if_true,
            ih f true [] hcs hf]
          simp
        | cons d ds =>
          simp only [matchChunkFuel, h3, h2, h4, if_false, Bool.false_or, List.headD_cons,
            List.tail_cons, ih f _ ds hcs hf]
          by_cases hcd : c = d
          · subst hcd
            simp
          · simp [hcd]

theorem matchChunk_literal (lit s : List Char) (h : hasMeta lit = false) :
    matchChunk lit s =
      Except.ok (if lit.isPrefixOf s then some (s.drop lit.length) else none) := by
  unfold matchChunk
  rw [matchChunkFuel_literal lit _ false s h (Nat.lt_succ_self _)]
  rfl


theorem isPrefixOf_self (lit : List Char) : lit.isPrefixOf lit = true :=
  List.isPrefixOf_iff_prefix.2 (List.prefix_refl lit)

theorem isPrefixOf_drop_nil (lit s : List Char) (h : lit.isPrefixOf s = true)
    (hd : s.drop lit.length = []) : s = lit := by
  obtain ⟨t, ht⟩ := List.isPrefixOf_iff_prefix.1 h
  subst ht
  simp only [List.drop_left] at hd
  rw [hd, List.append_nil]

/-- After a star, a last chunk without magic characters is found where the
name ends with it, the star standing for one character at least, none of them
a slash. -/
theorem starLoop_literal (lit : List Char) (h : hasMeta lit = false) (name : List Char) :
    (starLoop lit true name = Except.ok (some []) ∧
      ∃ stem, stem ≠ [] ∧ name = stem ++ lit ∧ '/' ∉ stem) ∨
    (starLoop lit true name = Except.ok none ∧
      ¬ ∃ stem, stem ≠ [] ∧ name = stem ++ lit ∧ '/' ∉ stem) := by
  induction name with
  | nil =>
    refine Or.inr ⟨rfl, ?_⟩
    rintro ⟨stem, hne, heq, _⟩
    cases stem with
    | nil => exact hne rfl
    | cons _ _ => simp at heq
  | cons c rest ih =>
    by_cases hc : c = '/'
    · refine Or.inr ⟨by simp [starLoop, hc], ?_⟩
      rintro ⟨stem, hne, heq, hslash⟩
      cases stem with
      | nil => exact hne rfl
      | cons d ds =>
        have hd : c = d := (List.cons.inj heq).1
        exact hslash (by rw [← hd, hc]; exact List.mem_cons_self _ _)
    · have hlonger : (∃ stem, stem ≠ [] ∧ rest = stem ++ lit ∧ '/' ∉ stem) →
          ∃ stem, stem ≠ [] ∧ c :: rest = stem ++ lit ∧ '/' ∉ stem := by
        rintro ⟨stem, _, heq, hslash⟩
        refine ⟨c :: stem, by simp, by rw [heq]; rfl, ?_⟩
        intro hm
        rcases List.mem_cons.1 hm with h1 | h1
        · exact hc h1.symm
        · exact hslash h1
      have hshorter : (∃ stem, stem ≠ [] ∧ c :: rest = stem ++ lit ∧ '/' ∉ stem) →
          rest = lit ∨ ∃ stem, stem ≠ [] ∧ rest = stem ++ lit ∧ '/' ∉ stem := by
        rintro ⟨stem, hne, heq, hslash⟩
        cases stem with
        | nil => exact absurd rfl hne
        | cons d ds =>
          have hrest : rest = ds ++ lit := (List.cons.inj heq).2
          cases ds with
          | nil => exact Or.inl hrest
          | cons e es =>
            exact Or.inr ⟨e :: es, by simp, hrest,
              fun hm => hslash (List.mem_cons_of_mem _ hm)⟩
      have hcontinue : (starLoop lit true rest = Except.ok (some []) ∧
            ∃ stem, stem ≠ [] ∧ c :: rest = stem ++ lit ∧ '/' ∉ stem) ∨
          (starLoop lit true rest = Except.ok none ∧ rest ≠ lit ∧
            ¬ ∃ stem, stem ≠ [] ∧ c :: rest = stem ++ lit ∧ '/' ∉ stem) ∨
          rest = lit := by
        by_cases hrl : rest = lit
        · exact Or.inr (Or.inr hrl)
        · rcases ih with ⟨h1, h2⟩ | ⟨h1, h2⟩
          · exact Or.inl ⟨h1, hlonger h2⟩
          · refine Or.inr (Or.inl ⟨h1, hrl, ?_⟩)
            intro hex
            rcases hshorter hex with h3 | h3
            · exact hrl h3
            · exact h2 h3
      have hstep : starLoop lit true (c :: rest) =
          match matchChunk lit rest with
          | Except.error e => Except.error e
          | Except.ok none => starLoop lit true rest
          | Except.ok (some t) =>
            if true = true ∧ t ≠ [] then starLoop lit true rest else Except.ok (some t) := by
        simp only [starLoop, hc, if_false]
      rw [hstep, matchChunk_literal lit rest h]
      cases hpre : lit.isPrefixOf rest with
      | false =>
        simp only [Bool.false_eq_true, if_false]
        rcases hcontinue with h1 | ⟨h1, _, h2⟩ | h1
        · exact Or.inl h1
        · exact Or.inr ⟨h1, h2⟩
        · rw [h1, isPrefixOf_self] at hpre
          exact Bool.noConfusion hpre
      | true =>
        simp only [if_true]
        by_cases hd : rest.drop lit.length = []
        · have hrl := isPrefixOf_drop_nil lit rest hpre hd
          refine Or.inl ⟨?_, [c], by simp, by rw [hrl]; rfl, ?_⟩
          · rw [hd]
            simp
          · simpa using fun h => hc h.symm
        · simp only [true_and, ne_eq, hd, not_false_eq_true, if_true]
          rcases hcontinue with h1 | ⟨h1, _, h2⟩ | h1
          · exact Or.inl h1
          · exact Or.inr ⟨h1, h2⟩
          · rw [h1] at hd
            simp at hd

theorem dropWhile_star_literal (lit : List Char) (h : hasMeta lit = false) :
    lit.dropWhile (fun c => decide (c = '*')) = lit := by
  cases lit with
  | nil => rfl
  | cons c cs =>
    have hc := (not_meta_of_hasMeta c cs h).1
    simp [List.dropWhile, hc]

theorem scanChunk_star_literal (lit : List Char) (h : hasMeta lit = false) :
    scanChunk ('*' :: lit) = (true, lit, []) := by
  have hbody := scanChunkBody_literal lit [] h (Or.inl rfl)
  rw [List.append_nil] at hbody
  simp only [scanChunk, List.dropWhile, decide_True, dropWhile_star_literal lit h, hbody]

/-- The pattern made of a star and a text without magic characters matches the
names that end with the text after a part without slash. -/
theorem filepathMatch_star_literal (lit name : List Char) (h : hasMeta lit = false) :
    filepathMatch ('*' :: lit) name = Except.ok (matchStar lit name) := by
  have hscan := scanChunk_star_literal lit h
  have hiff := matchStar_iff lit name
  unfold filepathMatch
  simp only [List.length_cons, matchFuel, hscan, true_and]
  by_cases hlit : lit = []
  · subst hlit
    simp [matchStar]
  · simp only [hlit, if_false, matchChunk_literal lit name h]
    have hend : matchFuel (lit.length + 1) [] [] = Except.ok true := by
      simp [matchFuel]
    by_cases hexact : name = lit
    · have hm : matchStar lit name = true := hiff.2 ⟨[], by simp [hexact], by simp⟩
      subst hexact
      simp [hm]
    · have hdirect : (match (if lit.isPrefixOf name = true then some (name.drop lit.length)
            else none) with
          | some t => if t = [] ∨ ([] : List Char) ≠ [] then some t else none
          | none => none) = none := by
        cases hpre : lit.isPrefixOf name with
        | false => rfl
        | true =>
          have hd : name.drop lit.length ≠ [] :=
            fun hd => hexact (isPrefixOf_drop_nil lit name hpre hd)
          simp [hd]
      simp only [hdirect, decide_True, if_true]
      rcases starLoop_literal lit h name with ⟨h1, stem, _, heq, hslash⟩ | ⟨h1, h2⟩
      · have hm : matchStar lit name = true := hiff.2 ⟨stem, heq, hslash⟩
        simp [h1, hm]
      · have hm : matchStar lit name = false := by
          cases hb : matchStar lit name with
          | false => rfl
          | true =>
            obtain ⟨stem, heq, hslash⟩ := hiff.1 hb
            cases stem with
            | nil => exact absurd (by simpa using heq) hexact
            | cons d ds => exact absurd ⟨d :: ds, by simp, heq, hslash⟩ h2
        simp [h1, hm, wellFormed]

theorem globNames_star_literal (dir lit : List Char) (h : hasMeta lit = false) :
    ∀ (names : List (List Char)) (found : List String),
      globNames dir ('*' :: lit) names found =
        Except.ok (found ++ (names.filter (matchStar lit)).map
          (fun n => filepathJoin (String.mk dir) (String.mk n))) := by
  intro names
  induction names with
  | nil =>
    intro found
    simp [globNames]
  | cons n rest ih =>
    intro found
    simp only [globNames, filepathMatch_star_literal lit n h]
    cases hm : matchStar lit n with
    | true => simp [ih, hm, List.filter]
    | false => simp [ih, hm, List.filter]

/-- What `glob` finds for the pattern made of a star and a text without magic
characters. -/
theorem glob_star_literal (w : World) (dir lit : List Char) (h : hasMeta lit = false) :
    glob w dir ('*' :: lit) [] = Except.ok (globDir w dir lit) := by
  unfold glob globDir
  cases osStat w (String.mk dir) with
  | error e => rfl
  | ok info =>
    simp only [globNames_star_literal dir lit h, List.nil_append]
    split <;> rfl


/-- A pattern made of a text without magic characters, a star and a text
without magic characters is well formed: against the empty name `Match`
gives a result and no error. -/
theorem filepathMatch_literal_star_literal (lit ext : List Char) (h : hasMeta lit = false)
    (hne : lit ≠ []) (hext : hasMeta ext = false) :
    filepathMatch (lit ++ '*' :: ext) [] = Except.ok false := by
  cases lit with
  | nil => exact absurd rfl hne
  | cons c cs =>
    have hc := (not_meta_of_hasMeta c cs h).1
    have hbody := scanChunkBody_literal (c :: cs) ('*' :: ext) h (Or.inr ⟨ext, rfl⟩)
    have hscan : scanChunk (c :: (cs ++ '*' :: ext)) = (false, c :: cs, '*' :: ext) := by
      have hdrop : (c :: (cs ++ '*' :: ext)).dropWhile (fun c => decide (c = '*')) =
          c :: (cs ++ '*' :: ext) := by
        simp [List.dropWhile, hc]
      simp only [scanChunk, hdrop]
      rw [show c :: (cs ++ '*' :: ext) = (c :: cs) ++ '*' :: ext from rfl, hbody]
      simp [hc]
    have hchunk : matchChunk (c :: cs) [] = Except.ok none := by
      rw [matchChunk_literal (c :: cs) [] h]
      rfl
    have hlast := matchChunk_literal ext [] hext
    have hwell : wellFormed (ext.length + 1 + 1) ('*' :: ext) = true := by
      simp only [wellFormed, scanChunk_star_literal ext hext, hlast]
    show matchFuel _ (c :: (cs ++ '*' :: ext)) [] = _
    simp only [List.length_cons, matchFuel, hscan, Bool.false_eq_true, false_and, if_false,
      hchunk, hwell, if_true]

/-- What `filepath.Glob` finds for the pattern of the files of a store, when
the store directory has no magic characters. -/
theorem filepathGlob_store (w : World) (rooted : Bool) (els : List (List Char))
    (h : CleanElements rooted els) (hne : els ≠ []) (hlen : 2 ≤ (renderPath rooted els).length)
    (hmeta : hasMeta (renderPath rooted els) = false) :
    filepathGlob w (filepathJoin (String.mk (renderPath rooted els)) ("*" ++ authConfigExtension)) =
      Except.ok (globDir w (renderPath rooted els) authConfigExtension.data) := by
  have hjoin := filepathJoin_renderPath rooted els _ h hne plainElement_pattern
  have hpat : ("*" ++ authConfigExtension).data = '*' :: authConfigExtension.data := rfl
  have hslash : '/' ∉ '*' :: authConfigExtension.data := by decide
  rw [show String.mk ("*" ++ authConfigExtension).data = "*" ++ authConfigExtension from rfl] at hjoin
  rw [hjoin, hpat]
  have hm : hasMeta (renderPath rooted els ++ '/' :: '*' :: authConfigExtension.data) = true := by
    rw [hasMeta_append]
    simp [hasMeta]
  obtain ⟨hup, hafter⟩ := upToLastSlash_append (renderPath rooted els) _ hslash
  have hclean : cleanGlobPath (renderPath rooted els ++ ['/']) = renderPath rooted els := by
    unfold cleanGlobPath
    have h1 : renderPath rooted els ++ ['/'] ≠ [] := by simp
    have h2 : renderPath rooted els ++ ['/'] ≠ ['/'] := by
      intro he
      have := congrArg List.length he
      simp only [List.length_append, List.length_cons, List.length_nil] at this
      omega
    simp [h1, h2]
  have hext : hasMeta authConfigExtension.data = false := by decide
  have hlit : hasMeta (renderPath rooted els ++ ['/']) = false := by
    rw [hasMeta_append, hmeta]
    decide
  have hwell : filepathMatch (renderPath rooted els ++ '/' :: '*' :: authConfigExtension.data) [] =
      Except.ok false := by
    have := filepathMatch_literal_star_literal (renderPath rooted els ++ ['/'])
      authConfigExtension.data hlit (by simp) hext
    rwa [List.append_assoc] at this
  have hdepth : ¬ (0 : Nat) = 10000 := by decide
  unfold filepathGlob
  simp only [globWithLimit, hdepth, if_false, hwell, hm, Bool.true_eq_false, hup, hclean, hafter,
    hmeta, if_true, glob_star_literal w _ _ hext]

theorem mem_globDir (w : World) (rooted : Bool) (els : List (List Char))
    (h : CleanElements rooted els) (hne : els ≠ []) (hlen : 2 ≤ (renderPath rooted els).length)
    (m : String) :
    m ∈ globDir w (renderPath rooted els) authConfigExtension.data ↔
      (∃ mode, w.nodes.get? (String.mk (renderPath rooted els)) = some (Node.dir mode)) ∧
      ∃ stem node, '/' ∉ stem ∧
        m = String.mk (renderPath rooted els ++ '/' :: (stem ++ authConfigExtension.data)) ∧
        w.nodes.get? m = some node := by
  have h1 : renderPath rooted els ≠ ['/'] := by
    intro he
    rw [he] at hlen
    simp at hlen
  have h2 : renderPath rooted els ≠ ['.'] := by
    intro he
    rw [he] at hlen
    simp at hlen
  unfold globDir osStat
  cases hnode : w.nodes.get? (String.mk (renderPath rooted els)) with
  | none => simp
  | some node =>
    cases node with
    | file mode content => simp
    | dir mode =>
      simp only [if_true, List.mem_map, List.mem_filter, mem_readdirnames, Option.some.injEq,
        Node.dir.injEq, exists_eq', true_and]
      constructor
      · rintro ⟨n, ⟨⟨k, node, hk, hentry⟩, hmatch⟩, hm⟩
        obtain ⟨hkd, hn1, hn2, hn3, hn4⟩ := (entryName_eq_some _ _ _ h1 h2).1 hentry
        obtain ⟨stem, hstem, hs⟩ := (matchStar_iff _ _).1 hmatch
        have hplain : PlainElement n := ⟨hn1, hn3, hn4, hn2⟩
        have hj := filepathJoin_renderPath rooted els n h hne hplain
        have hkm : k = m := by
          rw [← hm, hj]
          exact String.ext hkd
        refine ⟨stem, node, hs, ?_, hkm ▸ hk⟩
        rw [← hm, hj, hstem]
      · rintro ⟨stem, node, hs, hm, hk⟩
        have hplain := plainElement_extension stem hs
        refine ⟨stem ++ authConfigExtension.data, ⟨⟨m, node, hk, ?_⟩, ?_⟩, ?_⟩
        · rw [entryName_eq_some _ _ _ h1 h2]
          exact ⟨by rw [hm], hplain.1, hplain.2.2.2, hplain.2.1, hplain.2.2.1⟩
        · exact (matchStar_iff _ _).2 ⟨stem, rfl, hs⟩
        · rw [filepathJoin_renderPath rooted els _ h hne hplain, hm]

/-- The names that `ListConfigurations` returns, when the store directory
resolves and has no magic characters: the names without slash whose file
exists in the store directory, this being a directory. -/
theorem listConfigurations_mem (s : Store) (w : World) (storeLocation : String)
    (hloc : s.getStoreLocation w = (storeLocation, none))
    (hmeta : hasMeta storeLocation.data = false) :
    ∃ names, s.ListConfigurations w = (Listing.returned names none, w) ∧
      ∀ x : String, x ∈ names ↔
        ('/' ∉ x.data ∧
          (∃ node, w.nodes.get? (filepathJoin storeLocation (x ++ authConfigExtension)) = some node) ∧
          ∃ mode, w.nodes.get? storeLocation = some (Node.dir mode)) := by
  have hS : storeLocation = filepathJoin (s.getConfigDir w).1 storeDirectory := by
    unfold Store.getStoreLocation at hloc
    exact ((Prod.mk.inj hloc).1).symm
  obtain ⟨rooted, els, hclean, hne, hrender, hlen⟩ := storeLocation_clean (s.getConfigDir w).1
  rw [← hS] at hrender
  subst hrender
  have hglob := filepathGlob_store w rooted els hclean hne hlen hmeta
  refine ⟨(globDir w (renderPath rooted els) authConfigExtension.data).map
    (fun m => stringsTrimSuffix (filepathBase m) authConfigExtension), ?_, ?_⟩
  · simp only [Store.ListConfigurations, hloc, hglob]
    split
    · rename_i hzero
      rw [List.length_eq_zero.1 hzero]
      rfl
    · rfl
  · intro x
    rw [List.mem_map]
    constructor
    · rintro ⟨m, hm, hx⟩
      obtain ⟨hdir, stem, node, hs, hmeq, hk⟩ := (mem_globDir w rooted els hclean hne hlen m).1 hm
      have hplain := plainElement_extension stem hs
      have hxs : x = String.mk stem := by
        rw [← hx, hmeq, filepathBase_append _ _ hplain.2.2.2 hplain.1, stringsTrimSuffix_append]
      subst hxs
      refine ⟨hs, ⟨node, ?_⟩, hdir⟩
      have hj := filepathJoin_renderPath rooted els _ hclean hne hplain
      rw [show String.mk (stem ++ authConfigExtension.data) = String.mk stem ++ authConfigExtension
        from rfl] at hj
      rw [hj, ← hmeq]
      exact hk
    · rintro ⟨hs, ⟨node, hk⟩, hdir⟩
      have hplain := plainElement_extension x.data hs
      have hj := filepathJoin_renderPath rooted els _ hclean hne hplain
      rw [show String.mk (x.data ++ authConfigExtension.data) = x ++ authConfigExtension
        from rfl] at hj
      refine ⟨filepathJoin (String.mk (renderPath rooted els)) (x ++ authConfigExtension), ?_, ?_⟩
      · rw [mem_globDir w rooted els hclean hne hlen]
        exact ⟨hdir, x.data, node, hs, hj, hk⟩
      · rw [hj, filepathBase_append _ _ hplain.2.2.2 hplain.1, stringsTrimSuffix_append]


/-! ## The path of the file of a project -/

theorem filepathClean_ne_empty (path : String) : filepathClean path ≠ "" := by
  rw [filepathClean_eq]
  apply string_mk_ne_empty
  by_cases hne : cleanElements (isRooted path.data) (splitSlash path.data) [] = []
  · rw [hne]
    cases isRooted path.data <;> simp [renderPath]
  · exact (renderPath_clean _ _ (filepathClean_clean path) hne).1

theorem filepathJoin_ne_empty (a b : String) (h : b ≠ "") : filepathJoin a b ≠ "" := by
  unfold filepathJoin
  split
  · exact filepathClean_ne_empty _
  · simp only [h, ne_eq, not_false_eq_true, if_true]
    exact filepathClean_ne_empty _

theorem last_element (t : List Char) :
    ∀ (front held : List Char), '/' ∉ held →
      ∃ before last, '/' ∉ last ∧
        front ++ '/' :: (held ++ t ++ authConfigExtension.data) =
          before ++ '/' :: (last ++ authConfigExtension.data) := by
  induction t with
  | nil =>
    intro front held hh
    exact ⟨front, held, hh, by simp⟩
  | cons c rest ih =>
    intro front held hh
    by_cases hc : c = '/'
    · obtain ⟨before, last, hl, heq⟩ := ih (front ++ '/' :: held) [] (by simp)
      refine ⟨before, last, hl, ?_⟩
      rw [← heq, hc]
      simp
    · have hh' : '/' ∉ held ++ [c] := by
        intro hm
        rcases List.mem_append.1 hm with h1 | h1
        · exact hh h1
        · exact hc (List.mem_singleton.1 h1).symm
      obtain ⟨before, last, hl, heq⟩ := ih front (held ++ [c]) hh'
      refine ⟨before, last, hl, ?_⟩
      rw [← heq]
      simp

/-- The path of the file of a project ends with the extension of the store. -/
theorem configurationFilename_suffix (storeDir name : String) (hS : storeDir ≠ "") :
    ∃ front, (filepathJoin storeDir (name ++ authConfigExtension)).data =
      front ++ authConfigExtension.data := by
  obtain ⟨before, last, hl, heq⟩ := last_element name.data storeDir.data [] (by simp)
  have hplain := plainElement_extension last hl
  have hjoin : filepathJoin storeDir (name ++ authConfigExtension) =
      filepathClean (String.mk (before ++ '/' :: (last ++ authConfigExtension.data))) := by
    simp only [filepathJoin, hS, ne_eq, not_false_eq_true, if_true]
    congr 1
    apply String.ext
    rw [← heq]
    simp [String.data_append]
  rw [hjoin, filepathClean_eq]
  simp only [splitSlash_append _ _ hplain.2.2.2,
    cleanElements_append_plain _ _ hplain.1 hplain.2.1 hplain.2.2.1]
  generalize cleanElements (isRooted (before ++ '/' :: (last ++ authConfigExtension.data)))
    (splitSlash before) [] = els
  generalize isRooted (before ++ '/' :: (last ++ authConfigExtension.data)) = rooted
  by_cases hne : els = []
  · subst hne
    cases rooted with
    | true => exact ⟨'/' :: last, by simp [renderPath, joinSlash]⟩
    | false => exact ⟨last, by simp [renderPath, joinSlash]⟩
  · rw [renderPath_snoc _ _ _ hne]
    exact ⟨renderPath rooted els ++ '/' :: last, by simp⟩

theorem endsWithDot_extension (front : List Char) :
    endsWithDot (front ++ authConfigExtension.data) = false := by
  unfold endsWithDot
  have h1 : front ++ authConfigExtension.data ≠ ['.'] := by
    intro he
    have := congrArg List.length he
    rw [List.length_append] at this
    have : authConfigExtension.data.length = 11 := by decide
    simp at *
    omega
  have h2 : ['/', '.'].isSuffixOf (front ++ authConfigExtension.data) = false := by
    cases hs : ['/', '.'].isSuffixOf (front ++ authConfigExtension.data) with
    | false => rfl
    | true =>
      obtain ⟨q, hq⟩ := List.isSuffixOf_iff_suffix.1 hs
      have hrev := congrArg List.reverse hq
      simp only [List.reverse_append] at hrev
      have hhead := congrArg List.head? hrev
      revert hhead
      simp [authConfigExtension]
  simp [h1, h2]

theorem storeLocation_ne_empty (s : Store) (w : World) : (s.getStoreLocation w).1 ≠ "" := by
  unfold Store.getStoreLocation
  exact filepathJoin_ne_empty _ _ (by decide)

theorem configurationFilename_proper (s : Store) (w : World) (name filename : String)
    (hfile : s.getConfigurationFilename w name = (filename, none)) :
    filename ≠ "" ∧ endsWithDot filename.data = false ∧ name ≠ "" ∧
      filename = filepathJoin (s.getStoreLocation w).1 (name ++ authConfigExtension) ∧
      (s.getStoreLocation w).2 = none := by
  unfold Store.getConfigurationFilename at hfile
  by_cases hname : name = ""
  · simp [hname] at hfile
  · simp only [hname, if_false] at hfile
    rcases hloc : s.getStoreLocation w with ⟨storeDir, err⟩
    rw [hloc] at hfile
    cases err with
    | some e => simp at hfile
    | none =>
      simp only [Prod.mk.injEq, and_true] at hfile
      have hS : storeDir ≠ "" := by
        have := storeLocation_ne_empty s w
        rw [hloc] at this
        exact this
      obtain ⟨front, hfront⟩ := configurationFilename_suffix storeDir name hS
      rw [hfile] at hfront
      refine ⟨?_, ?_, hname, hfile.symm, rfl⟩
      · intro he
        rw [he] at hfront
        have := congrArg List.length hfront
        rw [List.length_append] at this
        have h11 : authConfigExtension.data.length = 11 := by decide
        have h0 : ("" : String).data.length = 0 := rfl
        rw [h11, h0] at this
        omega
      · rw [hfront]
        exact endsWithDot_extension front


/-! ## `RemoveConfiguration` -/

theorem lookupEntry_filter_none {α : Type} (k : String) (q : String × α → Bool)
    (l : List (String × α)) (h : ∀ v, q (k, v) = false) : lookupEntry k (l.filter q) = none := by
  induction l with
  | nil => rfl
  | cons e rest ih =>
    obtain ⟨k', v'⟩ := e
    by_cases hq : q (k', v') = true
    · have hk : k ≠ k' := by
        intro hk
        rw [← hk, h v'] at hq
        exact Bool.noConfusion hq
      simp [List.filter, hq, lookupEntry, hk, ih]
    · simp [List.filter, hq, ih]

theorem lookupEntry_filter_keep {α : Type} (k : String) (q : String × α → Bool)
    (l : List (String × α)) (h : ∀ v, q (k, v) = true) :
    lookupEntry k (l.filter q) = lookupEntry k l := by
  induction l with
  | nil => rfl
  | cons e rest ih =>
    obtain ⟨k', v'⟩ := e
    by_cases hq : q (k', v') = true
    · by_cases hk : k = k'
      · simp [List.filter, hq, lookupEntry, hk]
      · simp [List.filter, hq, lookupEntry, hk, ih]
    · have hk : k ≠ k' := by
        intro hk
        rw [← hk, h v'] at hq
        exact hq rfl
      simp [List.filter, hq, lookupEntry, hk, ih]

/-- The directories above a path are shorter than the path. -/
theorem ancestorsFrom_length (rest : List Char) :
    ∀ (seen : List Char), ∀ above ∈ ancestorsFrom seen rest,
      above.length < seen.length + rest.length := by
  induction rest with
  | nil =>
    intro seen above h
    simp [ancestorsFrom] at h
  | cons c rest ih =>
    intro seen above h
    have hstep : ∀ a ∈ ancestorsFrom (c :: seen) rest,
        a.length < seen.length + (c :: rest).length := by
      intro a ha
      have := ih (c :: seen) a ha
      simp only [List.length_cons] at this ⊢
      omega
    unfold ancestorsFrom at h
    split at h
    · rename_i hc
      rcases List.mem_cons.1 h with h1 | h1
      · have hrest : 0 < rest.length := List.length_pos.2 hc.2
        rw [h1]
        split
        · rename_i hs
          simp only [hs, List.length_cons, List.length_nil]
          omega
        · simp only [List.length_reverse, List.length_cons]
          omega
      · exact hstep above h1
    · exact hstep above h

/-- What `os.RemoveAll` leaves alone: the configuration directory and the
umask, and every path other than the one removed that is not under it. -/
theorem osRemoveAll_frame (w : World) (path : String) :
    (osRemoveAll w path).2.userConfigDir = w.userConfigDir ∧
    (osRemoveAll w path).2.umask = w.umask ∧
    ∀ p : String, p ≠ path → isUnder path.data p.data = false →
      (osRemoveAll w path).2.nodes.get? p = w.nodes.get? p := by
  unfold osRemoveAll
  split
  · exact ⟨rfl, rfl, fun _ _ _ => rfl⟩
  · split
    · exact ⟨rfl, rfl, fun _ _ _ => rfl⟩
    · split
      · exact ⟨rfl, rfl, fun _ _ _ => rfl⟩
      · split
        · exact ⟨rfl, rfl, fun _ _ _ => rfl⟩
        · refine ⟨rfl, rfl, fun p hp _ => ?_⟩
          exact lookupEntry_filter_keep p _ _ (by simp [hp])
        · refine ⟨rfl, rfl, fun p hp hunder => ?_⟩
          exact lookupEntry_filter_keep p _ _ (by simp [hp, hunder])

theorem any_congr_of_mem {α : Type} (f g : α → Bool) :
    ∀ (l : List α), (∀ a ∈ l, f a = g a) → l.any f = l.any g := by
  intro l
  induction l with
  | nil => intro _; rfl
  | cons a rest ih =>
    intro h
    simp only [List.any_cons, h a (List.mem_cons_self _ _),
      ih (fun b hb => h b (List.mem_cons_of_mem _ hb))]

/-- A removal leaves the directories above the path as they are. -/
theorem osRemoveAll_underFile (w : World) (path : String) :
    underFile (osRemoveAll w path).2 path = underFile w path := by
  obtain ⟨_, _, hframe⟩ := osRemoveAll_frame w path
  unfold underFile
  apply any_congr_of_mem
  intro above habove
  have hlen : above.length < path.data.length := by
    have := ancestorsFrom_length path.data [] above habove
    simpa using this
  have hne : String.mk above ≠ path := by
    intro he
    rw [← he] at hlen
    exact Nat.lt_irrefl _ hlen
  have hunder : isUnder path.data (String.mk above).data = false := by
    unfold isUnder
    cases hpre : (if path.data = ['/'] then ['/'] else path.data ++ ['/']).isPrefixOf
        (String.mk above).data with
    | false => rfl
    | true =>
      have hle := (List.isPrefixOf_iff_prefix.1 hpre).length_le
      split at hle
      · rename_i hroot
        rw [hroot] at hlen
        simp only [List.length_cons, List.length_nil] at hlen hle
        omega
      · simp only [List.length_append, List.length_cons, List.length_nil] at hle
        omega
  rw [hframe (String.mk above) hne hunder]

theorem osRemoveAll_proper (w : World) (path : String) (hne : path ≠ "")
    (hdot : endsWithDot path.data = false) (hclear : underFile w path = false) :
    ∃ w', osRemoveAll w path = (none, w') ∧ w'.nodes.get? path = none ∧
      w'.userConfigDir = w.userConfigDir ∧ w'.umask = w.umask ∧
      (w.nodes.get? path = none → w' = w) := by
  unfold osRemoveAll
  simp only [hne, if_false, hdot, hclear, Bool.false_eq_true]
  cases hnode : w.nodes.get? path with
  | none => exact ⟨w, rfl, hnode, rfl, rfl, fun _ => rfl⟩
  | some node =>
    cases node with
    | file mode content =>
      refine ⟨_, rfl, ?_, rfl, rfl, fun h => Option.noConfusion h⟩
      exact lookupEntry_filter_none path _ _ (by simp)
    | dir mode =>
      refine ⟨_, rfl, ?_, rfl, rfl, fun h => Option.noConfusion h⟩
      exact lookupEntry_filter_none path _ _ (by simp)

theorem osRemoveAll_blocked (w : World) (path : String) (hne : path ≠ "")
    (hdot : endsWithDot path.data = false) (hblock : underFile w path = true) :
    osRemoveAll w path = (some OSError.notDir, w) := by
  unfold osRemoveAll
  simp only [hne, if_false, hdot, hblock, Bool.false_eq_true, if_true]

theorem removeConfiguration_ok (s : Store) (w : World) (name filename : String)
    (hfile : s.getConfigurationFilename w name = (filename, none))
    (hclear : underFile w filename = false) :
    ∃ w', s.RemoveConfiguration w name = (none, w') ∧ w'.nodes.get? filename = none ∧
      w'.userConfigDir = w.userConfigDir ∧ underFile w' filename = false ∧
      (w.nodes.get? filename = none → w' = w) := by
  obtain ⟨hne, hdot, _, _, _⟩ := configurationFilename_proper s w name filename hfile
  obtain ⟨w', hrm, hgone, hdir, _, hsame⟩ := osRemoveAll_proper w filename hne hdot hclear
  have hkept := osRemoveAll_underFile w filename
  rw [hrm, hclear] at hkept
  exact ⟨w', by simp only [Store.RemoveConfiguration, hfile, hrm], hgone, hdir, hkept, hsame⟩

/-- A removal that returns no error had a path to remove, with no regular file
above it, and leaves nothing at that path. -/
theorem removeConfiguration_success (s : Store) (w w' : World) (name : String)
    (h : s.RemoveConfiguration w name = (none, w')) :
    ∃ filename, s.getConfigurationFilename w name = (filename, none) ∧
      underFile w filename = false ∧ w'.nodes.get? filename = none ∧
      w'.userConfigDir = w.userConfigDir := by
  rcases hfile : s.getConfigurationFilename w name with ⟨filename, err⟩
  cases err with
  | some e => simp [Store.RemoveConfiguration, hfile] at h
  | none =>
    obtain ⟨hne, hdot, _, _, _⟩ := configurationFilename_proper s w name filename hfile
    cases hblock : underFile w filename with
    | true =>
      simp [Store.RemoveConfiguration, hfile, osRemoveAll_blocked w filename hne hdot hblock] at h
    | false =>
      obtain ⟨w1, hrm, hgone, hdir, _, _⟩ := removeConfiguration_ok s w name filename hfile hblock
      rw [h] at hrm
      have hw : w' = w1 := (Prod.mk.inj hrm).2
      subst hw
      exact ⟨filename, rfl, hblock, hgone, hdir⟩

/-- In a world where no regular file stands above the path of the file of a
name, with nothing at that path `RemoveConfiguration` returns no error and
leaves the world as it was; a first call returns no error and leaves nothing
at the path, and a second call in a row returns no error and changes nothing. -/
theorem removeConfiguration_idempotent (s : Store) (w : World) (name filename : String)
    (hfile : s.getConfigurationFilename w name = (filename, none))
    (hclear : underFile w filename = false) :
    (w.nodes.get? filename = none → s.RemoveConfiguration w name = (none, w)) ∧
    (s.RemoveConfiguration w name).1 = none ∧
    (s.RemoveConfiguration w name).2.nodes.get? filename = none ∧
    s.RemoveConfiguration (s.RemoveConfiguration w name).2 name =
      (none, (s.RemoveConfiguration w name).2) := by
  obtain ⟨w', hrm, hgone, hdir, hclear', hsame⟩ :=
    removeConfiguration_ok s w name filename hfile hclear
  have hfile' : s.getConfigurationFilename w' name = (filename, none) := by
    rw [getConfigurationFilename_congr s w w' name hdir]
    exact hfile
  obtain ⟨w'', hrm', _, _, _, hsame'⟩ := removeConfiguration_ok s w' name filename hfile' hclear'
  refine ⟨?_, by rw [hrm], by rw [hrm]; exact hgone, ?_⟩
  · intro hnone
    rw [hrm, hsame hnone]
  · rw [hrm]
    simp only
    rw [hrm', hsame' hgone]

/-- C19 fails on the code: a regular file named `intrinsic` stands in the
configuration directory.  The path of the file of "proj1" resolves and nothing
is at it, and `HasConfiguration` is false, yet `RemoveConfiguration` returns
the ENOTDIR error of `os.RemoveAll` and not nil, at a first call and at a
second call in a row. -/
theorem removeConfiguration_not_a_directory :
    NewStore.getConfigurationFilename blockedWorld "proj1" =
      ("/home/u/.config/intrinsic/projects/proj1.user-token", none) ∧
    blockedWorld.nodes.get? "/home/u/.config/intrinsic/projects/proj1.user-token" = none ∧
    blockedWorld.nodes.get? "/home/u/.config/intrinsic" =
      some (Node.file 0o644 FileContent.unparsable) ∧
    (NewStore.HasConfiguration blockedWorld "proj1").1 = false ∧
    NewStore.RemoveConfiguration blockedWorld "proj1" =
      (some (Error.os OSError.notDir), blockedWorld) ∧
    NewStore.RemoveConfiguration (NewStore.RemoveConfiguration blockedWorld "proj1").2 "proj1" =
      (some (Error.os OSError.notDir), blockedWorld) := by
  decide

/-- C20 fails where the store directory has a magic character of a pattern,
which `ListConfigurations` passes to `filepath.Glob` unescaped.  With the
configuration directory named `cfg*`, `RemoveConfiguration` of "proj1" returns
no error and `HasConfiguration` is false after it, yet `ListConfigurations`
still returns "proj1": the pattern also reaches the store of the directory
`cfg-old`.  With the configuration directory named `c[g` the pattern is
malformed and `ListConfigurations` panics. -/
theorem removeConfiguration_still_listed :
    (NewStore.ListConfigurations starWorld).1 = Listing.returned ["proj1", "proj1"] none ∧
    (NewStore.RemoveConfiguration starWorld "proj1").1 = none ∧
    (NewStore.RemoveConfiguration starWorld "proj1").2.nodes.get?
      "/home/u/cfg*/intrinsic/projects/proj1.user-token" = none ∧
    (NewStore.HasConfiguration (NewStore.RemoveConfiguration starWorld "proj1").2 "proj1").1 =
      false ∧
    (NewStore.ListConfigurations (NewStore.RemoveConfiguration starWorld "proj1").2).1 =
      Listing.returned ["proj1"] none ∧
    (NewStore.RemoveConfiguration bracketWorld "proj1").1 = none ∧
    (NewStore.ListConfigurations (NewStore.RemoveConfiguration bracketWorld "proj1").2).1 =
      Listing.panicked := by
  decide

/-- C20, amended: after a `RemoveConfiguration` of a name that returned no
error (the name is then not empty), nothing is at the path of the file of the
name: `HasConfiguration` is false and `GetConfiguration` returns an error and
no configuration; the store directory resolves, and when it has none of the
magic characters of a pattern `ListConfigurations` returns a list of names
without error and the name is not in it; with an empty name
`RemoveConfiguration` fails with InvalidProjectName and leaves the world as it
was. -/
theorem removeConfiguration_removes (s : Store) (w w' : World) (name : String)
    (h : s.RemoveConfiguration w name = (none, w')) :
    name ≠ "" ∧
    (∃ filename, s.getConfigurationFilename w' name = (filename, none) ∧
      w'.nodes.get? filename = none) ∧
    (s.HasConfiguration w' name).1 = false ∧
    (∃ err, (s.GetConfiguration w' name).1 = (none, some err)) ∧
    (∃ storeLocation, s.getStoreLocation w' = (storeLocation, none) ∧
      (hasMeta storeLocation.data = false →
        ∃ names, s.ListConfigurations w' = (Listing.returned names none, w') ∧ name ∉ names)) ∧
    (∀ v, s.RemoveConfiguration v "" =
      (some (Error.wrap "cannot remove configuration" Error.nameRequired), v)) := by
  obtain ⟨filename, hfile, _, hgone, hdir⟩ := removeConfiguration_success s w w' name h
  have hfile' : s.getConfigurationFilename w' name = (filename, none) := by
    rw [getConfigurationFilename_congr s w w' name hdir]
    exact hfile
  obtain ⟨_, _, hname, hjoin, hres⟩ := configurationFilename_proper s w' name filename hfile'
  refine ⟨hname, ⟨filename, hfile', hgone⟩, ?_, ?_, ?_, ?_⟩
  · simp only [Store.HasConfiguration, hfile', osStat, hgone]
  · exact ⟨_, by rw [getConfiguration_missing s w' name filename hfile' hgone]⟩
  · rcases hloc : s.getStoreLocation w' with ⟨storeLocation, e⟩
    rw [hloc] at hres hjoin
    simp only at hres hjoin
    subst hres
    refine ⟨storeLocation, rfl, ?_⟩
    intro hmeta
    obtain ⟨found, hfound, hiff⟩ := listConfigurations_mem s w' storeLocation hloc hmeta
    refine ⟨found, hfound, ?_⟩
    intro hmem
    obtain ⟨_, ⟨node, hnode⟩, _⟩ := (hiff name).1 hmem
    rw [← hjoin, hgone] at hnode
    exact Option.noConfusion hnode
  · intro v
    simp [Store.RemoveConfiguration, Store.getConfigurationFilename]

/-- Witness of `removeConfiguration_removes`: the file of "proj1" is removed
from a store whose directory has no magic character. -/
theorem removeConfiguration_removes_witness :
    "proj1" ≠ "" ∧
    (∃ filename, NewStore.getConfigurationFilename
        (NewStore.RemoveConfiguration (proj1World (FileContent.document storedProj1)) "proj1").2
        "proj1" = (filename, none) ∧
      (NewStore.RemoveConfiguration (proj1World (FileContent.document storedProj1)) "proj1").2.nodes.get?
        filename = none) ∧
    (NewStore.HasConfiguration
      (NewStore.RemoveConfiguration (proj1World (FileContent.document storedProj1)) "proj1").2
      "proj1").1 = false ∧
    (∃ err, (NewStore.GetConfiguration
      (NewStore.RemoveConfiguration (proj1World (FileContent.document storedProj1)) "proj1").2
      "proj1").1 = (none, some err)) ∧
    (∃ storeLocation, NewStore.getStoreLocation
        (NewStore.RemoveConfiguration (proj1World (FileContent.document storedProj1)) "proj1").2 =
          (storeLocation, none) ∧
      (hasMeta storeLocation.data = false →
        ∃ names, NewStore.ListConfigurations
            (NewStore.RemoveConfiguration (proj1World (FileContent.document storedProj1)) "proj1").2 =
          (Listing.returned names none,
            (NewStore.RemoveConfiguration (proj1World (FileContent.document storedProj1)) "proj1").2) ∧
          "proj1" ∉ names)) ∧
    (∀ v, NewStore.RemoveConfiguration v "" =
      (some (Error.wrap "cannot remove configuration" Error.nameRequired), v)) :=
  removeConfiguration_removes NewStore (proj1World (FileContent.document storedProj1)) _ "proj1"
    (by decide)

/-- The removal of the witness, evaluated: the store directory
`/home/u/.config/intrinsic/projects` has no magic character, the file of
"proj1" listed before the call is gone after it, and the list is empty. -/
theorem removeConfiguration_removes_example :
    NewStore.getStoreLocation (proj1World (FileContent.document storedProj1)) =
      ("/home/u/.config/intrinsic/projects", none) ∧
    hasMeta "/home/u/.config/intrinsic/projects".data = false ∧
    (NewStore.ListConfigurations (proj1World (FileContent.document storedProj1))).1 =
      Listing.returned ["proj1"] none ∧
    (NewStore.RemoveConfiguration (proj1World (FileContent.document storedProj1)) "proj1").1 =
      none ∧
    (NewStore.ListConfigurations
      (NewStore.RemoveConfiguration (proj1World (FileContent.document storedProj1)) "proj1").2).1 =
      Listing.returned [] none := by
  decide

/-! ## Listing after writes -/

theorem osMkdirAllFuel_long (perm : Nat) :
    ∀ (fuel : Nat) (w : World) (path : String) (err : Option OSError) (w1 : World),
      osMkdirAllFuel fuel w path perm = (err, w1) →
      ∀ p : String, path.length < p.length → w1.nodes.get? p = w.nodes.get? p := by
  intro fuel
  induction fuel with
  | zero =>
    intro w path err w1 h p _
    simp only [osMkdirAllFuel, Prod.mk.injEq] at h
    rw [← h.2]
  | succ n ih =>
    intro w path err w1 h p hp
    simp only [osMkdirAllFuel] at h
    split at h
    · split at h <;> (simp only [Prod.mk.injEq] at h; rw [← h.2])
    · have hparent : ∀ (e : Option OSError) (wp : World),
          (match mkdirAllParent path with
            | some parent => osMkdirAllFuel n w parent perm
            | none => (none, w)) = (e, wp) → wp.nodes.get? p = w.nodes.get? p := by
        intro e wp hpar
        split at hpar
        · rename_i parent hm
          have hshort := mkdirAllParent_shorter path parent hm
          exact ih _ _ _ _ hpar p (by omega)
        · simp only [Prod.mk.injEq] at hpar
          rw [← hpar.2]
      have hne : p ≠ path := by
        intro he
        rw [he] at hp
        exact Nat.lt_irrefl _ hp
      split at h
      · rename_i e wp hpar
        simp only [Prod.mk.injEq] at h
        rw [← h.2]
        exact hparent _ _ hpar
      · rename_i wp hpar
        have hwp := hparent _ _ hpar
        split at h
        · rename_i w2 hmk
          simp only [Prod.mk.injEq] at h
          rw [← h.2]
          obtain ⟨_, hw2⟩ := osMkdir_ok wp w2 path perm hmk
          rw [hw2]
          exact (GoMap.get?_set_other _ _ _ _ hne).trans hwp
        · split at h
          · split at h <;> (simp only [Prod.mk.injEq] at h; rw [← h.2]; exact hwp)
          · simp only [Prod.mk.injEq] at h
            rw [← h.2]
            exact hwp

/-- The file of a project whose name has no slash lies in the store directory
under the name and the extension. -/
theorem storeFile_facts (s : Store) (w : World) (x : String) (hx : '/' ∉ x.data) :
    filepathDir (filepathJoin (s.getStoreLocation w).1 (x ++ authConfigExtension)) =
      (s.getStoreLocation w).1 ∧
    (s.getStoreLocation w).1.length <
      (filepathJoin (s.getStoreLocation w).1 (x ++ authConfigExtension)).length ∧
    ∀ y : String, '/' ∉ y.data →
      filepathJoin (s.getStoreLocation w).1 (x ++ authConfigExtension) =
        filepathJoin (s.getStoreLocation w).1 (y ++ authConfigExtension) → x = y := by
  obtain ⟨rooted, els, hclean, hne, hrender, _⟩ := storeLocation_clean (s.getConfigDir w).1
  have hS : (s.getStoreLocation w).1 = String.mk (renderPath rooted els) := by
    unfold Store.getStoreLocation
    exact hrender
  rw [hS]
  have hjoin : ∀ z : String, '/' ∉ z.data →
      filepathJoin (String.mk (renderPath rooted els)) (z ++ authConfigExtension) =
        String.mk (renderPath rooted els ++ '/' :: (z.data ++ authConfigExtension.data)) := by
    intro z hz
    exact filepathJoin_renderPath rooted els _ hclean hne (plainElement_extension z.data hz)
  refine ⟨?_, ?_, ?_⟩
  · rw [hjoin x hx]
    exact filepathDir_renderPath rooted els _ hclean hne (plainElement_extension x.data hx).2.2.2
  · rw [hjoin x hx]
    show (renderPath rooted els).length <
      (renderPath rooted els ++ '/' :: (x.data ++ authConfigExtension.data)).length
    simp only [List.length_append, List.length_cons]
    omega
  · intro y hy heq
    rw [hjoin x hx, hjoin y hy] at heq
    have hdata := congrArg String.data heq
    simp only [List.append_cancel_left_eq, List.cons.injEq, true_and,
      List.append_cancel_right_eq] at hdata
    exact String.ext hdata

/-- What a successful write of a configuration whose name has no slash leaves
in the store directory. -/
theorem writeConfiguration_store (now : Time) (s : Store) (w w' : World)
    (config written : ProjectConfiguration) (storeLocation : String)
    (hloc : s.getStoreLocation w = (storeLocation, none)) (hx : '/' ∉ config.Name.data)
    (h : s.WriteConfiguration now w config = ((written, none), w')) :
    s.getStoreLocation w' = (storeLocation, none) ∧
    (∃ node, w'.nodes.get? (filepathJoin storeLocation (config.Name ++ authConfigExtension)) =
      some node) ∧
    (∃ mode, w'.nodes.get? storeLocation = some (Node.dir mode)) ∧
    ∀ p : String, p ≠ filepathJoin storeLocation (config.Name ++ authConfigExtension) →
      storeLocation.length < p.length → w'.nodes.get? p = w.nodes.get? p := by
  obtain ⟨filename, w1, mode, hfile, hmk, _, hnode, hmode, hframe, hdir, _⟩ :=
    writeConfiguration_world now s w w' config written h
  obtain ⟨_, hdir1, _⟩ := osMkdirAllFuel_extends directoryMode _ _ _ _ _ hmk
  obtain ⟨_, _, _, hjoin, _⟩ := configurationFilename_proper s w config.Name filename hfile
  have hfacts := storeFile_facts s w config.Name hx
  rw [hloc] at hjoin hfacts
  simp only at hjoin hfacts
  rw [← hjoin] at hfacts ⊢
  obtain ⟨hparent, hlen, _⟩ := hfacts
  rw [hparent] at hmk
  obtain ⟨dmode, hdmode⟩ := osMkdirAllFuel_dir directoryMode _ _ _ _ hmk
  have hne : storeLocation ≠ filename := by
    intro he
    rw [← he] at hlen
    exact Nat.lt_irrefl _ hlen
  refine ⟨?_, ⟨_, hnode⟩, ⟨dmode, ?_⟩, ?_⟩
  · unfold Store.getStoreLocation Store.getConfigDir at hloc ⊢
    rw [hdir.trans hdir1]
    exact hloc
  · rw [hframe _ hne]
    exact hdmode
  · intro p hp hlong
    rw [hframe p hp]
    exact osMkdirAllFuel_long directoryMode _ _ _ _ _ hmk p hlong


theorem storeFile_entry (s : Store) (w : World) (x : String) (hx : '/' ∉ x.data) :
    entryName (s.getStoreLocation w).1.data
      (filepathJoin (s.getStoreLocation w).1 (x ++ authConfigExtension)).data =
      some (x.data ++ authConfigExtension.data) := by
  obtain ⟨rooted, els, hclean, hne, hrender, hlen⟩ := storeLocation_clean (s.getConfigDir w).1
  have hS : (s.getStoreLocation w).1 = String.mk (renderPath rooted els) := by
    unfold Store.getStoreLocation
    exact hrender
  have hplain := plainElement_extension x.data hx
  have hjoin : filepathJoin (String.mk (renderPath rooted els)) (x ++ authConfigExtension) =
      String.mk (renderPath rooted els ++ '/' :: (x.data ++ authConfigExtension.data)) :=
    filepathJoin_renderPath rooted els _ hclean hne hplain
  have h1 : renderPath rooted els ≠ ['/'] := by
    intro he
    rw [he] at hlen
    simp at hlen
  have h2 : renderPath rooted els ≠ ['.'] := by
    intro he
    rw [he] at hlen
    simp at hlen
  rw [hS, hjoin, entryName_eq_some _ _ _ h1 h2]
  exact ⟨rfl, hplain.1, hplain.2.2.2, hplain.2.1, hplain.2.2.1⟩

/-- C18 fails as stated: in a store that holds nothing, configurations named
"team/a" and "b" are written successfully; `ListConfigurations` then returns
"b" only, the file of "team/a" being in the directory `team` of the store
directory, where the pattern of the store does not look. -/
theorem listConfigurations_misses_nested :
    (NewStore.ListConfigurations freshWorld).1 = Listing.returned [] none ∧
    (NewStore.WriteConfiguration 1700000000000000000 freshWorld
      (NewConfiguration "team/a")).1.2 = none ∧
    (NewStore.WriteConfiguration 1700000001000000000 writtenNested
      (NewConfiguration "b")).1.2 = none ∧
    writtenNestedB.nodes.get? "/home/u/.config/intrinsic/projects/team/a.user-token" =
      some (Node.file 0o600 (FileContent.document
        ⟨"team/a", none, some (TimeText.stamp 1700000000000000000)⟩)) ∧
    (NewStore.ListConfigurations writtenNestedB).1 = Listing.returned ["b"] none ∧
    "team/a" ∉ ["b"] := by
  decide

/-- C18, as the code has it: when the store directory resolves and has no
magic character of `filepath.Glob`, `ListConfigurations` on a store whose
directory has no entry that ends with the extension returns an empty result
and no error; and after configurations named `a` and `b`, names without a
slash, have been written successfully to such a store, it returns no error and
names that are exactly `a` and `b`. -/
theorem listConfigurations_after_writes (now1 now2 : Time) (s : Store) (w wa wb : World)
    (ca cb ra rb : ProjectConfiguration) (storeLocation : String)
    (hloc : s.getStoreLocation w = (storeLocation, none))
    (hmeta : hasMeta storeLocation.data = false)
    (hempty : (readdirnames w storeLocation.data).filter (matchStar authConfigExtension.data) = [])
    (ha : '/' ∉ ca.Name.data) (hb : '/' ∉ cb.Name.data)
    (hwa : s.WriteConfiguration now1 w ca = ((ra, none), wa))
    (hwb : s.WriteConfiguration now2 wa cb = ((rb, none), wb)) :
    s.ListConfigurations w = (Listing.returned [] none, w) ∧
    ∃ names, s.ListConfigurations wb = (Listing.returned names none, wb) ∧
      ∀ x, x ∈ names ↔ x = ca.Name ∨ x = cb.Name := by
  have hnone : ∀ x : String, '/' ∉ x.data →
      w.nodes.get? (filepathJoin storeLocation (x ++ authConfigExtension)) = none := by
    intro x hx
    cases hnode : w.nodes.get? (filepathJoin storeLocation (x ++ authConfigExtension)) with
    | none => rfl
    | some node =>
      have hentry := storeFile_entry s w x hx
      rw [hloc] at hentry
      simp only at hentry
      have hmem : x.data ++ authConfigExtension.data ∈
          (readdirnames w storeLocation.data).filter (matchStar authConfigExtension.data) := by
        rw [List.mem_filter]
        exact ⟨(mem_readdirnames w _ _).2 ⟨_, node, hnode, hentry⟩,
          (matchStar_iff _ _).2 ⟨x.data, rfl, hx⟩⟩
      rw [hempty] at hmem
      simp at hmem
  have hfacts : ∀ x : String, '/' ∉ x.data →
      storeLocation.length < (filepathJoin storeLocation (x ++ authConfigExtension)).length ∧
      ∀ y : String, '/' ∉ y.data →
        filepathJoin storeLocation (x ++ authConfigExtension) =
          filepathJoin storeLocation (y ++ authConfigExtension) → x = y := by
    intro x hx
    have h := storeFile_facts s w x hx
    rw [hloc] at h
    exact h.2
  constructor
  · obtain ⟨names, hlist, hiff⟩ := listConfigurations_mem s w storeLocation hloc hmeta
    have hnil : names = [] := by
      apply List.eq_nil_iff_forall_not_mem.2
      intro x hx
      obtain ⟨hs, ⟨node, hnode⟩, _⟩ := (hiff x).1 hx
      rw [hnone x hs] at hnode
      exact Option.noConfusion hnode
    rw [hlist, hnil]
  · obtain ⟨hlocA, ⟨nodeA, hnodeA⟩, _, hframeA⟩ :=
      writeConfiguration_store now1 s w wa ca ra storeLocation hloc ha hwa
    obtain ⟨hlocB, ⟨nodeB, hnodeB⟩, hdirB, hframeB⟩ :=
      writeConfiguration_store now2 s wa wb cb rb storeLocation hlocA hb hwb
    obtain ⟨names, hlist, hiff⟩ := listConfigurations_mem s wb storeLocation hlocB hmeta
    refine ⟨names, hlist, fun x => ?_⟩
    rw [hiff x]
    constructor
    · rintro ⟨hs, ⟨node, hnode⟩, _⟩
      by_cases hxb : x = cb.Name
      · exact Or.inr hxb
      · have hneB : filepathJoin storeLocation (x ++ authConfigExtension) ≠
            filepathJoin storeLocation (cb.Name ++ authConfigExtension) :=
          fun he => hxb ((hfacts x hs).2 cb.Name hb he)
        rw [hframeB _ hneB (hfacts x hs).1] at hnode
        by_cases hxa : x = ca.Name
        · exact Or.inl hxa
        · have hneA : filepathJoin storeLocation (x ++ authConfigExtension) ≠
              filepathJoin storeLocation (ca.Name ++ authConfigExtension) :=
            fun he => hxa ((hfacts x hs).2 ca.Name ha he)
          rw [hframeA _ hneA (hfacts x hs).1, hnone x hs] at hnode
          exact Option.noConfusion hnode
    · rintro (hx | hx)
      · rw [hx]
        refine ⟨ha, ?_, hdirB⟩
        by_cases hsame : filepathJoin storeLocation (ca.Name ++ authConfigExtension) =
            filepathJoin storeLocation (cb.Name ++ authConfigExtension)
        · rw [hsame]
          exact ⟨nodeB, hnodeB⟩
        · rw [hframeB _ hsame (hfacts ca.Name ha).1]
          exact ⟨nodeA, hnodeA⟩
      · rw [hx]
        exact ⟨hb, ⟨nodeB, hnodeB⟩, hdirB⟩

/-- Witness of `listConfigurations_after_writes`: configurations named "a" and
"b" are written in a world where the store has not written anything. -/
theorem listConfigurations_after_writes_witness :
    NewStore.ListConfigurations freshWorld = (Listing.returned [] none, freshWorld) ∧
    ∃ names, NewStore.ListConfigurations writtenAB = (Listing.returned names none, writtenAB) ∧
      ∀ x, x ∈ names ↔ x = (NewConfiguration "a").Name ∨ x = (NewConfiguration "b").Name :=
  listConfigurations_after_writes 1700000000000000000 1700000001000000000 NewStore freshWorld
    writtenA writtenAB (NewConfiguration "a") (NewConfiguration "b")
    ⟨"a", some GoMap.empty, some 1700000000000000000⟩
    ⟨"b", some GoMap.empty, some 1700000001000000000⟩
    "/home/u/.config/intrinsic/projects" (by decide) (by decide) (by decide) (by decide)
    (by decide) (by decide) (by decide)


/-! ## One file per project -/

theorem removeConfiguration_userConfigDir (s : Store) (w : World) (name : String) :
    (s.RemoveConfiguration w name).2.userConfigDir = w.userConfigDir := by
  unfold Store.RemoveConfiguration
  split
  · rfl
  · rename_i filename hfile
    have hframe := (osRemoveAll_frame w filename).1
    split
    · rename_i w1 hrm
      rw [hrm] at hframe
      exact hframe
    · rename_i e w1 hrm
      rw [hrm] at hframe
      exact hframe

theorem removeConfiguration_frame (s : Store) (w : World) (name p : String)
    (h : ∀ filename, s.getConfigurationFilename w name = (filename, none) →
      p ≠ filename ∧ isUnder filename.data p.data = false) :
    (s.RemoveConfiguration w name).2.nodes.get? p = w.nodes.get? p ∧
    (s.RemoveConfiguration w name).2.userConfigDir = w.userConfigDir := by
  refine ⟨?_, removeConfiguration_userConfigDir s w name⟩
  unfold Store.RemoveConfiguration
  split
  · rfl
  · rename_i filename hfile
    obtain ⟨hp, hunder⟩ := h filename hfile
    have hframe := (osRemoveAll_frame w filename).2.2 p hp hunder
    split
    · rename_i w1 hrm
      rw [hrm] at hframe
      exact hframe
    · rename_i e w1 hrm
      rw [hrm] at hframe
      exact hframe

/-- The files of the projects whose names have no slash: the store directory,
a slash, the name and the extension. -/
theorem storeFile_form (s : Store) (w : World) :
    ∃ R : List Char, (s.getStoreLocation w).1 = String.mk R ∧ ∀ z : String, '/' ∉ z.data →
      filepathJoin (s.getStoreLocation w).1 (z ++ authConfigExtension) =
        String.mk (R ++ '/' :: (z.data ++ authConfigExtension.data)) := by
  obtain ⟨rooted, els, hclean, hne, hrender, _⟩ := storeLocation_clean (s.getConfigDir w).1
  have hS : (s.getStoreLocation w).1 = String.mk (renderPath rooted els) := by
    unfold Store.getStoreLocation
    exact hrender
  refine ⟨renderPath rooted els, hS, fun z hz => ?_⟩
  rw [hS]
  exact filepathJoin_renderPath rooted els _ hclean hne (plainElement_extension z.data hz)

theorem not_mem_extension : '/' ∉ authConfigExtension.data := by decide

theorem storeFile_not_under (s : Store) (w : World) (x y : String) (hx : '/' ∉ x.data)
    (hy : '/' ∉ y.data) :
    isUnder (filepathJoin (s.getStoreLocation w).1 (x ++ authConfigExtension)).data
      (filepathJoin (s.getStoreLocation w).1 (y ++ authConfigExtension)).data = false := by
  obtain ⟨R, _, hform⟩ := storeFile_form s w
  rw [hform x hx, hform y hy]
  unfold isUnder
  have hne : R ++ '/' :: (x.data ++ authConfigExtension.data) ≠ ['/'] := by
    intro he
    have hlen := congrArg List.length he
    have h11 : authConfigExtension.data.length = 11 := by decide
    simp only [List.length_append, List.length_cons, List.length_nil, h11] at hlen
    omega
  simp only [hne, if_false]
  cases hpre : ((R ++ '/' :: (x.data ++ authConfigExtension.data)) ++ ['/']).isPrefixOf
      (R ++ '/' :: (y.data ++ authConfigExtension.data)) with
  | false => rfl
  | true =>
    obtain ⟨t, ht⟩ := List.isPrefixOf_iff_prefix.1 hpre
    have hmem : '/' ∈ y.data ++ authConfigExtension.data := by
      have h2 : x.data ++ authConfigExtension.data ++ '/' :: t =
          y.data ++ authConfigExtension.data := by
        have h3 : R ++ '/' :: (x.data ++ authConfigExtension.data ++ '/' :: t) =
            R ++ '/' :: (y.data ++ authConfigExtension.data) := by
          rw [← ht]
          simp
        exact List.cons.inj (List.append_cancel_left h3) |>.2
      rw [← h2]
      simp
    rcases List.mem_append.1 hmem with h1 | h1
    · exact absurd h1 hy
    · exact absurd h1 not_mem_extension

theorem writeConfiguration_frame (now : Time) (s : Store) (w : World)
    (config : ProjectConfiguration) (hx : '/' ∉ config.Name.data) :
    (s.WriteConfiguration now w config).2.userConfigDir = w.userConfigDir ∧
    ∀ p : String,
      p ≠ filepathJoin (s.getStoreLocation w).1 (config.Name ++ authConfigExtension) →
      (s.getStoreLocation w).1.length < p.length →
      (s.WriteConfiguration now w config).2.nodes.get? p = w.nodes.get? p := by
  unfold Store.WriteConfiguration
  split
  · exact ⟨rfl, fun _ _ _ => rfl⟩
  · rename_i filename hfile
    obtain ⟨_, _, _, hjoin, _⟩ := configurationFilename_proper s w config.Name filename hfile
    have hparent := (storeFile_facts s w config.Name hx).1
    rw [← hjoin] at hparent ⊢
    rw [hparent]
    rcases hmk : osMkdirAll w (s.getStoreLocation w).1 directoryMode with ⟨err, w1⟩
    obtain ⟨_, hdir1, _⟩ := osMkdirAllFuel_extends directoryMode _ _ _ _ _ hmk
    have hlong := osMkdirAllFuel_long directoryMode _ _ _ _ _ hmk
    cases err with
    | some e => exact ⟨hdir1, fun p _ hp => hlong p hp⟩
    | none =>
      simp only
      cases hopen : osOpenFile w1 filename fileMode with
      | error e => exact ⟨hdir1, fun p _ hp => hlong p hp⟩
      | ok w2 =>
        obtain ⟨mode, hw2, _⟩ := osOpenFile_ok w1 w2 filename fileMode hopen
        simp only
        rw [hw2, fileWrite_put]
        refine ⟨hdir1, fun p hne hp => ?_⟩
        exact ((GoMap.get?_set_other _ _ _ _ hne).trans (GoMap.get?_set_other _ _ _ _ hne)).trans
          (hlong p hp)

/-- What `HasConfiguration` and `GetConfiguration` return depends on the
configuration directory and on what is at the path of the file. -/
theorem stored_state_congr (s : Store) (w w' : World) (name : String)
    (hdir : w'.userConfigDir = w.userConfigDir)
    (hnode : ∀ filename, s.getConfigurationFilename w name = (filename, none) →
      w'.nodes.get? filename = w.nodes.get? filename) :
    (s.HasConfiguration w' name).1 = (s.HasConfiguration w name).1 ∧
    (s.GetConfiguration w' name).1 = (s.GetConfiguration w name).1 := by
  have hfile := getConfigurationFilename_congr s w w' name hdir
  unfold Store.HasConfiguration Store.GetConfiguration
  rw [hfile]
  rcases hf : s.getConfigurationFilename w name with ⟨filename, err⟩
  cases err with
  | some e => exact ⟨rfl, rfl⟩
  | none =>
    have hn := hnode filename hf
    simp only [osStat, osOpen, hn]
    constructor
    · cases w.nodes.get? filename with
      | none => rfl
      | some node => cases node <;> rfl
    · cases w.nodes.get? filename with
      | none => rfl
      | some node => rfl

/-- C21 fails as stated: "team/../proj1" and "proj1" are distinct names that are
not empty, and `filepath.Join` cleans both to the path of one file.  In a store
that holds the configuration of "proj1", a write of a new configuration named
"team/../proj1" succeeds, after which `GetConfiguration` of "proj1" returns the
new configuration instead of the stored one; and a `RemoveConfiguration` of
"team/../proj1" succeeds, after which `HasConfiguration` of "proj1" is false and
`GetConfiguration` of "proj1" fails. -/
theorem write_reaches_other_project :
    ("team/../proj1" : String) ≠ "proj1" ∧ ("team/../proj1" : String) ≠ "" ∧
    ("proj1" : String) ≠ "" ∧
    (NewStore.HasConfiguration (proj1World (FileContent.document storedProj1)) "proj1").1 = true ∧
    (NewStore.GetConfiguration (proj1World (FileContent.document storedProj1)) "proj1").1 =
      (some ⟨"proj1", some ⟨[("default", some ⟨"key-123", none⟩)]⟩, some 1700000000000000000⟩,
        none) ∧
    (NewStore.WriteConfiguration 1800000000000000000 (proj1World (FileContent.document storedProj1))
      (NewConfiguration "team/../proj1")).1.2 = none ∧
    (NewStore.GetConfiguration
      (NewStore.WriteConfiguration 1800000000000000000 (proj1World (FileContent.document storedProj1))
        (NewConfiguration "team/../proj1")).2 "proj1").1 =
      (some ⟨"team/../proj1", some ⟨[]⟩, some 1800000000000000000⟩, none) ∧
    (NewStore.RemoveConfiguration (proj1World (FileContent.document storedProj1))
      "team/../proj1").1 = none ∧
    (NewStore.HasConfiguration
      (NewStore.RemoveConfiguration (proj1World (FileContent.document storedProj1))
        "team/../proj1").2 "proj1").1 = false ∧
    (NewStore.GetConfiguration
      (NewStore.RemoveConfiguration (proj1World (FileContent.document storedProj1))
        "team/../proj1").2 "proj1").1 =
      (none, some (Error.wrap "cannot open configuration file" (Error.os OSError.notExist))) := by
  decide

/-- C21, as the code has it: for distinct names `a` and `b` without a slash, a
`WriteConfiguration` of a configuration named `a` and a `RemoveConfiguration`
of `a`, whether they succeed or fail, leave what `HasConfiguration` and
`GetConfiguration` return for `b` as it was. -/
theorem other_project_unchanged (now : Time) (s : Store) (w : World)
    (config : ProjectConfiguration) (a b : String) (hab : a ≠ b)
    (ha : '/' ∉ a.data) (hb : '/' ∉ b.data) (hname : config.Name = a) :
    (s.HasConfiguration (s.WriteConfiguration now w config).2 b).1 = (s.HasConfiguration w b).1 ∧
    (s.GetConfiguration (s.WriteConfiguration now w config).2 b).1 = (s.GetConfiguration w b).1 ∧
    (s.HasConfiguration (s.RemoveConfiguration w a).2 b).1 = (s.HasConfiguration w b).1 ∧
    (s.GetConfiguration (s.RemoveConfiguration w a).2 b).1 = (s.GetConfiguration w b).1 := by
  subst hname
  have hfacts := storeFile_facts s w b hb
  have hother : filepathJoin (s.getStoreLocation w).1 (b ++ authConfigExtension) ≠
      filepathJoin (s.getStoreLocation w).1 (config.Name ++ authConfigExtension) :=
    fun he => hab (hfacts.2.2 config.Name ha he).symm
  have hpath : ∀ filename, s.getConfigurationFilename w b = (filename, none) →
      filename = filepathJoin (s.getStoreLocation w).1 (b ++ authConfigExtension) :=
    fun filename hf => (configurationFilename_proper s w b filename hf).2.2.2.1
  obtain ⟨hdirW, hframeW⟩ := writeConfiguration_frame now s w config ha
  have hwrite := stored_state_congr s w (s.WriteConfiguration now w config).2 b hdirW
    (fun filename hf => by
      rw [hpath filename hf]
      exact hframeW _ hother hfacts.2.1)
  have hremove : ∀ filename, s.getConfigurationFilename w b = (filename, none) →
      (s.RemoveConfiguration w config.Name).2.nodes.get? filename = w.nodes.get? filename ∧
      (s.RemoveConfiguration w config.Name).2.userConfigDir = w.userConfigDir := by
    intro filename hf
    rw [hpath filename hf]
    apply removeConfiguration_frame
    intro fa hfa
    rw [(configurationFilename_proper s w config.Name fa hfa).2.2.2.1]
    exact ⟨hother, storeFile_not_under s w config.Name b ha hb⟩
  have hdirR : (s.RemoveConfiguration w config.Name).2.userConfigDir = w.userConfigDir :=
    removeConfiguration_userConfigDir s w config.Name
  have hrem := stored_state_congr s w (s.RemoveConfiguration w config.Name).2 b hdirR
    (fun filename hf => (hremove filename hf).1)
  exact ⟨hwrite.1, hwrite.2, hrem.1, hrem.2⟩

/-- Witness of `other_project_unchanged`: in a store that holds the
configuration of "proj1", a configuration named "proj2" is written, and
"proj2" is removed. -/
theorem other_project_unchanged_witness :
    (NewStore.HasConfiguration
      (NewStore.WriteConfiguration 1800000000000000000 (proj1World (FileContent.document storedProj1))
        (NewConfiguration "proj2")).2 "proj1").1 =
      (NewStore.HasConfiguration (proj1World (FileContent.document storedProj1)) "proj1").1 ∧
    (NewStore.GetConfiguration
      (NewStore.WriteConfiguration 1800000000000000000 (proj1World (FileContent.document storedProj1))
        (NewConfiguration "proj2")).2 "proj1").1 =
      (NewStore.GetConfiguration (proj1World (FileContent.document storedProj1)) "proj1").1 ∧
    (NewStore.HasConfiguration
      (NewStore.RemoveConfiguration (proj1World (FileContent.document storedProj1)) "proj2").2
      "proj1").1 =
      (NewStore.HasConfiguration (proj1World (FileContent.document storedProj1)) "proj1").1 ∧
    (NewStore.GetConfiguration
      (NewStore.RemoveConfiguration (proj1World (FileContent.document storedProj1)) "proj2").2
      "proj1").1 =
      (NewStore.GetConfiguration (proj1World (FileContent.document storedProj1)) "proj1").1 :=
  other_project_unchanged 1800000000000000000 NewStore
    (proj1World (FileContent.document storedProj1)) (NewConfiguration "proj2") "proj2" "proj1"
    (by decide) (by decide) (by decide) rfl


/-! ## Path resolution -/

/-- A cleaned path other than the root and the working directory is the text
of its elements, of which it has at least one. -/
theorem cleaned_form (path : String) (hclean : filepathClean path = path) (h1 : path ≠ "/")
    (h2 : path ≠ ".") :
    ∃ rooted els, CleanElements rooted els ∧ els ≠ [] ∧ path = String.mk (renderPath rooted els) := by
  refine ⟨isRooted path.data, cleanElements (isRooted path.data) (splitSlash path.data) [],
    filepathClean_clean path, ?_, ?_⟩
  · intro hnil
    have heq := filepathClean_eq path
    rw [hclean, hnil] at heq
    cases hr : isRooted path.data with
    | true =>
      rw [hr] at heq
      exact h1 heq
    | false =>
      rw [hr] at heq
      exact h2 heq
  · exact hclean.symm.trans (filepathClean_eq path)

theorem storeLocation_literal (configDir : String) (hclean : filepathClean configDir = configDir)
    (h1 : configDir ≠ "/") (h2 : configDir ≠ ".") :
    ∃ rooted els, CleanElements rooted els ∧ els ≠ [] ∧
      filepathJoin configDir storeDirectory = String.mk (renderPath rooted els) ∧
      configDir ++ "/intrinsic/projects" = String.mk (renderPath rooted els) := by
  obtain ⟨rooted, els, hels, hne, hpath⟩ := cleaned_form configDir hclean h1 h2
  have hi : PlainElement "intrinsic".data := by
    unfold PlainElement
    decide
  have hp : PlainElement "projects".data := by
    unfold PlainElement
    decide
  have hc : configDir ≠ "" := by
    rw [hpath]
    exact string_mk_ne_empty _ (renderPath_clean rooted els hels hne).1
  have hels2 : CleanElements rooted (els ++ ["intrinsic".data] ++ ["projects".data]) :=
    cleanElements_snoc _ _ _ (cleanElements_snoc _ _ _ hels hi) hp
  have htext : configDir ++ "/intrinsic/projects" =
      String.mk (renderPath rooted (els ++ ["intrinsic".data] ++ ["projects".data])) := by
    rw [renderPath_snoc _ _ _ (by simp), renderPath_snoc _ _ _ hne]
    apply String.ext
    rw [String.data_append, hpath]
    simp
  refine ⟨rooted, els ++ ["intrinsic".data] ++ ["projects".data], hels2, by simp, ?_, htext⟩
  have hjoin : filepathJoin configDir storeDirectory =
      filepathClean (configDir ++ "/intrinsic/projects") := by
    simp only [filepathJoin, hc, ne_eq, not_false_eq_true, if_true]
    rw [String.append_assoc]
    rfl
  rw [hjoin, htext]
  exact filepathClean_renderPath _ _ hels2 (by simp)


/-- C22 fails as stated: `filepath.Join` cleans the path it makes.  For the
name "../x" the path returned is `/home/u/.config/intrinsic/x.user-token`, outside
`intrinsic/projects`; and with an injected resolver that returns the empty
directory without error the path returned is relative, with no slash before
`intrinsic`.  Neither is the text of the directory, `/intrinsic/projects/`, the
name and `.user-token`. -/
theorem getConfigurationFilename_cleaned :
    NewStore.getConfigDir freshWorld = ("/home/u/.config", none) ∧
    NewStore.getConfigurationFilename freshWorld "../x" =
      ("/home/u/.config/intrinsic/x.user-token", none) ∧
    NewStore.getConfigurationFilename freshWorld "../x" ≠
      ("/home/u/.config" ++ "/intrinsic/projects/" ++ "../x" ++ ".user-token", none) ∧
    (Store.mk (some ("", none))).getConfigDir freshWorld = ("", none) ∧
    (Store.mk (some ("", none))).getConfigurationFilename freshWorld "proj1" =
      ("intrinsic/projects/proj1.user-token", none) ∧
    (Store.mk (some ("", none))).getConfigurationFilename freshWorld "proj1" ≠
      ("" ++ "/intrinsic/projects/" ++ "proj1" ++ ".user-token", none) := by
  decide

/-- C22, as the code has it: the configuration directory is the pair of the
injected resolver when there is one and otherwise the answer of
`os.UserConfigDir` in the world of the call; `getConfigurationFilename` fails
exactly when the name is empty (InvalidProjectName) or the directory does not
resolve (the error of the resolver, wrapped); otherwise it returns the cleaned
join of the directory, `intrinsic/projects` and the name with `.user-token`,
which for a name without slash under a cleaned directory other than `/` and
`.` is the text of the directory, `/intrinsic/projects/`, the name and
`.user-token`. -/
theorem getConfigurationFilename_resolution (s : Store) (w : World) (name : String) :
    (s.getConfigDir w = match s.GetConfigDirFx with
      | some result => result
      | none => w.userConfigDir) ∧
    ((s.getConfigurationFilename w name).2 ≠ none ↔ name = "" ∨ (s.getConfigDir w).2 ≠ none) ∧
    (name = "" → s.getConfigurationFilename w name = ("", some Error.nameRequired)) ∧
    (name ≠ "" → ∀ err, (s.getConfigDir w).2 = some err →
      s.getConfigurationFilename w name =
        ("", some (Error.wrap "cannot find configurations" err))) ∧
    (name ≠ "" → (s.getConfigDir w).2 = none →
      s.getConfigurationFilename w name =
        (filepathJoin (filepathJoin (s.getConfigDir w).1 storeDirectory)
          (name ++ authConfigExtension), none)) ∧
    (name ≠ "" → (s.getConfigDir w).2 = none → '/' ∉ name.data →
      filepathClean (s.getConfigDir w).1 = (s.getConfigDir w).1 →
      (s.getConfigDir w).1 ≠ "/" → (s.getConfigDir w).1 ≠ "." →
      s.getConfigurationFilename w name =
        ((s.getConfigDir w).1 ++ "/intrinsic/projects/" ++ name ++ ".user-token", none)) := by
  have hjoin : name ≠ "" → (s.getConfigDir w).2 = none →
      s.getConfigurationFilename w name =
        (filepathJoin (filepathJoin (s.getConfigDir w).1 storeDirectory)
          (name ++ authConfigExtension), none) := by
    intro hname hdir
    rcases hd : s.getConfigDir w with ⟨configDir, err⟩
    rw [hd] at hdir
    simp only at hdir
    subst hdir
    simp only [Store.getConfigurationFilename, Store.getStoreLocation, hname, if_false, hd]
  refine ⟨?_, ?_, ?_, ?_, hjoin, ?_⟩
  · unfold Store.getConfigDir
    cases s.GetConfigDirFx <;> rfl
  · have hiff := getConfigurationFilename_ok_iff s w name
    constructor
    · intro hfail
      by_cases hname : name = ""
      · exact Or.inl hname
      · exact Or.inr (fun hdir => hfail (hiff.2 ⟨hname, hdir⟩))
    · intro hor hok
      rcases hor with h | h
      · exact (hiff.1 hok).1 h
      · exact h (hiff.1 hok).2
  · intro hname
    simp only [Store.getConfigurationFilename, hname, if_true]
  · intro hname err hdir
    rcases hd : s.getConfigDir w with ⟨configDir, e⟩
    rw [hd] at hdir
    simp only at hdir
    subst hdir
    simp only [Store.getConfigurationFilename, Store.getStoreLocation, hname, if_false, hd]
  · intro hname hdir hslash hclean h1 h2
    rw [hjoin hname hdir]
    obtain ⟨rooted, els, hels, hne, hstore, htext⟩ :=
      storeLocation_literal (s.getConfigDir w).1 hclean h1 h2
    have hfile := filepathJoin_renderPath rooted els _ hels hne
      (plainElement_extension name.data hslash)
    have hname' : name ++ authConfigExtension =
        String.mk (name.data ++ authConfigExtension.data) := rfl
    rw [hstore, hname', hfile]
    congr 1
    apply String.ext
    have hdata := congrArg String.data htext
    simp only [String.data_append] at hdata ⊢
    rw [← hdata]
    simp [authConfigExtension]

/-- The path of the file of "proj1" for the user of `freshWorld`. -/
theorem getConfigurationFilename_proj1 :
    NewStore.getConfigurationFilename freshWorld "proj1" =
      ("/home/u/.config/intrinsic/projects/proj1.user-token", none) := by
  decide


/-! ## End to end through the default alias -/

/-- What is read from the file that holds a written configuration with the one
token, without expiry, under the default alias. -/
theorem decode_default_only (n k : String) (updated : Time) :
    ∃ loaded err, finishConfiguration (decodeDocument (encodeConfiguration
        ⟨n, some (GoMap.empty.set AliasDefaultToken (some ⟨k, none⟩)), some updated⟩)) =
        (loaded, err) ∧
      ((Time.hasFourDigitYear updated && Time.hasOffsetInRange updated) = true → err = none) ∧
      loaded.Name = n ∧
      loaded.Tokens = some (GoMap.empty.set AliasDefaultToken (some ⟨k, none⟩)) := by
  cases htext : (Time.hasFourDigitYear updated && Time.hasOffsetInRange updated) with
  | true =>
    refine ⟨_, _, rfl, ?_, ?_, ?_⟩ <;>
      simp [encodeConfiguration, decodeDocument, finishConfiguration, GoMap.len, GoMap.set,
        GoMap.empty, insertEntry, GoMap.sortedEntries, encodeToken, decodeTokens,
        RFC3339Time.MarshalText, RFC3339Time.UnmarshalText, htext]
  | false =>
    refine ⟨_, _, rfl, ?_, ?_, ?_⟩ <;>
      simp [encodeConfiguration, decodeDocument, finishConfiguration, GoMap.len, GoMap.set,
        GoMap.empty, insertEntry, GoMap.sortedEntries, encodeToken, decodeTokens,
        RFC3339Time.MarshalText, RFC3339Time.UnmarshalText, htext]

/-- C23: for every name `n` and key `k` that is not empty, `SetDefaultCredentials`
of `k`, without expiry, on `NewConfiguration n` is `SetCredentials` for the alias
"default" and returns no error; and after a successful write of the result (the
name is then not empty), `GetConfiguration` of `n` returns a configuration
whose `GetDefaultCredentials`, which is `GetCredentials` for "default", returns
without error the token with the key `k` and no expiry, on which `Validate`
succeeds at every time.  `GetConfiguration` itself returns no error when the
clock reading of the write has, in UTC, a year in 0..9999. -/
theorem default_credentials_reload (now0 now now1 : Time) (s : Store) (w w' : World)
    (n k : String) (cfg written : ProjectConfiguration) (e : Option Error) (hk : k ≠ "")
    (hset : (NewConfiguration n).SetDefaultCredentials now0 k [] = some (cfg, e))
    (hwrite : s.WriteConfiguration now w cfg = ((written, none), w')) :
    e = none ∧
    (NewConfiguration n).SetDefaultCredentials now0 k [] =
      (NewConfiguration n).SetCredentials now0 "default" k [] ∧
    ∃ loaded err, s.GetConfiguration w' n = ((some loaded, err), w') ∧
      (Time.hasFourDigitYear (Time.UTC now) = true → err = none) ∧
      loaded.GetDefaultCredentials = (some ⟨k, none⟩, none) ∧
      loaded.GetCredentials "default" = (some ⟨k, none⟩, none) ∧
      ProjectToken.Validate now1 (some ⟨k, none⟩) = none := by
  have hvalid : ∀ t : Time, ProjectToken.Validate t (some ⟨k, none⟩) = none := by
    intro t
    simp [ProjectToken.Validate, hk]
  have hcfg : cfg = ⟨n, some (GoMap.empty.set AliasDefaultToken (some ⟨k, none⟩)), none⟩ ∧
      e = none := by
    simp only [ProjectConfiguration.SetDefaultCredentials, ProjectConfiguration.SetCredentials,
      NewConfiguration, newToken, hvalid, Option.some.injEq, Prod.mk.injEq] at hset
    exact ⟨hset.1.symm, hset.2.symm⟩
  obtain ⟨hcfg, he⟩ := hcfg
  subst hcfg
  obtain ⟨filename, w1, mode, hfile, hmk, hwritten, hnode, _, _, hdir, _⟩ :=
    writeConfiguration_world now s w w' _ written hwrite
  obtain ⟨_, hdir1, _⟩ := osMkdirAllFuel_extends directoryMode _ _ _ _ _ hmk
  have hfile' : s.getConfigurationFilename w' n = (filename, none) := by
    rw [getConfigurationFilename_congr s w w' n (hdir.trans hdir1)]
    exact hfile
  obtain ⟨loaded, err, hload, hyear, _, htokens⟩ := decode_default_only n k (Time.UTC now)
  rw [hwritten] at hnode
  have hyear' : Time.hasFourDigitYear (Time.UTC now) = true → err = none := by
    intro hutc
    apply hyear
    rw [hutc, hasOffsetInRange_utc]
    rfl
  refine ⟨he, rfl, loaded, err, ?_, hyear', ?_, ?_, hvalid now1⟩
  · simp only [Store.GetConfiguration, hfile', osOpen, hnode, decodeFile, hload]
  · simp only [ProjectConfiguration.GetDefaultCredentials, ProjectConfiguration.GetCredentials,
      htokens, lookupNilable, GoMap.get?_set_self]
  · show loaded.GetCredentials AliasDefaultToken = _
    simp only [ProjectConfiguration.GetCredentials, htokens, lookupNilable, GoMap.get?_set_self]

/-- Witness of `default_credentials_reload`: the scenario of the specification,
project "proj1" with the key "key-123", first written in `freshWorld`. -/
theorem default_credentials_reload_witness :
    (none : Option Error) = none ∧
    (NewConfiguration "proj1").SetDefaultCredentials 1700000000000000000 "key-123" [] =
      (NewConfiguration "proj1").SetCredentials 1700000000000000000 "default" "key-123" [] ∧
    ∃ loaded err, NewStore.GetConfiguration
        (NewStore.WriteConfiguration 1700000001000000000 freshWorld
          ⟨"proj1", some ⟨[("default", some ⟨"key-123", none⟩)]⟩, none⟩).2 "proj1" =
        ((some loaded, err),
          (NewStore.WriteConfiguration 1700000001000000000 freshWorld
            ⟨"proj1", some ⟨[("default", some ⟨"key-123", none⟩)]⟩, none⟩).2) ∧
      (Time.hasFourDigitYear (Time.UTC 1700000001000000000) = true → err = none) ∧
      loaded.GetDefaultCredentials = (some ⟨"key-123", none⟩, none) ∧
      loaded.GetCredentials "default" = (some ⟨"key-123", none⟩, none) ∧
      ProjectToken.Validate 1700000002000000000 (some ⟨"key-123", none⟩) = none :=
  default_credentials_reload 1700000000000000000 1700000001000000000 1700000002000000000
    NewStore freshWorld _ "proj1" "key-123"
    ⟨"proj1", some ⟨[("default", some ⟨"key-123", none⟩)]⟩, none⟩
    ⟨"proj1", some ⟨[("default", some ⟨"key-123", none⟩)]⟩, some 1700000001000000000⟩
    none (by decide) (by decide) (by decide)


/-! ## The installer address -/

/-- C24 fails as stated: the installer address is not given and the solution
is, "my-solution", but no project; `GetNormalizedInstallerAddress` returns the
default of the installer address flag, not the address of a relay. -/
theorem installerAddress_without_project :
    solutionOnlyFlags.IsSet KeyInstallerAddress = false ∧
    solutionOnlyFlags.IsSet KeySolution = true ∧
    solutionOnlyFlags.GetString KeySolution = "my-solution" ∧
    solutionOnlyFlags.GetFlagProject "project" = "" ∧
    solutionOnlyFlags.viperLocal.get? KeyInstallerAddress = some ⟨"xfa.lan:17080", none⟩ ∧
    solutionOnlyFlags.GetNormalizedInstallerAddress "project" = "xfa.lan:17080" ∧
    solutionOnlyFlags.GetNormalizedInstallerAddress "project" ≠
      "dns:///www.endpoints." ++ solutionOnlyFlags.GetFlagProject "project" ++ ".cloud.goog:443" := by
  decide

/-- C24, as the code has it: `GetNormalizedInstallerAddress` returns the value
of the installer address flag whenever that flag is set; when it is not set and
the values of the solution flag and of the project flag are both not empty, it
returns the relay address "dns:///www.endpoints.", the project,
".cloud.goog:443"; and when it is not set and the solution or the project is
empty, it returns the default of the installer address flag, as it does when
neither the installer address nor the solution is set, the default of the
solution flag being empty. -/
theorem getNormalizedInstallerAddress_eq (KeyProject : String) (cf : CmdFlags) :
    (cf.IsSet KeyInstallerAddress = true →
      cf.GetNormalizedInstallerAddress KeyProject = cf.GetString KeyInstallerAddress ∧
      ∀ binding value, cf.viperLocal.get? KeyInstallerAddress = some binding →
        binding.Given = some value → cf.GetNormalizedInstallerAddress KeyProject = value) ∧
    (cf.IsSet KeyInstallerAddress = false → cf.GetString KeySolution ≠ "" →
      cf.GetFlagProject KeyProject ≠ "" →
      cf.GetNormalizedInstallerAddress KeyProject =
        "dns:///www.endpoints." ++ cf.GetFlagProject KeyProject ++ ".cloud.goog:443") ∧
    (cf.IsSet KeyInstallerAddress = false →
      cf.GetString KeySolution = "" ∨ cf.GetFlagProject KeyProject = "" →
      ∀ binding, cf.viperLocal.get? KeyInstallerAddress = some binding →
        cf.GetNormalizedInstallerAddress KeyProject = binding.Default) ∧
    (cf.IsSet KeyInstallerAddress = false → cf.IsSet KeySolution = false →
      (∀ binding, cf.viperLocal.get? KeySolution = some binding → binding.Default = "") →
      ∀ binding, cf.viperLocal.get? KeyInstallerAddress = some binding →
        cf.GetNormalizedInstallerAddress KeyProject = binding.Default) := by
  have hdefault : cf.IsSet KeyInstallerAddress = false →
      ∀ binding, cf.viperLocal.get? KeyInstallerAddress = some binding →
        cf.GetString KeyInstallerAddress = binding.Default := by
    intro hset binding hb
    simp only [CmdFlags.IsSet, hb] at hset
    simp only [CmdFlags.GetString, hb]
    cases hg : binding.Given with
    | none => rfl
    | some v => simp [hg] at hset
  have hfallback : cf.IsSet KeyInstallerAddress = false →
      cf.GetString KeySolution = "" ∨ cf.GetFlagProject KeyProject = "" →
      cf.GetNormalizedInstallerAddress KeyProject = cf.GetString KeyInstallerAddress := by
    intro hset hor
    have hnot : ¬ (cf.GetString KeySolution ≠ "" ∧ cf.GetFlagProject KeyProject ≠ "") := by
      rintro ⟨h1, h2⟩
      rcases hor with h | h
      · exact h1 h
      · exact h2 h
    simp only [CmdFlags.GetNormalizedInstallerAddress, hset, hnot, if_false, Bool.false_eq_true]
  refine ⟨?_, ?_, ?_, ?_⟩
  · intro hset
    have hres : cf.GetNormalizedInstallerAddress KeyProject = cf.GetString KeyInstallerAddress := by
      simp only [CmdFlags.GetNormalizedInstallerAddress, hset, if_true]
    refine ⟨hres, fun binding value hb hg => ?_⟩
    rw [hres]
    simp only [CmdFlags.GetString, hb, hg]
  · intro hset hsol hproj
    simp only [CmdFlags.GetNormalizedInstallerAddress, hset, hsol, hproj, ne_eq, not_false_eq_true,
      and_self, if_true, if_false, Bool.false_eq_true, gcpEndpointsURL]
  · intro hset hor binding hb
    rw [hfallback hset hor]
    exact hdefault hset binding hb
  · intro hset hsolset hsoldef binding hb
    have hsol : cf.GetString KeySolution = "" := by
      simp only [CmdFlags.IsSet] at hsolset
      simp only [CmdFlags.GetString]
      cases hs : cf.viperLocal.get? KeySolution with
      | none => rfl
      | some sb =>
        rw [hs] at hsolset
        simp only at hsolset ⊢
        cases hg : sb.Given with
        | none => exact hsoldef sb hs
        | some v => simp [hg] at hsolset
    rw [hfallback hset (Or.inl hsol)]
    exact hdefault hset binding hb

/-- The installer address for the command lines that give the address, a
solution and a project, a solution and a project, and none of them. -/
theorem getNormalizedInstallerAddress_examples :
    addressGivenFlags.GetNormalizedInstallerAddress "project" = "localhost:17080" ∧
    solutionProjectFlags.GetNormalizedInstallerAddress "project" =
      "dns:///www.endpoints.my-project.cloud.goog:443" ∧
    defaultFlags.GetNormalizedInstallerAddress "project" = "xfa.lan:17080" := by
  decide


/-! ## What `SetCredentials` leaves alone -/

theorem hasCredentials_eq_true_iff (p : ProjectConfiguration) (k : String) :
    p.HasCredentials k = true ↔ ∃ token, lookupNilable p.Tokens k = some token := by
  unfold ProjectConfiguration.HasCredentials
  cases lookupNilable p.Tokens k with
  | none => simp
  | some token => simp

/-- C25: on a configuration with a non-nil `Tokens`, `SetCredentials` returns a
configuration with the same `Name` and the same `LastUpdated`, in which every
alias other than the given one has the token it had, or none as before, and in
which the aliases present are those present before and the given one. -/
theorem setCredentials_frame (now : Time) (p : ProjectConfiguration)
    (tokens : GoMap (Option ProjectToken)) (tokenAlias apiKey : String) (validUntil : List Time)
    (hmap : p.Tokens = some tokens) :
    ∃ q err, p.SetCredentials now tokenAlias apiKey validUntil = some (q, err) ∧
      q.Name = p.Name ∧ q.LastUpdated = p.LastUpdated ∧
      (∀ other, other ≠ tokenAlias →
        lookupNilable q.Tokens other = lookupNilable p.Tokens other) ∧
      (∀ other, other ≠ tokenAlias → q.GetCredentials other = p.GetCredentials other) ∧
      (∀ k, q.HasCredentials k = true ↔ k = tokenAlias ∨ p.HasCredentials k = true) := by
  have hother : ∀ other, other ≠ tokenAlias →
      lookupNilable (some (tokens.set tokenAlias (some (newToken apiKey validUntil)))) other =
        lookupNilable p.Tokens other := by
    intro other hne
    rw [hmap]
    exact GoMap.get?_set_other _ _ _ _ hne
  refine ⟨⟨p.Name, some (tokens.set tokenAlias (some (newToken apiKey validUntil))), p.LastUpdated⟩,
    ProjectToken.Validate now (some (newToken apiKey validUntil)),
    by simp only [ProjectConfiguration.SetCredentials, hmap], rfl, rfl, hother, ?_, ?_⟩
  · intro other hne
    simp only [ProjectConfiguration.GetCredentials, hother other hne]
  · intro k
    rw [hasCredentials_eq_true_iff, hasCredentials_eq_true_iff]
    by_cases hk : k = tokenAlias
    · subst hk
      simp only [true_or, iff_true]
      exact ⟨_, GoMap.get?_set_self _ _ _⟩
    · simp only [hother k hk, hk, false_or]

/-- Witness of `setCredentials_frame`: a token for the alias "robot" is set in
a configuration that holds a default token and the time of its last write. -/
theorem setCredentials_frame_witness :
    ∃ q err, ProjectConfiguration.SetCredentials 1700000000000000000
        ⟨"proj1", some ⟨[("default", some ⟨"key-123", none⟩)]⟩, some 1600000000000000000⟩
        "robot" "key-456" [1800000000000000000] = some (q, err) ∧
      q.Name = "proj1" ∧ q.LastUpdated = some 1600000000000000000 ∧
      (∀ other, other ≠ "robot" →
        lookupNilable q.Tokens other =
          lookupNilable (some ⟨[("default", some ⟨"key-123", none⟩)]⟩) other) ∧
      (∀ other, other ≠ "robot" → q.GetCredentials other =
        (ProjectConfiguration.mk "proj1" (some ⟨[("default", some ⟨"key-123", none⟩)]⟩)
          (some 1600000000000000000)).GetCredentials other) ∧
      (∀ k, q.HasCredentials k = true ↔ k = "robot" ∨
        (ProjectConfiguration.mk "proj1" (some ⟨[("default", some ⟨"key-123", none⟩)]⟩)
          (some 1600000000000000000)).HasCredentials k = true) :=
  setCredentials_frame 1700000000000000000
    ⟨"proj1", some ⟨[("default", some ⟨"key-123", none⟩)]⟩, some 1600000000000000000⟩
    ⟨[("default", some ⟨"key-123", none⟩)]⟩ "robot" "key-456" [1800000000000000000] rfl

/-! ## No write to a nil map -/

theorem getConfiguration_tokens (s : Store) (w : World) (name : String)
    (cfg : ProjectConfiguration) (err : Option Error)
    (h : (s.GetConfiguration w name).1 = (some cfg, err)) : ∃ tokens, cfg.Tokens = some tokens := by
  rcases getConfiguration_cases s w name with ⟨e, _, hget⟩ | ⟨f, _, _, hget⟩ | ⟨f, node, _, _, hget⟩
  · rw [hget] at h
    simp at h
  · rw [hget] at h
    simp at h
  · rw [hget] at h
    simp only [Prod.mk.injEq, Option.some.injEq] at h
    obtain ⟨tokens, ht, _, _⟩ := finishConfiguration_tokens (decodeFile node)
    exact ⟨tokens, h.1 ▸ ht⟩

/-- C26: `SetCredentials` and `SetDefaultCredentials` return, without the panic
of a write to a nil map, for every alias, key and expiry, on the configuration
that `NewConfiguration` makes for any name and on every configuration that
`GetConfiguration` returns, with or without an error and whatever the file
holds. -/
theorem setCredentials_returns (s : Store) (w : World) (name : String)
    (cfg : ProjectConfiguration) (err : Option Error)
    (h : (s.GetConfiguration w name).1 = (some cfg, err)) :
    (∀ now n tokenAlias apiKey validUntil, ∃ q e,
      (NewConfiguration n).SetCredentials now tokenAlias apiKey validUntil = some (q, e)) ∧
    (∀ now n apiKey validUntil, ∃ q e,
      (NewConfiguration n).SetDefaultCredentials now apiKey validUntil = some (q, e)) ∧
    (∀ now tokenAlias apiKey validUntil, ∃ q e,
      cfg.SetCredentials now tokenAlias apiKey validUntil = some (q, e)) ∧
    (∀ now apiKey validUntil, ∃ q e,
      cfg.SetDefaultCredentials now apiKey validUntil = some (q, e)) := by
  obtain ⟨tokens, ht⟩ := getConfiguration_tokens s w name cfg err h
  refine ⟨fun _ _ _ _ _ => ⟨_, _, rfl⟩, fun _ _ _ _ => ⟨_, _, rfl⟩, ?_, ?_⟩
  · intro now tokenAlias apiKey validUntil
    exact ⟨_, _, by simp only [ProjectConfiguration.SetCredentials, ht]; rfl⟩
  · intro now apiKey validUntil
    exact ⟨_, _, by
      simp only [ProjectConfiguration.SetDefaultCredentials, ProjectConfiguration.SetCredentials, ht]
      rfl⟩

/-- Witness of `setCredentials_returns`: the file of "proj1" has no "tokens". -/
theorem setCredentials_returns_witness :
    (∀ now n tokenAlias apiKey validUntil, ∃ q e,
      (NewConfiguration n).SetCredentials now tokenAlias apiKey validUntil = some (q, e)) ∧
    (∀ now n apiKey validUntil, ∃ q e,
      (NewConfiguration n).SetDefaultCredentials now apiKey validUntil = some (q, e)) ∧
    (∀ now tokenAlias apiKey validUntil, ∃ q e,
      (ProjectConfiguration.mk "proj1" (some GoMap.empty) none).SetCredentials now tokenAlias apiKey
        validUntil = some (q, e)) ∧
    (∀ now apiKey validUntil, ∃ q e,
      (ProjectConfiguration.mk "proj1" (some GoMap.empty) none).SetDefaultCredentials now apiKey
        validUntil = some (q, e)) :=
  setCredentials_returns NewStore (proj1World (FileContent.document bareDocument)) "proj1"
    ⟨"proj1", some GoMap.empty, none⟩ none (by decide)


end Auth
